import Mathlib

/-!
# text-diff: statistics reducer, incremental renderer and worker manager

A shallow embedding of `js/shared-utils.js`, `js/renderer.js`, `js/config.js`
and `js/worker-manager.js`, followed by the properties proved about them.

Conventions of the embedding
* A JavaScript string is the list of its UTF-16 code units (`JSString`), so
  `text.length` is `List.length`.
* JavaScript numbers that count things are natural numbers; the counts in the
  program stay far below 2^53, where the two agree.
* A diff is `[type, text]` with `type` one of `DIFF_DELETE = -1`,
  `DIFF_EQUAL = 0`, `DIFF_INSERT = 1`, the three values diff_match_patch
  produces.
-/

namespace TextDiff

/-! ## Strings -/

/-- A JavaScript string, as the sequence of its UTF-16 code units. -/
abbrev JSString := List Nat

/-- UTF-16 encoding of one Unicode scalar value. -/
def utf16Char (c : Char) : JSString :=
  if c.toNat < 65536 then [c.toNat]
  else [55296 + (c.toNat - 65536) / 1024, 56320 + (c.toNat - 65536) % 1024]

/-- The JavaScript string denoted by a string literal. -/
def utf16 (s : String) : JSString :=
  s.toList.foldr (fun c acc => utf16Char c ++ acc) []

/-- Code units matched by the character class `[\r\n]`. -/
def isLineBreak (c : Nat) : Bool := c == 13 || c == 10

/-- Code units matched by `\d`. -/
def isDigit (c : Nat) : Bool := decide (48 ≤ c) && decide (c ≤ 57)

/-- Code units matched by `\s` (ECMAScript WhiteSpace and LineTerminator). -/
def isWhiteSpace (c : Nat) : Bool :=
  c == 9 || c == 10 || c == 11 || c == 12 || c == 13 || c == 32 || c == 160 ||
  c == 5760 || (decide (8192 ≤ c) && decide (c ≤ 8202)) || c == 8232 || c == 8233 ||
  c == 8239 || c == 8287 || c == 12288 || c == 65279

/-- Decimal digits of `n` pushed in front of `acc`; `fuel` bounds the number of digits. -/
def digitsOnto : Nat → Nat → JSString → JSString
  | 0, _, acc => acc
  | fuel + 1, n, acc =>
    let acc' := (48 + n % 10) :: acc
    if n / 10 = 0 then acc' else digitsOnto fuel (n / 10) acc'

/-- Number-to-string conversion of a non-negative integer, as in a template literal. -/
def numberToString (n : Nat) : JSString := digitsOnto (n + 1) n []

/-- The function `parseInt(s, 10)` on a string of decimal digits. -/
def parseInt (s : JSString) : Nat := s.foldl (fun a d => 10 * a + (d - 48)) 0

/-- Number of matches of `/\n/g` in `text`. -/
def countNewlines (text : JSString) : Nat := text.count 10

/-- The method `text.endsWith('\n')`. -/
def endsWithNewline (text : JSString) : Bool := text.getLast? == some 10

/-- The method `text.indexOf('\n')`, with `none` for -1. -/
def indexOfNewline : JSString → Option Nat
  | [] => none
  | c :: cs => if c = 10 then some 0 else (indexOfNewline cs).map (· + 1)

/-- The method `text.lastIndexOf('\n')`, with `none` for -1. -/
def lastIndexOfNewline : JSString → Option Nat
  | [] => none
  | c :: cs =>
    match lastIndexOfNewline cs with
    | some k => some (k + 1)
    | none => if c = 10 then some 0 else none

/-- The test `/^\r?\n/` on `text`. -/
def startsWithNewline : JSString → Bool
  | 10 :: _ => true
  | 13 :: 10 :: _ => true
  | _ => false

/-- The test `/[\r\n]/` on `text`. -/
def containsLineBreak (text : JSString) : Bool := text.any isLineBreak

/-- State machine behind `text.split(/([\r\n]+)/)`: `inBreak` tells whether the
piece `cur` being collected is a run of line breaks (a captured separator). -/
def splitBreaksGo : Bool → JSString → JSString → List JSString
  | false, cur, [] => [cur]
  | true, cur, [] => [cur, []]
  | false, cur, c :: cs =>
    if isLineBreak c then cur :: splitBreaksGo true [c] cs
    else splitBreaksGo false (cur ++ [c]) cs
  | true, cur, c :: cs =>
    if isLineBreak c then splitBreaksGo true (cur ++ [c]) cs
    else cur :: splitBreaksGo false [c] cs

/-- The call `text.split(/([\r\n]+)/)`: the pieces between the maximal runs of
line breaks alternate with those runs, and a piece at either end may be empty. -/
def splitBreaks (text : JSString) : List JSString := splitBreaksGo false [] text

/-! ## Diffs -/

/-- Operation code of a diff. -/
inductive DiffType
  | delete
  | equal
  | insert
  deriving DecidableEq, Repr

/-- One diff `[type, text]`. -/
structure DiffOp where
  type : DiffType
  text : JSString
  deriving DecidableEq, Repr

/-- The operation code printed in a template literal: `-1`, `0` or `1`. -/
def DiffType.toJSString : DiffType → JSString
  | .delete => [45, 49]
  | .equal => [48]
  | .insert => [49]

/-! ## shared-utils.js -/

/-- `DiffUtils.shouldIgnoreChange`: with `ignoreEnter` on, the test `/^[\r\n]+$/`. -/
def shouldIgnoreChange (text : JSString) (ignoreEnter : Bool) : Bool :=
  if !ignoreEnter then false
  else !text.isEmpty && text.all isLineBreak

/-- The result object of `calculateStats`. -/
structure Stats where
  added : Nat
  removed : Nat
  lines : Nat
  totalChanges : Nat
  deriving DecidableEq, Repr

/-- The local variables of `calculateStats`; `modifiedLines` is the Set of
string keys, kept in insertion order. -/
structure StatsAcc where
  totalChanges : Nat
  addedChars : Nat
  removedChars : Nat
  modifiedLines : List JSString
  deriving DecidableEq, Repr

/-- The method `Set.prototype.add`. -/
def setAdd (s : List JSString) (k : JSString) : List JSString :=
  if k ∈ s then s else s ++ [k]

/-- The key built by the template literal with `type`, `totalChanges` and `i`
joined by underscores. -/
def lineKey (type : DiffType) (totalChanges i : Nat) : JSString :=
  type.toJSString ++ [95] ++ numberToString totalChanges ++ [95] ++ numberToString i

/-- The loop `for (let i = 0; i < linesInChunk; i++) modifiedLines.add(key)`. -/
def addLineKeys (type : DiffType) (totalChanges linesInChunk : Nat)
    (modifiedLines : List JSString) : List JSString :=
  (List.range linesInChunk).foldl (fun s i => setAdd s (lineKey type totalChanges i))
    modifiedLines

/-- Body of the `diffs.forEach` callback of `calculateStats`. -/
def statsStep (ignoreEnter : Bool) (acc : StatsAcc) (op : DiffOp) : StatsAcc :=
  let newlines := countNewlines op.text
  if op.type ≠ DiffType.equal then
    if shouldIgnoreChange op.text ignoreEnter then acc
    else
      let charCount :=
        if ignoreEnter then (op.text.filter (fun c => !isLineBreak c)).length
        else op.text.length
      let totalChanges := acc.totalChanges + 1
      let addedChars :=
        if op.type = DiffType.insert then acc.addedChars + charCount else acc.addedChars
      let removedChars :=
        if op.type = DiffType.delete then acc.removedChars + charCount else acc.removedChars
      let linesInChunk := if newlines > 0 then newlines + 1 else 1
      { totalChanges := totalChanges
        addedChars := addedChars
        removedChars := removedChars
        modifiedLines := addLineKeys op.type totalChanges linesInChunk acc.modifiedLines }
  else acc

/-- `DiffUtils.calculateStats`. -/
def calculateStats (diffs : List DiffOp) (ignoreEnter : Bool) : Stats :=
  let acc := diffs.foldl (statsStep ignoreEnter)
    { totalChanges := 0, addedChars := 0, removedChars := 0, modifiedLines := [] }
  { added := acc.addedChars
    removed := acc.removedChars
    lines := acc.modifiedLines.length
    totalChanges := acc.totalChanges }

/-! ## config.js -/

/-- The constant `SAFE_RENDER_LIMIT`. -/
def SAFE_RENDER_LIMIT : Nat := 5000

/-- The constant `CHUNK_SIZE` of `DiffRenderer.render`. -/
def CHUNK_SIZE : Nat := 500

/-! ## The output sink

The children of `ui.diffOutput` (and of a chunk's document fragment) are the
four kinds of node the renderer creates. -/

/-- The `className` of a span created by the renderer. -/
inductive SpanClass
  | plain
  | diffAdd
  | diffDel
  deriving DecidableEq, Repr

/-- A node created by the renderer: a text node, a `br` element, a `div` of
class `diff-separator`, or a `span`. -/
inductive Node
  | text (data : JSString)
  | br
  | separator (textContent : JSString)
  | span (className : SpanClass) (textContent : JSString)
  deriving DecidableEq, Repr

/-- Whether a node is an Element, that is, not a text node. -/
def Node.isElement : Node → Bool
  | .text _ => false
  | _ => true

/-- The property `lastElementChild` of a parent with the given children. -/
def lastElementChild (children : List Node) : Option Node :=
  children.reverse.find? Node.isElement

/-- Replaces the first Element of a list by `f` of it. -/
def mapFirstElement (f : Node → Node) : List Node → List Node
  | [] => []
  | n :: rest => if n.isElement then f n :: rest else n :: mapFirstElement f rest

/-- The assignment `lastEl.textContent = t`, where `lastEl` is the separator that
is the last element child of the given children. -/
def setLastElementText (children : List Node) (t : JSString) : List Node :=
  (mapFirstElement (fun _ => Node.separator t) children.reverse).reverse

/-- The regular expression `/(\d+)\s+Hidden/` tried at the start of `s`: its
first capture group. Both quantifiers can only match their maximal run, since the
code unit after a shorter run is again a digit (or again white space). -/
def matchHiddenAt (s : JSString) : Option JSString :=
  let digits := s.takeWhile isDigit
  let afterDigits := s.dropWhile isDigit
  let spaces := afterDigits.takeWhile isWhiteSpace
  let afterSpaces := afterDigits.dropWhile isWhiteSpace
  if !digits.isEmpty && !spaces.isEmpty && (utf16 "Hidden").isPrefixOf afterSpaces
  then some digits else none

/-- The call `s.match(/(\d+)\s+Hidden/)`: capture group 1 of the leftmost match. -/
def matchHidden : JSString → Option JSString
  | [] => none
  | c :: cs =>
    match matchHiddenAt (c :: cs) with
    | some d => some d
    | none => matchHidden cs

/-- The text of a hidden-lines separator for `n` lines. -/
def hiddenLabel (n : Nat) : JSString :=
  utf16 "... " ++ numberToString n ++ utf16 " Hidden Line" ++
    (if n ≠ 1 then utf16 "s" else []) ++ utf16 " ..."

/-- The text of the separator shown when nothing visible was rendered. -/
def noChangesLabel : JSString := utf16 "No changes found"

/-! ## renderer.js: one chunk -/

/-- The settings of the UI controller read by the renderer. -/
structure Flags where
  ignoreEnter : Bool
  viewOnlyDiff : Bool
  deriving DecidableEq, Repr

/-- What the body of `renderChunk` reads and writes while it walks over a chunk:
the children of `ui.diffOutput`, the children of `chunkFragment`, and the
variables `isLineDirty` and `visibleItemCount` of the enclosing `render`. -/
structure Chunk where
  diffOutput : List Node
  chunkFragment : List Node
  isLineDirty : Bool
  visibleItemCount : Nat
  deriving DecidableEq, Repr

/-- The call `chunkFragment.appendChild(n)`. -/
def Chunk.append (c : Chunk) (n : Node) : Chunk :=
  { c with chunkFragment := c.chunkFragment ++ [n] }

/-- The statement `visibleItemCount++`. -/
def Chunk.countVisible (c : Chunk) : Chunk :=
  { c with visibleItemCount := c.visibleItemCount + 1 }

/-- The expression `chunkFragment.lastElementChild || this.ui.diffOutput.lastElementChild`. -/
def Chunk.lastEl (c : Chunk) : Option Node :=
  match lastElementChild c.chunkFragment with
  | some n => some n
  | none => lastElementChild c.diffOutput

/-- The assignment `lastEl.textContent = t` for the `lastEl` of `Chunk.lastEl`:
the element lives in the fragment when the fragment has an element child, and in
`ui.diffOutput` otherwise. -/
def Chunk.setLastElText (c : Chunk) (t : JSString) : Chunk :=
  match lastElementChild c.chunkFragment with
  | some _ => { c with chunkFragment := setLastElementText c.chunkFragment t }
  | none => { c with diffOutput := setLastElementText c.diffOutput t }

/-- The closure `insertSeparatorIfNeeded(i, text)`. -/
def insertSeparatorIfNeeded (ui : Flags) (i : Nat) (text : JSString) (c : Chunk) : Chunk :=
  let newlines := countNewlines text
  let lineCount := if ui.ignoreEnter && text.all isWhiteSpace then 0 else newlines + 1
  match c.lastEl with
  | some (Node.separator textContent) =>
    match matchHidden textContent with
    | some m =>
      let currentCount := parseInt m
      let newCount := currentCount + lineCount
      if newCount ≠ currentCount then c.setLastElText (hiddenLabel newCount) else c
    | none => c
  | _ =>
    if lineCount > 0 then c.append (Node.separator (hiddenLabel lineCount))
    else if decide (i > 0) && !ui.viewOnlyDiff then c.append Node.br
    else c

/-- Steps 2 and 3 of `processViewOnlyContext`, run on what is left of the text
after the suffix: split at the last newline into `hiddenHead` and `tail` (the
first values of `hiddenPart` and `visiblePart`), decide whether the tail starts a
changed line (`isPrefix`), emit the separator and the visible tail. -/
def processRemainingText (ui : Flags) (diffs : List DiffOp) (i : Nat)
    (currentText : JSString) (c : Chunk) : Chunk :=
  if currentText.isEmpty then c
  else
    let lastNewlineIndex := lastIndexOfNewline currentText
    let hiddenHead : JSString :=
      match lastNewlineIndex with
      | some k => currentText.take (k + 1)
      | none => []
    let tail : JSString :=
      match lastNewlineIndex with
      | some k => currentText.drop (k + 1)
      | none => currentText
    let isNextChange :=
      match diffs.get? (i + 1) with
      | some nextToken => decide (nextToken.type ≠ DiffType.equal)
      | none => false
    let nextStartsNewline :=
      match diffs.get? (i + 1) with
      | some nextToken => startsWithNewline nextToken.text
      | none => false
    let isPrefix := !tail.isEmpty && (isNextChange && !nextStartsNewline)
    let hiddenPart := if isPrefix then hiddenHead else hiddenHead ++ tail
    let visiblePart := if isPrefix then tail else []
    let c1 := if hiddenPart.isEmpty then c else insertSeparatorIfNeeded ui i hiddenPart c
    if visiblePart.isEmpty then c1 else (c1.append (Node.text visiblePart)).countVisible

/-- The closure `processViewOnlyContext(i, text)`. -/
def processViewOnlyContext (ui : Flags) (diffs : List DiffOp) (i : Nat)
    (text : JSString) (c : Chunk) : Chunk :=
  if c.isLineDirty then
    match indexOfNewline text with
    | none => (c.append (Node.text text)).countVisible
    | some firstNewlineIndex =>
      let suffix := text.take firstNewlineIndex
      let c1 := if suffix.isEmpty then c else (c.append (Node.text suffix)).countVisible
      let c2 := { c1 with isLineDirty := false }
      let currentText := text.drop (firstNewlineIndex + 1)
      processRemainingText ui diffs i currentText (c2.append Node.br)
  else processRemainingText ui diffs i text c

/-- The callback of `parts.forEach` in the branch that splits a change at its
runs of line breaks. -/
def renderPart (ui : Flags) (type : DiffType) (c : Chunk) (part : JSString) : Chunk :=
  if part.isEmpty then c
  else
    let isIgnored := shouldIgnoreChange part ui.ignoreEnter
    let className :=
      if isIgnored then SpanClass.plain
      else if type = DiffType.insert then SpanClass.diffAdd else SpanClass.diffDel
    let c1 := c.append (Node.span className part)
    if isIgnored then c1 else c1.countVisible

/-- The tail of the loop body, reached with the (possibly reclassified) `type`:
a marked span for an insertion or a deletion, a text node for context. -/
def renderPlain (type : DiffType) (text : JSString) (c : Chunk) : Chunk :=
  match type with
  | .insert => (c.append (Node.span SpanClass.diffAdd text)).countVisible
  | .delete => (c.append (Node.span SpanClass.diffDel text)).countVisible
  | .equal => (c.append (Node.text text)).countVisible

/-- One iteration of the loop `for (let i = index; i < endIndex; i++)`. -/
def renderOp (ui : Flags) (diffs : List DiffOp) (i : Nat) (c : Chunk) : Chunk :=
  match diffs.get? i with
  | none => c
  | some op =>
    if op.type = DiffType.equal && ui.viewOnlyDiff then
      processViewOnlyContext ui diffs i op.text c
    else if op.type ≠ DiffType.equal then
      let c1 := { c with isLineDirty := !endsWithNewline op.text }
      if shouldIgnoreChange op.text ui.ignoreEnter then
        if ui.viewOnlyDiff then
          let c2 := insertSeparatorIfNeeded ui i op.text c1
          if !endsWithNewline op.text then { c2 with isLineDirty := true } else c2
        else renderPlain DiffType.equal op.text c1
      else if containsLineBreak op.text then
        let c2 := (splitBreaks op.text).foldl (renderPart ui op.type) c1
        { c2 with isLineDirty := !endsWithNewline op.text }
      else renderPlain op.type op.text c1
    else renderPlain DiffType.equal op.text c

/-- The loop `for (let i = index; i < endIndex; i++)`, as `count` iterations from `i`. -/
def renderOps (ui : Flags) (diffs : List DiffOp) : Nat → Nat → Chunk → Chunk
  | _, 0, c => c
  | i, count + 1, c => renderOps ui diffs (i + 1) count (renderOp ui diffs i c)

/-! ## renderer.js: the renderer object and the host scheduler

The page elements the UI controller looks up by id and stores (`diff-output`,
`load-more-container`, `btn-load-more` and its span, `loading-bar`,
`main-container`) are taken to exist, so the guard
`if (this.ui.loadMoreContainer)` passes. The property `ui.diffProgress` is
another matter: the renderer guards every use of it with
`if (this.ui.diffProgress)`, and the constructor of `UIController` never
assigns it, so the model keeps it optional and a page of this repository has
none. -/

/-- The text shown in `ui.diffProgress`: as found on the page, `Rendering: 0%`,
or `Paused at p%` with `p` computed from `currentIndex` and `total`. -/
inductive ProgressText
  | blank
  | rendering
  | pausedAt (currentIndex total : Nat)
  deriving DecidableEq, Repr

/-- The element `ui.diffProgress`, when the controller has one: whether it is
displayed, and its text. -/
structure ProgressElement where
  shown : Bool
  text : ProgressText
  deriving DecidableEq, Repr

/-- The part of the page the renderer reads and writes. `attached` is the value
of `mainContainer.contains(diffOutput)`; `diffProgress` is the property of that
name, `none` when the controller has none; `loadMoreRemaining` is the number
shown in the span of the load-more button. -/
structure UI extends Flags where
  attached : Bool
  diffOutput : List Node
  diffProgress : Option ProgressElement
  loadMoreShown : Bool
  loadMoreRemaining : Option Nat
  loadingBarActive : Bool
  deriving DecidableEq, Repr

/-- Whether a progress element is displayed: never when the controller has none. -/
def UI.progressShown (ui : UI) : Bool :=
  match ui.diffProgress with
  | some element => element.shown
  | none => false

/-- The text of the progress element, blank when the controller has none. -/
def UI.progressText (ui : UI) : ProgressText :=
  match ui.diffProgress with
  | some element => element.text
  | none => ProgressText.blank

/-- The variables of one call of `render` that its closure `renderChunk`
captures; `renderLimit` is `none` for `Infinity`. -/
structure Job where
  diffs : List DiffOp
  index : Nat
  renderLimit : Option Nat
  isLineDirty : Bool
  visibleItemCount : Nat
  deriving DecidableEq, Repr

/-- Which host function scheduled a task. -/
inductive TaskType
  | raf
  | timeout
  deriving DecidableEq, Repr

/-- The object stored in `this.renderTask`. -/
structure RenderTask where
  id : Nat
  type : TaskType
  deriving DecidableEq, Repr

/-- A `DiffRenderer` together with the part of the host it talks to.
`currentResume` holds the captured variables of the closure passed to `pause`.
`scheduled` lists the callbacks handed to `requestAnimationFrame` or `setTimeout`
that have neither run nor been cancelled, each with the variables of its
`renderChunk` closure; `nextTaskId` is the next handle the host gives out.
`pauseCalls` records the arguments `(currentIndex, total)` of every call of
`pause`, for stating properties; the program does not read it. -/
structure DiffRenderer where
  ui : UI
  renderTask : Option RenderTask
  isRenderingPaused : Bool
  currentResume : Option Job
  documentHidden : Bool
  nextTaskId : Nat
  scheduled : List (RenderTask × Job)
  pauseCalls : List (Nat × Nat)
  deriving DecidableEq, Repr

/-- `scheduleNext(task)`, where the task is `renderChunk` closed over `job`. -/
def scheduleNext (job : Job) (r : DiffRenderer) : DiffRenderer :=
  let task : RenderTask :=
    { id := r.nextTaskId, type := if r.documentHidden then TaskType.timeout else TaskType.raf }
  { r with
    renderTask := some task
    nextTaskId := r.nextTaskId + 1
    scheduled := r.scheduled ++ [(task, job)] }

/-- `cancelTask()`: `cancelAnimationFrame` or `clearTimeout` removes the callback
with the stored handle from the host, if it is still waiting. -/
def cancelTask (r : DiffRenderer) : DiffRenderer :=
  match r.renderTask with
  | none => r
  | some task =>
    { r with
      scheduled := r.scheduled.filter (fun p => decide (p.1 ≠ task))
      renderTask := none }

/-- `stop()`. -/
def stop (r : DiffRenderer) : DiffRenderer :=
  let r1 := cancelTask r
  { r1 with
    ui := { r1.ui with
      diffProgress := r1.ui.diffProgress.map (fun element => { element with shown := false })
      loadMoreShown := false }
    currentResume := none
    isRenderingPaused := false }

/-- `pause(currentIndex, total, resumeCallback)`, the callback being the closure
of `renderChunk` over `job`. -/
def pause (currentIndex total : Nat) (job : Job) (r : DiffRenderer) : DiffRenderer :=
  { r with
    isRenderingPaused := true
    ui := { r.ui with
      loadMoreShown := true
      loadMoreRemaining := some (total - currentIndex)
      diffProgress := r.ui.diffProgress.map
        (fun element => { element with text := ProgressText.pausedAt currentIndex total }) }
    currentResume := some job
    pauseCalls := r.pauseCalls ++ [(currentIndex, total)] }

/-- The final check of `renderChunk`: in view-only mode with nothing visible the
output is replaced by the single separator `No changes found`. -/
def finalCheck (ui : Flags) (visibleItemCount : Nat) (out : List Node) : List Node :=
  if ui.viewOnlyDiff && visibleItemCount == 0 then [Node.separator noChangesLabel] else out

/-- The walk of `renderChunk` over its chunk, from `job.index` to
`Math.min(index + CHUNK_SIZE, diffs.length)`, started on an empty fragment. -/
def chunkWalk (ui : Flags) (job : Job) (diffOutput : List Node) : Chunk :=
  let endIndex := min (job.index + CHUNK_SIZE) job.diffs.length
  renderOps ui job.diffs job.index (endIndex - job.index)
    { diffOutput := diffOutput
      chunkFragment := []
      isLineDirty := job.isLineDirty
      visibleItemCount := job.visibleItemCount }

/-- The variables of the job after a chunk: `index = endIndex`, and the flags
left by the walk. -/
def Job.afterChunk (job : Job) (c : Chunk) : Job :=
  { job with
    index := min (job.index + CHUNK_SIZE) job.diffs.length
    isLineDirty := c.isLineDirty
    visibleItemCount := c.visibleItemCount }

/-- The part of `renderChunk` after the limit check: walk over the chunk, append
the fragment, advance `index`, then schedule the next chunk or finish. -/
def renderChunkBody (job : Job) (r : DiffRenderer) : DiffRenderer :=
  let c := chunkWalk r.ui.toFlags job r.ui.diffOutput
  let job' := job.afterChunk c
  let r1 := { r with ui := { r.ui with diffOutput := c.diffOutput ++ c.chunkFragment } }
  if job'.index < job.diffs.length then scheduleNext job' r1
  else
    { r1 with
      renderTask := none
      ui := { r1.ui with
        loadingBarActive := false
        diffOutput := finalCheck r.ui.toFlags job'.visibleItemCount r1.ui.diffOutput } }

/-- The closure `renderChunk` of `render`, run with the captured variables `job`. -/
def renderChunk (job : Job) (r : DiffRenderer) : DiffRenderer :=
  if !r.ui.attached then r
  else
    match job.renderLimit with
    | some limit =>
      if job.index ≥ limit then pause job.index job.diffs.length job r
      else renderChunkBody job r
    | none => renderChunkBody job r

/-- `render(diffs)` with the initial value of `renderLimit` as a parameter. -/
def renderWithLimit (renderLimit : Option Nat) (diffs : List DiffOp)
    (r : DiffRenderer) : DiffRenderer :=
  let r1 := stop r
  let r2 := { r1 with ui := { r1.ui with
    diffOutput := []
    diffProgress := r1.ui.diffProgress.map
      (fun _ => { shown := true, text := ProgressText.rendering }) } }
  renderChunk
    { diffs := diffs, index := 0, renderLimit := renderLimit, isLineDirty := false,
      visibleItemCount := 0 } r2

/-- `render(diffs)`: the limit starts at `SAFE_RENDER_LIMIT`. -/
def render (diffs : List DiffOp) (r : DiffRenderer) : DiffRenderer :=
  renderWithLimit (some SAFE_RENDER_LIMIT) diffs r

/-- `resume()`: runs the stored callback, which lifts the limit, hides the
load-more container and calls `renderChunk`, then forgets the callback. -/
def resume (r : DiffRenderer) : DiffRenderer :=
  match r.currentResume with
  | none => r
  | some job =>
    let r1 := { r with ui := { r.ui with loadMoreShown := false } }
    let r2 := renderChunk { job with renderLimit := none } r1
    { r2 with currentResume := none }

/-- The host runs the callback that has waited longest. -/
def fireNext (r : DiffRenderer) : DiffRenderer :=
  match r.scheduled with
  | [] => r
  | (_, job) :: rest => renderChunk job { r with scheduled := rest }

/-- The host runs scheduled callbacks, at most `fuel` of them, until none waits. -/
def run : Nat → DiffRenderer → DiffRenderer
  | 0, r => r
  | fuel + 1, r =>
    match r.scheduled with
    | [] => r
    | _ :: _ => run fuel (fireNext r)

/-- A freshly constructed `DiffRenderer` on a page showing `ui`. -/
def DiffRenderer.new (ui : UI) (documentHidden : Bool) : DiffRenderer :=
  { ui := ui
    renderTask := none
    isRenderingPaused := false
    currentResume := none
    documentHidden := documentHidden
    nextTaskId := 0
    scheduled := []
    pauseCalls := [] }

/-! ## worker-manager.js

The callbacks `onSuccess` and `onError` given to the constructor belong to the
caller and are taken to return normally; the embedding records each call of
them, in order, in `callbacks`. A Worker object is named by the number of Worker
objects built before it. -/

/-- The message posted to the worker (the two script URLs are left out). -/
structure WorkerRequest where
  textA : JSString
  textB : JSString
  ignoreEnter : Bool
  deriving DecidableEq, Repr

/-- The `data` of a message received from the worker. -/
inductive WorkerData
  | success (diff : List DiffOp) (stats : Stats)
  | failure (error : JSString)
  deriving DecidableEq, Repr

/-- One call of a callback of the manager, with its arguments; `stats` is `none`
for `null`. -/
inductive Callback
  | onSuccess (diffs : List DiffOp) (stats : Option Stats)
  | onError (error : JSString)
  deriving DecidableEq, Repr

/-- The diff_match_patch library as the manager uses it on the main thread; a
call either returns or throws an error with the given message.
`diff_cleanupSemantic` returns the array it leaves in place of its argument. -/
structure DiffMatchPatch where
  diff_main : JSString → JSString → Except JSString (List DiffOp)
  diff_cleanupSemantic : List DiffOp → Except JSString (List DiffOp)

/-- What the manager finds around it: `workerAvailable k` tells whether the
`k`-th call of `init` manages to build its Worker (otherwise the `try` block
throws before `this.worker` is assigned); `dmp` is `none` when
`typeof diff_match_patch === 'undefined'`. -/
structure Env where
  workerAvailable : Nat → Bool
  dmp : Option DiffMatchPatch

/-- A `DiffWorkerManager` with the part of the host it talks to: `workersCreated`
counts the Worker objects built, `terminated` lists the workers on which
`terminate()` was called, `posted` lists the `postMessage` calls. `callbacks` and
`initCalls` record the calls of the callbacks and of `init`. -/
structure DiffWorkerManager where
  worker : Option Nat
  isBusy : Bool
  useFallback : Bool
  workersCreated : Nat
  terminated : List Nat
  posted : List (Nat × WorkerRequest)
  callbacks : List Callback
  initCalls : Nat
  deriving DecidableEq, Repr

/-- The call `this.worker.terminate()` (nothing to do when there is no worker). -/
def terminateWorker (m : DiffWorkerManager) : DiffWorkerManager :=
  match m.worker with
  | some w => { m with terminated := m.terminated ++ [w] }
  | none => m

/-- `init()`. -/
def init (env : Env) (m : DiffWorkerManager) : DiffWorkerManager :=
  let m1 := { terminateWorker m with initCalls := m.initCalls + 1 }
  if env.workerAvailable m.initCalls then
    { m1 with worker := some m1.workersCreated, workersCreated := m1.workersCreated + 1 }
  else { m1 with useFallback := true }

/-- The message of the error thrown when the library is missing. -/
def libraryMissingMessage : JSString :=
  utf16 "diff_match_patch library could not be loaded. Please ensure lib/diff_match_patch.js is present."

/-- The message passed to `onError` by the `onerror` handler of the worker. -/
def workerFailedMessage : JSString :=
  utf16 "Worker failed. Enabling fallback for next run."

/-- The fallback branch of `compute`: the diff is computed on the caller. -/
def computeFallback (env : Env) (textA textB : JSString) (m : DiffWorkerManager) :
    DiffWorkerManager :=
  match env.dmp with
  | none => { m with callbacks := m.callbacks ++ [Callback.onError libraryMissingMessage] }
  | some dmp =>
    match dmp.diff_main textA textB with
    | .error message => { m with callbacks := m.callbacks ++ [Callback.onError message] }
    | .ok diffs =>
      match dmp.diff_cleanupSemantic diffs with
      | .error message => { m with callbacks := m.callbacks ++ [Callback.onError message] }
      | .ok cleaned => { m with callbacks := m.callbacks ++ [Callback.onSuccess cleaned none] }

/-- `compute(textA, textB, ignoreEnter)`; `depth` bounds the nesting of the call
`this.compute(...)` it makes after a failed re-initialisation. -/
def computeDepth : Nat → Env → JSString → JSString → Bool → DiffWorkerManager →
    DiffWorkerManager
  | 0, _, _, _, _, m => m
  | depth + 1, env, textA, textB, ignoreEnter, m =>
    let m1 := if m.worker.isNone && !m.useFallback then init env m else m
    if m1.useFallback then computeFallback env textA textB m1
    else
      let m2 := if m1.isBusy then init env (terminateWorker m1) else m1
      if m2.useFallback then computeDepth depth env textA textB ignoreEnter m2
      else
        match m2.worker with
        | some w =>
          { m2 with
            isBusy := true
            posted := m2.posted ++
              [(w, { textA := textA, textB := textB, ignoreEnter := ignoreEnter })] }
        | none => { m2 with isBusy := true }

/-- `compute(textA, textB, ignoreEnter)`: one nested call is all it can make, as
the nested call finds `useFallback` set. -/
def compute (env : Env) (textA textB : JSString) (ignoreEnter : Bool)
    (m : DiffWorkerManager) : DiffWorkerManager :=
  computeDepth 2 env textA textB ignoreEnter m

/-- The handler `worker.onmessage`. -/
def onmessage (data : WorkerData) (m : DiffWorkerManager) : DiffWorkerManager :=
  let m1 := { m with isBusy := false }
  match data with
  | .success diff stats =>
    { m1 with callbacks := m1.callbacks ++ [Callback.onSuccess diff (some stats)] }
  | .failure error => { m1 with callbacks := m1.callbacks ++ [Callback.onError error] }

/-- The handler `worker.onerror`; with no worker held, `this.worker.terminate()`
throws and the handler ends there. -/
def onerror (m : DiffWorkerManager) : DiffWorkerManager :=
  let m1 := { m with isBusy := false, useFallback := true }
  match m1.worker with
  | none => m1
  | some _ =>
    let m2 := terminateWorker m1
    { m2 with worker := none, callbacks := m2.callbacks ++ [Callback.onError workerFailedMessage] }

/-- Whether worker `w` exists and has not been terminated; the host delivers
events only from such a worker. -/
def workerLive (m : DiffWorkerManager) (w : Nat) : Bool :=
  decide (w < m.workersCreated) && !m.terminated.contains w

/-- What can happen to a manager after its construction. -/
inductive ManagerEvent
  | compute (textA textB : JSString) (ignoreEnter : Bool)
  | message (w : Nat) (data : WorkerData)
  | error (w : Nat)

/-- The effect of one event. -/
def ManagerEvent.apply (env : Env) (m : DiffWorkerManager) : ManagerEvent → DiffWorkerManager
  | .compute textA textB ignoreEnter => TextDiff.compute env textA textB ignoreEnter m
  | .message w data => if workerLive m w then onmessage data m else m
  | .error w => if workerLive m w then onerror m else m

/-- The effect of a sequence of events, the first one first. -/
def applyEvents (env : Env) (m : DiffWorkerManager) (events : List ManagerEvent) :
    DiffWorkerManager :=
  events.foldl (ManagerEvent.apply env) m

/-- The constructor of `DiffWorkerManager`. -/
def DiffWorkerManager.new (env : Env) : DiffWorkerManager :=
  init env
    { worker := none
      isBusy := false
      useFallback := false
      workersCreated := 0
      terminated := []
      posted := []
      callbacks := []
      initCalls := 0 }

/-! ## Vocabulary of the statements -/

/-- An insertion or a deletion that `shouldIgnoreChange` does not ignore. -/
def isCountedChange (ignoreEnter : Bool) (op : DiffOp) : Bool :=
  decide (op.type ≠ DiffType.equal) && !shouldIgnoreChange op.text ignoreEnter

/-- The characters of a change that count: all of them, or all but `\r` and `\n`
when `ignoreEnter` is on. -/
def countedLength (ignoreEnter : Bool) (text : JSString) : Nat :=
  if ignoreEnter then (text.filter (fun c => !isLineBreak c)).length else text.length

/-- A text that is not empty and made of `\r` and `\n` only. -/
def isPureLineBreaks (text : JSString) : Prop :=
  text ≠ [] ∧ ∀ c ∈ text, c = 13 ∨ c = 10

/-- Every key of the Set was made for a change numbered at most `totalChanges`. -/
def KeysBelow (acc : StatsAcc) : Prop :=
  ∀ k ∈ acc.modifiedLines, ∃ t a i, k = lineKey t a i ∧ a ≤ acc.totalChanges

/-- No callback of an earlier job waits in the host: at most one callback is
scheduled, it is the one `renderTask` names, and no resume callback is held
while it waits. Every state a renderer reaches satisfies this. -/
def wellFormed (r : DiffRenderer) : Bool :=
  match r.scheduled with
  | [] => true
  | [(task, _)] => r.renderTask == some task && r.currentResume.isNone
  | _ => false

/-- The idle state: no task, no resume callback, not paused, and the progress
and load-more affordances hidden. -/
def isIdle (r : DiffRenderer) : Bool :=
  r.renderTask.isNone && r.currentResume.isNone && !r.isRenderingPaused &&
    !r.ui.progressShown && !r.ui.loadMoreShown && r.scheduled.isEmpty

/-- Where a job stands once the host has run some of its callbacks: finished
with the given output, paused with the given captured variables, or still
waiting for its next callback. -/
inductive Outcome
  | done (out : List Node)
  | paused (job : Job) (out : List Node)
  | waiting (job : Job) (out : List Node)
  deriving DecidableEq, Repr

/-- The children of `ui.diffOutput` in an outcome. -/
def Outcome.out : Outcome → List Node
  | .done out => out
  | .paused _ out => out
  | .waiting _ out => out

/-- The captured variables of the scheduled callbacks in an outcome. -/
def Outcome.scheduledJobs : Outcome → List Job
  | .waiting job _ => [job]
  | _ => []

/-- The arguments `(currentIndex, total)` of the call of `pause` in an outcome. -/
def Outcome.pauses : Outcome → List (Nat × Nat)
  | .paused job _ => [(job.index, job.diffs.length)]
  | _ => []

/-- The resume callback held after an outcome, `prev` being the one held before. -/
def Outcome.resumeAfter (prev : Option Job) : Outcome → Option Job
  | .paused job _ => some job
  | _ => prev

/-- The limit check of `renderChunk`: `index >= renderLimit && renderLimit !== Infinity`. -/
def limitReached (job : Job) : Bool :=
  match job.renderLimit with
  | some limit => decide (job.index ≥ limit)
  | none => false

/-- One call of `renderChunk` on an attached output followed by at most `fuel`
scheduled callbacks, as a function of the job variables and of the output alone. -/
def drive (ui : Flags) : Nat → Job → List Node → Outcome
  | fuel, job, out =>
    if limitReached job then Outcome.paused job out
    else
      let c := chunkWalk ui job out
      let job' := job.afterChunk c
      let out' := c.diffOutput ++ c.chunkFragment
      if job'.index < job.diffs.length then
        match fuel with
        | 0 => Outcome.waiting job' out'
        | fuel + 1 => drive ui fuel job' out'
      else Outcome.done (finalCheck ui job'.visibleItemCount out')

/-- The variables of a fresh job of `render`. -/
def Job.start (renderLimit : Option Nat) (diffs : List DiffOp) : Job :=
  { diffs := diffs, index := 0, renderLimit := renderLimit, isLineDirty := false,
    visibleItemCount := 0 }

/-- Two renderers that show the same thing and have the same work ahead: equal
settings, equal output, equal variables in the scheduled callbacks and in the
resume callback. Task handles and the affordances may differ. -/
def sameView (r r' : DiffRenderer) : Prop :=
  r.ui.toFlags = r'.ui.toFlags ∧ r.ui.attached = r'.ui.attached ∧
  r.ui.diffOutput = r'.ui.diffOutput ∧
  r.scheduled.map Prod.snd = r'.scheduled.map Prod.snd ∧
  r.currentResume = r'.currentResume

/-- The sequence of Scenario B of the specification. -/
def scenarioB : List DiffOp :=
  [⟨DiffType.equal, utf16 "line1\n"⟩, ⟨DiffType.delete, utf16 "old\n"⟩,
   ⟨DiffType.insert, utf16 "new\n"⟩, ⟨DiffType.equal, utf16 "line2\n"⟩]

/-- A page with the given settings whose output element is attached and empty. -/
def freshPage (ignoreEnter viewOnlyDiff : Bool) : UI :=
  { ignoreEnter := ignoreEnter
    viewOnlyDiff := viewOnlyDiff
    attached := true
    diffOutput := []
    diffProgress := none
    loadMoreShown := false
    loadMoreRemaining := none
    loadingBarActive := false }

/-- A new renderer on a fresh page in the foreground. -/
def freshRenderer (ignoreEnter viewOnlyDiff : Bool) : DiffRenderer :=
  DiffRenderer.new (freshPage ignoreEnter viewOnlyDiff) false

/-- A page where no Worker can be built and whose diff library reports the
deletion of the first text and the insertion of the second. -/
def noWorkerEnv : Env :=
  { workerAvailable := fun _ => false
    dmp := some
      { diff_main := fun textA textB =>
          Except.ok [⟨DiffType.delete, textA⟩, ⟨DiffType.insert, textB⟩]
        diff_cleanupSemantic := fun diffs => Except.ok diffs } }

/-- What holds of every manager the constructor and the events produce: the
worker held was built, every worker built is the one held or was terminated,
and only built workers got a message or were terminated. -/
def managerWF (m : DiffWorkerManager) : Prop :=
  (∀ w, m.worker = some w → w < m.workersCreated) ∧
  (∀ w, w < m.workersCreated → m.worker = some w ∨ w ∈ m.terminated) ∧
  (∀ p ∈ m.posted, p.1 < m.workersCreated) ∧
  (∀ w ∈ m.terminated, w < m.workersCreated)

/-- Whether an event is a call of `compute`. -/
def ManagerEvent.isCompute : ManagerEvent → Bool
  | .compute _ _ _ => true
  | _ => false

/-- A page where every Worker can be built, with the library of `noWorkerEnv`. -/
def workingEnv : Env :=
  { workerAvailable := fun _ => true
    dmp := noWorkerEnv.dmp }

/-- A page where only the first Worker can be built, with the library of
`noWorkerEnv`. -/
def oneWorkerEnv : Env :=
  { workerAvailable := fun k => k == 0
    dmp := noWorkerEnv.dmp }

/-- The text after the last `\n` of `text`, all of it when it has none. -/
def tailAfterLastNewline (text : JSString) : JSString :=
  (text.reverse.takeWhile (fun c => c != 10)).reverse

/-- The text up to and including the last `\n` of `text`, empty when it has none. -/
def headThroughLastNewline (text : JSString) : JSString :=
  (text.reverse.dropWhile (fun c => c != 10)).reverse

/-- The line count `insertSeparatorIfNeeded` gives to a hidden text: the number of
`\n` plus one, or 0 for a text of white space only when `ignoreEnter` is on. -/
def hiddenLineCount (ui : Flags) (text : JSString) : Nat :=
  if ui.ignoreEnter && text.all isWhiteSpace then 0 else countNewlines text + 1

/-- The children of the output once the fragment is appended to it. -/
def Chunk.flat (c : Chunk) : List Node := c.diffOutput ++ c.chunkFragment

/-- Two states of a walk that differ at most in where the output is cut between
`ui.diffOutput` and the fragment. -/
def Chunk.same (c c' : Chunk) : Prop :=
  c.flat = c'.flat ∧ c.isLineDirty = c'.isLineDirty ∧
  c.visibleItemCount = c'.visibleItemCount

/-- The non-empty pieces of `text.split(/([\r\n]+)/)`, in order. -/
def breakParts (text : JSString) : List JSString :=
  (splitBreaks text).filter (fun part => !part.isEmpty)

/-- The class of the span made for a piece of a change of the given type. -/
def partClass (ui : Flags) (type : DiffType) (part : JSString) : SpanClass :=
  if shouldIgnoreChange part ui.ignoreEnter then SpanClass.plain
  else if type = DiffType.insert then SpanClass.diffAdd else SpanClass.diffDel

/-- The text a node shows. -/
def Node.shownText : Node → JSString
  | .text data => data
  | .br => []
  | .separator textContent => textContent
  | .span _ textContent => textContent

/-- Whether a node is a span of the given class. -/
def Node.hasClass (cls : SpanClass) : Node → Bool
  | .span className _ => decide (className = cls)
  | _ => false

/-- The state in which `render` starts its first chunk. -/
def Chunk.start : Chunk :=
  { diffOutput := [], chunkFragment := [], isLineDirty := false, visibleItemCount := 0 }

/-- The whole sequence processed in one single step: one walk over all diffs
with one fragment on an empty output, the fragment appended, the final check. -/
def renderInOneStep (ui : Flags) (diffs : List DiffOp) : List Node :=
  finalCheck ui (renderOps ui diffs 0 diffs.length Chunk.start).visibleItemCount
    (renderOps ui diffs 0 diffs.length Chunk.start).flat

/-- The loop of `renderChunk` with the chunk size as a parameter: at most `fuel`
steps of `size` diffs each from `index`, every step on a fragment of its own
that is appended to the output, then the final check. -/
def renderInChunks (ui : Flags) (diffs : List DiffOp) (size : Nat) :
    Nat → Nat → List Node → Bool → Nat → List Node
  | 0, _, out, _, _ => out
  | fuel + 1, index, out, isLineDirty, visibleItemCount =>
    let endIndex := min (index + size) diffs.length
    let c := renderOps ui diffs index (endIndex - index)
      { diffOutput := out, chunkFragment := [], isLineDirty := isLineDirty,
        visibleItemCount := visibleItemCount }
    if endIndex < diffs.length then
      renderInChunks ui diffs size fuel endIndex c.flat c.isLineDirty c.visibleItemCount
    else finalCheck ui c.visibleItemCount c.flat

/-- The test of `processViewOnlyContext` on the diff after position `i`: it is a
change and its text does not start with `\n` or `\r\n`. -/
def nextStartsChangedLine (diffs : List DiffOp) (i : Nat) : Bool :=
  match diffs.get? (i + 1) with
  | some nextToken =>
    decide (nextToken.type ≠ DiffType.equal) && !startsWithNewline nextToken.text
  | none => false

/-- The texts of the given nodes, concatenated in order. -/
def shownTextOf (nodes : List Node) : JSString := (nodes.map Node.shownText).flatten

/-- The texts of the nodes that are not spans of the given class, concatenated
in order. -/
def textWithout (cls : SpanClass) (nodes : List Node) : JSString :=
  shownTextOf (nodes.filter (fun n => !n.hasClass cls))

/-- The texts of the given ops, concatenated in order. -/
def opsText (diffs : List DiffOp) : JSString := (diffs.map (fun op => op.text)).flatten

/-- Step 1 of `processViewOnlyContext`: what it leaves for the split at the last
newline, and the state in which the split is made. On a line that is not dirty
this is the whole text in the given state; on a dirty line it is the text after
the first newline, in the state after the suffix and the forced `br`; `none`
when the line is dirty and the text has no newline, the whole text being the
suffix. -/
def afterSuffix (text : JSString) (c : Chunk) : Option (JSString × Chunk) :=
  if c.isLineDirty then
    match indexOfNewline text with
    | none => none
    | some firstNewlineIndex =>
      let suffix := text.take firstNewlineIndex
      let c1 := if suffix.isEmpty then c else (c.append (Node.text suffix)).countVisible
      let c2 := { c1 with isLineDirty := false }
      some (text.drop (firstNewlineIndex + 1), c2.append Node.br)
  else some (text, c)

/-- Whether a node is a span marked diff-add or diff-del. -/
def Node.isStyled (n : Node) : Bool :=
  n.hasClass SpanClass.diffAdd || n.hasClass SpanClass.diffDel

/-- The styled fragments of an output, in order: its spans marked diff-add or
diff-del, each with its class and its text. -/
def styledFragments (nodes : List Node) : List Node := nodes.filter Node.isStyled

/-- Whether an op is an Insert/Delete that `shouldIgnoreChange` does not ignore
under the `ignoreEnter` setting of `ui`. -/
def isShownChange (ui : Flags) (op : DiffOp) : Bool :=
  decide (op.type ≠ DiffType.equal) && !shouldIgnoreChange op.text ui.ignoreEnter

/-- The nodes the loop body makes for a change that is not ignored: one span per
non-empty piece of the split when the text has a line break, one span marked
with the type of the op otherwise. -/
def changeNodes (ui : Flags) (op : DiffOp) : List Node :=
  if containsLineBreak op.text then
    (breakParts op.text).map (fun part => Node.span (partClass ui op.type part) part)
  else
    [Node.span
      (if op.type = DiffType.insert then SpanClass.diffAdd else SpanClass.diffDel) op.text]

/-- Whether a text starts with a line-break character. -/
def startsWithLineBreak : JSString → Bool
  | c :: _ => isLineBreak c
  | [] => false

/-- The text after the last line-break character of `text`, all of it when it
has none. -/
def tailAfterLastBreak (text : JSString) : JSString :=
  (text.reverse.takeWhile (fun c => !isLineBreak c)).reverse

/-- The prefix test in the words of the specification: the tail is kept visible
when it is non-empty and the op at position `i + 1` exists, is an Insert/Delete
that is not ignored under the current `ignoreEnter` setting, and has a text that
does not start with a line break. -/
def prefixTestOfSpec (ui : Flags) (diffs : List DiffOp) (i : Nat) (tail : JSString) : Bool :=
  !tail.isEmpty &&
    match diffs.get? (i + 1) with
    | some next => isShownChange ui next && !startsWithLineBreak next.text
    | none => false

/-- Every separator of the output carries a hidden-lines label. -/
def labelled (nodes : List Node) : Prop :=
  ∀ t, Node.separator t ∈ nodes → ∃ n, t = hiddenLabel n

/-- When the last element of the output is a separator, it is the last node:
no text node stands after it. -/
def separatorIsLast (nodes : List Node) : Prop :=
  ∀ t, lastElementChild nodes = some (Node.separator t) →
    nodes.getLast? = some (Node.separator t)

/-- What holds of the state of the walk before the op at position `i`, in
view-only mode on texts without carriage return: separators carry hidden-lines
labels; on a dirty line the last element is not a separator; and a text node
stands after a separator at the end of the output only as the prefix of the
change at position `i`. -/
def walkInv (ui : Flags) (diffs : List DiffOp) (i : Nat) (c : Chunk) : Prop :=
  labelled c.flat ∧
  (c.isLineDirty = true → ∀ t, lastElementChild c.flat ≠ some (Node.separator t)) ∧
  (separatorIsLast c.flat ∨ ∃ op, diffs.get? i = some op ∧ isShownChange ui op = true)

/-- The call `insertSeparatorIfNeeded(i, hiddenPart)` made while the op at
position `i` is processed in state `c`, if one is made: its non-empty hidden
part and the state in which it is made. An Equal op in view-only mode calls it
after the suffix handling, with the head of the rest when the tail is kept as
a prefix and with the whole rest otherwise; an ignored change in view-only mode
calls it with its text. -/
def separatorCall (ui : Flags) (diffs : List DiffOp) (i : Nat) (c : Chunk) :
    Option (JSString × Chunk) :=
  match diffs.get? i with
  | none => none
  | some op =>
    if op.type = DiffType.equal then
      if ui.viewOnlyDiff then
        match afterSuffix op.text c with
        | none => none
        | some (rest, c') =>
          let hiddenPart :=
            if !(tailAfterLastNewline rest).isEmpty && nextStartsChangedLine diffs i
            then headThroughLastNewline rest else rest
          if hiddenPart.isEmpty then none else some (hiddenPart, c')
      else none
    else if shouldIgnoreChange op.text ui.ignoreEnter && ui.viewOnlyDiff then
      some (op.text, { c with isLineDirty := !endsWithNewline op.text })
    else none

/-! ## Decimal numbers and line keys -/

theorem digitsOnto_foldl (fuel : Nat) : ∀ (n : Nat) (acc : JSString), n < fuel →
    (digitsOnto fuel n acc).foldl (fun a d => 10 * a + (d - 48)) 0
      = acc.foldl (fun a d => 10 * a + (d - 48)) n := by
  induction fuel with
  | zero => intro n acc h; omega
  | succ fuel ih =>
    intro n acc h
    by_cases h0 : n / 10 = 0
    · have hn : n % 10 = n := by omega
      simp [digitsOnto, h0, hn]
    · have hlt : n / 10 < fuel := by omega
      have hn : 10 * (n / 10) + n % 10 = n := by omega
      simp [digitsOnto, h0, ih (n / 10) _ hlt, hn]

theorem parseInt_numberToString (n : Nat) : parseInt (numberToString n) = n := by
  unfold parseInt numberToString
  rw [digitsOnto_foldl (n + 1) n [] (by omega)]
  rfl

theorem numberToString_injective {a b : Nat} (h : numberToString a = numberToString b) :
    a = b := by
  have := congrArg parseInt h
  simpa [parseInt_numberToString] using this

theorem digitsOnto_mem (fuel : Nat) : ∀ (n : Nat) (acc : JSString) (c : Nat),
    c ∈ digitsOnto fuel n acc → c ∈ acc ∨ (48 ≤ c ∧ c ≤ 57) := by
  induction fuel with
  | zero => intro n acc c h; exact Or.inl h
  | succ fuel ih =>
    intro n acc c h
    by_cases h0 : n / 10 = 0
    · simp [digitsOnto, h0] at h
      rcases h with h | h
      · right; omega
      · exact Or.inl h
    · simp [digitsOnto, h0] at h
      rcases ih _ _ _ h with h1 | h1
      · simp at h1
        rcases h1 with h1 | h1
        · right; omega
        · exact Or.inl h1
      · exact Or.inr h1

theorem underscore_not_mem_numberToString (n : Nat) : 95 ∉ numberToString n := by
  intro h
  rcases digitsOnto_mem _ _ _ _ h with h1 | h1
  · simp at h1
  · omega

theorem underscore_not_mem_toJSString (t : DiffType) : 95 ∉ t.toJSString := by
  cases t <;> simp [DiffType.toJSString]

theorem append_cons_inj_of_not_mem {s : Nat} : ∀ (x x' y y' : List Nat),
    s ∉ x → s ∉ x' → x ++ s :: y = x' ++ s :: y' → x = x' ∧ y = y' := by
  intro x
  induction x with
  | nil =>
    intro x' y y' _ hx' h
    cases x' with
    | nil => simpa using h
    | cons a x' =>
      simp at h
      simp at hx'
      exact absurd h.1 hx'.1
  | cons a x ih =>
    intro x' y y' hx hx' h
    cases x' with
    | nil =>
      simp at h
      simp at hx
      exact absurd h.1.symm hx.1
    | cons b x' =>
      simp at h hx hx'
      obtain ⟨h1, h2⟩ := ih x' y y' hx.2 hx'.2 h.2
      exact ⟨by rw [h.1, h1], h2⟩

theorem lineKey_inj {t t' : DiffType} {a a' i i' : Nat}
    (h : lineKey t a i = lineKey t' a' i') : a = a' ∧ i = i' := by
  unfold lineKey at h
  simp only [List.append_assoc, List.singleton_append] at h
  obtain ⟨_, h2⟩ := append_cons_inj_of_not_mem _ _ _ _
    (underscore_not_mem_toJSString t) (underscore_not_mem_toJSString t') h
  obtain ⟨h3, h4⟩ := append_cons_inj_of_not_mem _ _ _ _
    (underscore_not_mem_numberToString a) (underscore_not_mem_numberToString a') h2
  exact ⟨numberToString_injective h3, numberToString_injective h4⟩

/-! ## The statistics reducer -/

theorem addLineKeys_eq (t : DiffType) (a : Nat) (n : Nat) (set : List JSString)
    (hnew : ∀ i, lineKey t a i ∉ set) :
    addLineKeys t a n set = set ++ (List.range n).map (lineKey t a) := by
  unfold addLineKeys
  induction n with
  | zero => simp
  | succ n ih =>
    rw [List.range_succ, List.foldl_append, ih]
    simp only [List.foldl_cons, List.foldl_nil, List.map_append, List.map_cons, List.map_nil]
    unfold setAdd
    have hnot : lineKey t a n ∉ set ++ List.map (lineKey t a) (List.range n) := by
      intro hmem
      rcases List.mem_append.mp hmem with h1 | h1
      · exact hnew n h1
      · obtain ⟨j, hj, hk⟩ := List.mem_map.mp h1
        have := (lineKey_inj hk).2
        simp at hj
        omega
    simp [hnot]

theorem statsStep_skip (ie : Bool) (acc : StatsAcc) (op : DiffOp)
    (h : isCountedChange ie op = false) : statsStep ie acc op = acc := by
  unfold isCountedChange at h
  unfold statsStep
  by_cases ht : op.type = DiffType.equal
  · simp [ht]
  · simp [ht] at h
    simp [ht, h]

theorem statsStep_counted (ie : Bool) (acc : StatsAcc) (op : DiffOp)
    (h : isCountedChange ie op = true) (hk : KeysBelow acc) :
    statsStep ie acc op =
      { totalChanges := acc.totalChanges + 1
        addedChars := if op.type = DiffType.insert
          then acc.addedChars + countedLength ie op.text else acc.addedChars
        removedChars := if op.type = DiffType.delete
          then acc.removedChars + countedLength ie op.text else acc.removedChars
        modifiedLines := acc.modifiedLines ++
          (List.range (countNewlines op.text + 1)).map
            (lineKey op.type (acc.totalChanges + 1)) } := by
  unfold isCountedChange at h
  simp at h
  have hnew : ∀ i, lineKey op.type (acc.totalChanges + 1) i ∉ acc.modifiedLines := by
    intro i hmem
    obtain ⟨t, a, j, hkey, hle⟩ := hk _ hmem
    have := (lineKey_inj hkey).1
    omega
  have hlines : (if countNewlines op.text > 0 then countNewlines op.text + 1 else 1)
      = countNewlines op.text + 1 := by
    split <;> omega
  unfold statsStep
  simp only [h.1, h.2, ne_eq, not_false_eq_true, if_true, Bool.false_eq_true, if_false, hlines]
  rw [addLineKeys_eq _ _ _ _ hnew]
  rfl

theorem statsStep_keysBelow (ie : Bool) (acc : StatsAcc) (op : DiffOp) (hk : KeysBelow acc) :
    KeysBelow (statsStep ie acc op) := by
  cases h : isCountedChange ie op with
  | false => rw [statsStep_skip ie acc op h]; exact hk
  | true =>
    rw [statsStep_counted ie acc op h hk]
    intro k hmem
    simp only [List.mem_append, List.mem_map] at hmem
    rcases hmem with h1 | ⟨i, _, hi⟩
    · obtain ⟨t, a, i, hkey, hle⟩ := hk k h1
      exact ⟨t, a, i, hkey, by simp; omega⟩
    · exact ⟨op.type, acc.totalChanges + 1, i, hi.symm, by simp⟩

/-- What the loop of `calculateStats` adds to each of its variables. -/
theorem stats_foldl (ie : Bool) : ∀ (diffs : List DiffOp) (acc : StatsAcc), KeysBelow acc →
    (diffs.foldl (statsStep ie) acc).totalChanges
        = acc.totalChanges + (diffs.filter (isCountedChange ie)).length ∧
    (diffs.foldl (statsStep ie) acc).addedChars
        = acc.addedChars + (((diffs.filter (isCountedChange ie)).filter
            (fun op => decide (op.type = DiffType.insert))).map
            (fun op => countedLength ie op.text)).sum ∧
    (diffs.foldl (statsStep ie) acc).removedChars
        = acc.removedChars + (((diffs.filter (isCountedChange ie)).filter
            (fun op => decide (op.type = DiffType.delete))).map
            (fun op => countedLength ie op.text)).sum ∧
    (diffs.foldl (statsStep ie) acc).modifiedLines.length
        = acc.modifiedLines.length + ((diffs.filter (isCountedChange ie)).map
            (fun op => countNewlines op.text + 1)).sum := by
  intro diffs
  induction diffs with
  | nil => intro acc _; simp
  | cons op rest ih =>
    intro acc hk
    have hk' := statsStep_keysBelow ie acc op hk
    obtain ⟨h1, h2, h3, h4⟩ := ih (statsStep ie acc op) hk'
    simp only [List.foldl_cons]
    rw [h1, h2, h3, h4]
    cases h : isCountedChange ie op with
    | false =>
      rw [statsStep_skip ie acc op h]
      simp [List.filter_cons, h]
    | true =>
      rw [statsStep_counted ie acc op h hk]
      simp only [List.filter_cons, h, if_true, List.length_cons, List.map_cons, List.sum_cons,
        List.length_append, List.length_map, List.length_range]
      refine ⟨by omega, ?_, ?_, by omega⟩
      · by_cases hi : op.type = DiffType.insert
        · simp [hi]; omega
        · simp [hi]
      · by_cases hd : op.type = DiffType.delete
        · simp [hd]; omega
        · simp [hd]

theorem keysBelow_init :
    KeysBelow { totalChanges := 0, addedChars := 0, removedChars := 0, modifiedLines := [] } := by
  intro k hk
  simp at hk

theorem shouldIgnoreChange_true_iff (text : JSString) :
    shouldIgnoreChange text true = true ↔ isPureLineBreaks text := by
  unfold shouldIgnoreChange isPureLineBreaks
  cases text with
  | nil => simp
  | cons c cs => simp [isLineBreak]

theorem shouldIgnoreChange_false (text : JSString) : shouldIgnoreChange text false = false := by
  simp [shouldIgnoreChange]

/-- C1: for every diff sequence and either `ignoreEnter` setting, the `lines`
field of `calculateStats` is the sum, over the insertions and deletions that
`shouldIgnoreChange` does not ignore, of the number of `\n` in the text plus one;
the Set of string keys never merges two entries, so a deletion followed by an
insertion on one line counts as two lines. -/
theorem calculateStats_lines (diffs : List DiffOp) (ignoreEnter : Bool) :
    (calculateStats diffs ignoreEnter).lines
        = ((diffs.filter (isCountedChange ignoreEnter)).map
            (fun op => countNewlines op.text + 1)).sum ∧
    (calculateStats [⟨DiffType.delete, utf16 "old"⟩, ⟨DiffType.insert, utf16 "new"⟩]
        ignoreEnter).lines = 2 := by
  constructor
  · have h := (stats_foldl ignoreEnter diffs _ keysBelow_init).2.2.2
    simpa [calculateStats] using h
  · cases ignoreEnter <;> decide

/-- C2: for every diff sequence, `calculateStats` returns as `totalChanges` the
number of insertions and deletions not ignored by `shouldIgnoreChange`, as `added`
the sum over those insertions of the text length (without `\r` and `\n` when
`ignoreEnter` is on), as `removed` the same sum over those deletions; equal ops
add to no field. For `[Equal "hello\nworld", Insert "!"]` the result is
added 1, removed 0, lines 1, totalChanges 1. -/
theorem calculateStats_counts (diffs : List DiffOp) (ignoreEnter : Bool) :
    (calculateStats diffs ignoreEnter).totalChanges
        = (diffs.filter (isCountedChange ignoreEnter)).length ∧
    (calculateStats diffs ignoreEnter).added
        = (((diffs.filter (isCountedChange ignoreEnter)).filter
            (fun op => decide (op.type = DiffType.insert))).map
            (fun op => countedLength ignoreEnter op.text)).sum ∧
    (calculateStats diffs ignoreEnter).removed
        = (((diffs.filter (isCountedChange ignoreEnter)).filter
            (fun op => decide (op.type = DiffType.delete))).map
            (fun op => countedLength ignoreEnter op.text)).sum ∧
    calculateStats (diffs.filter (fun op => decide (op.type ≠ DiffType.equal))) ignoreEnter
        = calculateStats diffs ignoreEnter ∧
    calculateStats [⟨DiffType.equal, utf16 "hello\nworld"⟩, ⟨DiffType.insert, utf16 "!"⟩]
        ignoreEnter = { added := 1, removed := 0, lines := 1, totalChanges := 1 } := by
  have h := stats_foldl ignoreEnter diffs _ keysBelow_init
  have h' := stats_foldl ignoreEnter
    (diffs.filter (fun op => decide (op.type ≠ DiffType.equal))) _ keysBelow_init
  have hf : (diffs.filter (fun op => decide (op.type ≠ DiffType.equal))).filter
      (isCountedChange ignoreEnter) = diffs.filter (isCountedChange ignoreEnter) := by
    rw [List.filter_filter]
    congr 1
    funext op
    unfold isCountedChange
    cases hd : decide (op.type ≠ DiffType.equal) <;> simp [hd]
  rw [hf] at h'
  refine ⟨?_, ?_, ?_, ?_, ?_⟩
  · simpa [calculateStats] using h.1
  · simpa [calculateStats] using h.2.1
  · simpa [calculateStats] using h.2.2.1
  · simp only [calculateStats, h.1, h.2.1, h.2.2.1, h.2.2.2, h'.1, h'.2.1, h'.2.2.1, h'.2.2.2]
  · cases ignoreEnter <;> decide

/-- C3: when every insertion and deletion of a sequence has a non-empty text made
of `\r` and `\n` only, `calculateStats` with `ignoreEnter` on returns zero for
`totalChanges`, `added`, `removed` and `lines`; `shouldIgnoreChange(text, true)`
holds exactly for such texts, and `shouldIgnoreChange(text, false)` never holds. -/
theorem calculateStats_ignoreEnter_lineBreaks (diffs : List DiffOp)
    (h : ∀ op ∈ diffs, op.type ≠ DiffType.equal → isPureLineBreaks op.text) :
    calculateStats diffs true = { added := 0, removed := 0, lines := 0, totalChanges := 0 } ∧
    (∀ text, shouldIgnoreChange text true = true ↔ isPureLineBreaks text) ∧
    (∀ text, shouldIgnoreChange text false = false) := by
  refine ⟨?_, shouldIgnoreChange_true_iff, shouldIgnoreChange_false⟩
  have hnone : diffs.filter (isCountedChange true) = [] := by
    rw [List.filter_eq_nil_iff]
    intro op hop
    unfold isCountedChange
    by_cases ht : op.type = DiffType.equal
    · simp [ht]
    · simp [ht, (shouldIgnoreChange_true_iff op.text).mpr (h op hop ht)]
  have hs := stats_foldl true diffs _ keysBelow_init
  simp only [hnone, List.length_nil, List.filter_nil, List.map_nil, List.sum_nil,
    Nat.add_zero] at hs
  simp only [calculateStats, hs.1, hs.2.1, hs.2.2.1, hs.2.2.2]

/-- Witness for C3: a sequence with a line-break insertion, an equal op and a
line-break deletion. -/
theorem calculateStats_ignoreEnter_lineBreaks_witness :
    calculateStats [⟨DiffType.insert, utf16 "\n"⟩, ⟨DiffType.equal, utf16 "abc"⟩,
        ⟨DiffType.delete, utf16 "\r\n"⟩] true
      = { added := 0, removed := 0, lines := 0, totalChanges := 0 } :=
  (calculateStats_ignoreEnter_lineBreaks
    [⟨DiffType.insert, utf16 "\n"⟩, ⟨DiffType.equal, utf16 "abc"⟩,
      ⟨DiffType.delete, utf16 "\r\n"⟩]
    (by
      intro op hop
      simp only [List.mem_cons, List.mem_singleton, List.not_mem_nil, or_false] at hop
      rcases hop with rfl | rfl | rfl
      · intro _; exact ⟨by decide, by decide⟩
      · intro hne; exact absurd rfl hne
      · intro _; exact ⟨by decide, by decide⟩)).1

/-! ## The renderer: from the host's schedule to a function of the job -/

theorem run_of_scheduled_nil (fuel : Nat) (r : DiffRenderer) (h : r.scheduled = []) :
    run fuel r = r := by
  cases fuel with
  | zero => rfl
  | succ fuel => simp [run, h]

theorem renderChunk_eq (job : Job) (r : DiffRenderer) (hatt : r.ui.attached = true) :
    renderChunk job r =
      if limitReached job then pause job.index job.diffs.length job r
      else renderChunkBody job r := by
  unfold renderChunk limitReached
  cases hl : job.renderLimit with
  | none => simp [hatt]
  | some limit => by_cases h : job.index ≥ limit <;> simp [hatt, h]

theorem drive_eq (ui : Flags) (fuel : Nat) (job : Job) (out : List Node) :
    drive ui fuel job out =
      if limitReached job then Outcome.paused job out
      else if (job.afterChunk (chunkWalk ui job out)).index < job.diffs.length then
        match fuel with
        | 0 => Outcome.waiting (job.afterChunk (chunkWalk ui job out))
            ((chunkWalk ui job out).diffOutput ++ (chunkWalk ui job out).chunkFragment)
        | fuel + 1 => drive ui fuel (job.afterChunk (chunkWalk ui job out))
            ((chunkWalk ui job out).diffOutput ++ (chunkWalk ui job out).chunkFragment)
      else Outcome.done (finalCheck ui (job.afterChunk (chunkWalk ui job out)).visibleItemCount
        ((chunkWalk ui job out).diffOutput ++ (chunkWalk ui job out).chunkFragment)) := by
  cases fuel <;> rfl

/-- What the host's run of a job leaves behind, read off `drive`. -/
theorem run_renderChunk (fuel : Nat) : ∀ (job : Job) (r : DiffRenderer),
    r.ui.attached = true → r.scheduled = [] →
    (run fuel (renderChunk job r)).ui.diffOutput
        = (drive r.ui.toFlags fuel job r.ui.diffOutput).out ∧
    (run fuel (renderChunk job r)).scheduled.map Prod.snd
        = (drive r.ui.toFlags fuel job r.ui.diffOutput).scheduledJobs ∧
    (run fuel (renderChunk job r)).pauseCalls
        = r.pauseCalls ++ (drive r.ui.toFlags fuel job r.ui.diffOutput).pauses ∧
    (run fuel (renderChunk job r)).currentResume
        = (drive r.ui.toFlags fuel job r.ui.diffOutput).resumeAfter r.currentResume := by
  induction fuel with
  | zero =>
    intro job r hatt hs
    rw [renderChunk_eq job r hatt, drive_eq]
    by_cases hl : limitReached job = true
    · simp [hl, run, pause, hs, Outcome.out, Outcome.scheduledJobs, Outcome.pauses,
        Outcome.resumeAfter]
    · by_cases hm : (job.afterChunk (chunkWalk r.ui.toFlags job r.ui.diffOutput)).index
          < job.diffs.length
      · simp [hl, hm, run, renderChunkBody, scheduleNext, hs, Outcome.out,
          Outcome.scheduledJobs, Outcome.pauses, Outcome.resumeAfter]
      · simp [hl, hm, run, renderChunkBody, hs, Outcome.out,
          Outcome.scheduledJobs, Outcome.pauses, Outcome.resumeAfter]
  | succ fuel ih =>
    intro job r hatt hs
    rw [renderChunk_eq job r hatt, drive_eq]
    by_cases hl : limitReached job = true
    · simp [hl, run, pause, hs, Outcome.out, Outcome.scheduledJobs, Outcome.pauses,
        Outcome.resumeAfter]
    · by_cases hm : (job.afterChunk (chunkWalk r.ui.toFlags job r.ui.diffOutput)).index
          < job.diffs.length
      · have h := ih (job.afterChunk (chunkWalk r.ui.toFlags job r.ui.diffOutput))
          { r with
            ui := { r.ui with diffOutput :=
              (chunkWalk r.ui.toFlags job r.ui.diffOutput).diffOutput ++
                (chunkWalk r.ui.toFlags job r.ui.diffOutput).chunkFragment }
            renderTask := some
              { id := r.nextTaskId
                type := if r.documentHidden then TaskType.timeout else TaskType.raf }
            nextTaskId := r.nextTaskId + 1
            scheduled := [] } hatt rfl
        simp only [hl, hm, if_true, if_false, Bool.false_eq_true]
        simp only [renderChunkBody, hm, if_true, scheduleNext, hs, List.nil_append, run,
          fireNext]
        exact h
      · simp [hl, hm, run, renderChunkBody, hs, Outcome.out,
          Outcome.scheduledJobs, Outcome.pauses, Outcome.resumeAfter]

theorem run_renderChunk_paused (fuel : Nat) : ∀ (job : Job) (r : DiffRenderer),
    r.ui.attached = true → r.scheduled = [] →
    ∀ j o, drive r.ui.toFlags fuel job r.ui.diffOutput = Outcome.paused j o →
    (run fuel (renderChunk job r)).isRenderingPaused = true ∧
    (run fuel (renderChunk job r)).ui.loadMoreShown = true ∧
    (run fuel (renderChunk job r)).ui.loadMoreRemaining = some (j.diffs.length - j.index) ∧
    (run fuel (renderChunk job r)).ui.diffProgress
        = r.ui.diffProgress.map
          (fun element => { element with text := ProgressText.pausedAt j.index j.diffs.length }) := by
  induction fuel with
  | zero =>
    intro job r hatt hs j o
    rw [renderChunk_eq job r hatt, drive_eq]
    by_cases hl : limitReached job = true
    · simp only [hl, if_true, Outcome.paused.injEq, run, and_imp]
      intro hj _
      subst hj
      simp [pause]
    · by_cases hm : (job.afterChunk (chunkWalk r.ui.toFlags job r.ui.diffOutput)).index
          < job.diffs.length
      · simp [hl, hm]
      · simp [hl, hm]
  | succ fuel ih =>
    intro job r hatt hs j o
    rw [renderChunk_eq job r hatt, drive_eq]
    by_cases hl : limitReached job = true
    · simp only [hl, if_true, Outcome.paused.injEq, and_imp]
      intro hj _
      subst hj
      simp [pause, run, hs]
    · by_cases hm : (job.afterChunk (chunkWalk r.ui.toFlags job r.ui.diffOutput)).index
          < job.diffs.length
      · have h := ih (job.afterChunk (chunkWalk r.ui.toFlags job r.ui.diffOutput))
          { r with
            ui := { r.ui with diffOutput :=
              (chunkWalk r.ui.toFlags job r.ui.diffOutput).diffOutput ++
                (chunkWalk r.ui.toFlags job r.ui.diffOutput).chunkFragment }
            renderTask := some
              { id := r.nextTaskId
                type := if r.documentHidden then TaskType.timeout else TaskType.raf }
            nextTaskId := r.nextTaskId + 1
            scheduled := [] } hatt rfl j o
        simp only [hl, hm, if_true, if_false, Bool.false_eq_true]
        simp only [renderChunkBody, hm, if_true, scheduleNext, hs, List.nil_append, run,
          fireNext]
        exact h
      · simp [hl, hm]

/-! ## Properties of `drive` -/

theorem limitReached_none (job : Job) (h : job.renderLimit = none) :
    limitReached job = false := by
  simp [limitReached, h]

theorem limitReached_some (job : Job) (limit : Nat) (h : job.renderLimit = some limit) :
    limitReached job = decide (job.index ≥ limit) := by
  simp [limitReached, h]

theorem afterChunk_index (job : Job) (c : Chunk) :
    (job.afterChunk c).index = min (job.index + CHUNK_SIZE) job.diffs.length := rfl

theorem afterChunk_diffs (job : Job) (c : Chunk) : (job.afterChunk c).diffs = job.diffs := rfl

theorem afterChunk_renderLimit (job : Job) (c : Chunk) :
    (job.afterChunk c).renderLimit = job.renderLimit := rfl

/-- An outcome that is not `waiting` does not change when the host is given more time. -/
theorem drive_succ_of_settled (ui : Flags) (fuel : Nat) : ∀ (job : Job) (out : List Node),
    (∀ j o, drive ui fuel job out ≠ Outcome.waiting j o) →
    drive ui (fuel + 1) job out = drive ui fuel job out := by
  induction fuel with
  | zero =>
    intro job out h
    rw [drive_eq ui 0] at h
    rw [drive_eq ui 1, drive_eq ui 0]
    by_cases hl : limitReached job = true
    · simp [hl]
    · by_cases hm : (job.afterChunk (chunkWalk ui job out)).index < job.diffs.length
      · simp [hl, hm] at h
      · simp [hl, hm]
  | succ fuel ih =>
    intro job out h
    rw [drive_eq ui (fuel + 1)] at h
    rw [drive_eq ui (fuel + 1 + 1), drive_eq ui (fuel + 1)]
    by_cases hl : limitReached job = true
    · simp [hl]
    · by_cases hm : (job.afterChunk (chunkWalk ui job out)).index < job.diffs.length
      · simp only [hl, hm, if_true, if_false, Bool.false_eq_true] at h ⊢
        exact ih _ _ h
      · simp [hl, hm]

theorem drive_add_of_settled (ui : Flags) (fuel : Nat) (job : Job) (out : List Node)
    (h : ∀ j o, drive ui fuel job out ≠ Outcome.waiting j o) (extra : Nat) :
    drive ui (fuel + extra) job out = drive ui fuel job out := by
  induction extra with
  | zero => rfl
  | succ extra ih =>
    rw [← Nat.add_assoc, drive_succ_of_settled ui (fuel + extra) job out, ih]
    rw [ih]
    exact h

theorem limitReached_of_fits (job : Job)
    (h : ∀ limit, job.renderLimit = some limit → job.diffs.length ≤ limit ∧ job.index < limit) :
    limitReached job = false := by
  unfold limitReached
  cases hl : job.renderLimit with
  | none => rfl
  | some limit =>
    have := h limit hl
    simp
    omega

theorem fits_afterChunk (job : Job) (c : Chunk)
    (h : ∀ limit, job.renderLimit = some limit → job.diffs.length ≤ limit ∧ job.index < limit)
    (hm : (job.afterChunk c).index < job.diffs.length) :
    ∀ limit, (job.afterChunk c).renderLimit = some limit →
      (job.afterChunk c).diffs.length ≤ limit ∧ (job.afterChunk c).index < limit := by
  intro limit hl
  have := h limit hl
  rw [afterChunk_diffs]
  omega

/-- A job without a limit, or whose diffs all fit under its limit, finishes once
the host has run one callback per remaining diff (far fewer are needed). -/
theorem drive_done (ui : Flags) (fuel : Nat) : ∀ (job : Job) (out : List Node),
    (∀ limit, job.renderLimit = some limit → job.diffs.length ≤ limit ∧ job.index < limit) →
    job.diffs.length ≤ job.index + fuel →
    ∃ o, drive ui fuel job out = Outcome.done o := by
  induction fuel with
  | zero =>
    intro job out hl hf
    rw [drive_eq]
    have hm : ¬ (job.afterChunk (chunkWalk ui job out)).index < job.diffs.length := by
      rw [afterChunk_index]; unfold CHUNK_SIZE; omega
    simp [limitReached_of_fits job hl, hm]
  | succ fuel ih =>
    intro job out hl hf
    rw [drive_eq]
    by_cases hm : (job.afterChunk (chunkWalk ui job out)).index < job.diffs.length
    · simp only [limitReached_of_fits job hl, hm, if_true, if_false, Bool.false_eq_true]
      apply ih
      · exact fits_afterChunk job _ hl hm
      · rw [afterChunk_index] at hm ⊢
        rw [afterChunk_diffs]
        unfold CHUNK_SIZE at hm ⊢
        omega
    · simp [limitReached_of_fits job hl, hm]

/-- A job without a limit, or whose diffs all fit under its limit, never pauses. -/
theorem drive_not_paused (ui : Flags) (fuel : Nat) : ∀ (job : Job) (out : List Node),
    (∀ limit, job.renderLimit = some limit → job.diffs.length ≤ limit ∧ job.index < limit) →
    ∀ j o, drive ui fuel job out ≠ Outcome.paused j o := by
  induction fuel with
  | zero =>
    intro job out hl j o
    rw [drive_eq]
    by_cases hm : (job.afterChunk (chunkWalk ui job out)).index < job.diffs.length
    · simp [limitReached_of_fits job hl, hm]
    · simp [limitReached_of_fits job hl, hm]
  | succ fuel ih =>
    intro job out hl j o
    rw [drive_eq]
    by_cases hm : (job.afterChunk (chunkWalk ui job out)).index < job.diffs.length
    · simp only [limitReached_of_fits job hl, hm, if_true, if_false, Bool.false_eq_true]
      exact ih (job.afterChunk (chunkWalk ui job out)) _ (fits_afterChunk job _ hl hm) j o
    · simp [limitReached_of_fits job hl, hm]

/-- A job with more diffs than its limit, `k` chunks before the limit: it pauses
at the limit once the host has run `k` callbacks and not before, and lifting the
limit at the pause continues exactly as a job that never had a limit. -/
theorem drive_paused (ui : Flags) (limit : Nat) (k : Nat) :
    ∀ (fuel : Nat) (job : Job) (out : List Node),
    job.renderLimit = some limit → limit < job.diffs.length →
    job.index + CHUNK_SIZE * k = limit →
    (k ≤ fuel → ∃ j o, drive ui fuel job out = Outcome.paused j o ∧ j.index = limit ∧
      j.diffs = job.diffs ∧
      ∀ fuel2, drive ui fuel2 { j with renderLimit := none } o
        = drive ui (fuel2 + k) { job with renderLimit := none } out) ∧
    (fuel < k → ∃ j o, drive ui fuel job out = Outcome.waiting j o) := by
  induction k with
  | zero =>
    intro fuel job out hl hlen hidx
    have hr : limitReached job = true := by
      rw [limitReached_some job limit hl]; simp; omega
    refine ⟨fun _ => ⟨job, out, ?_, by omega, rfl, fun fuel2 => rfl⟩, fun h => by omega⟩
    rw [drive_eq]; simp [hr]
  | succ k ih =>
    intro fuel job out hl hlen hidx
    have hr : limitReached job = false := by
      rw [limitReached_some job limit hl]; simp; unfold CHUNK_SIZE at hidx; omega
    have hi : (job.afterChunk (chunkWalk ui job out)).index = job.index + CHUNK_SIZE := by
      rw [afterChunk_index]; unfold CHUNK_SIZE at hidx ⊢; omega
    have hm : (job.afterChunk (chunkWalk ui job out)).index < job.diffs.length := by
      rw [hi]; unfold CHUNK_SIZE at hidx ⊢; omega
    have hstep : ∀ fuel2, drive ui (fuel2 + 1) { job with renderLimit := none } out
        = drive ui fuel2 { job.afterChunk (chunkWalk ui job out) with renderLimit := none }
            ((chunkWalk ui job out).diffOutput ++ (chunkWalk ui job out).chunkFragment) := by
      intro fuel2
      rw [drive_eq ui (fuel2 + 1)]
      have hm' : (Job.afterChunk { job with renderLimit := none }
          (chunkWalk ui { job with renderLimit := none } out)).index
          < (({ job with renderLimit := none } : Job)).diffs.length := hm
      have hn : limitReached { job with renderLimit := none } = false :=
        limitReached_none _ rfl
      simp only [hn, hm', if_true, if_false, Bool.false_eq_true]
      rfl
    cases fuel with
    | zero =>
      refine ⟨fun h => by omega, fun _ => ?_⟩
      rw [drive_eq]
      simp [hr, hm]
    | succ fuel =>
      have hih := ih fuel (job.afterChunk (chunkWalk ui job out))
        ((chunkWalk ui job out).diffOutput ++ (chunkWalk ui job out).chunkFragment)
        hl hlen (by rw [hi]; rw [← hidx, Nat.mul_succ]; omega)
      have hd : drive ui (fuel + 1) job out
          = drive ui fuel (job.afterChunk (chunkWalk ui job out))
            ((chunkWalk ui job out).diffOutput ++ (chunkWalk ui job out).chunkFragment) := by
        rw [drive_eq ui (fuel + 1)]
        simp only [hr, hm, if_true, if_false, Bool.false_eq_true]
      rw [hd]
      refine ⟨fun h => ?_, fun h => hih.2 (by omega)⟩
      obtain ⟨j, o, h1, h2, h3, h4⟩ := hih.1 (by omega)
      refine ⟨j, o, h1, h2, h3, fun fuel2 => ?_⟩
      rw [h4 fuel2, ← Nat.add_assoc, hstep]

/-! ## The renderer object: invariants of its operations -/

theorem stop_scheduled (r : DiffRenderer) (hwf : wellFormed r = true) :
    (stop r).scheduled = [] := by
  unfold wellFormed at hwf
  unfold stop cancelTask
  cases hs : r.scheduled with
  | nil => cases r.renderTask <;> simp [hs]
  | cons p rest =>
    cases rest with
    | nil =>
      obtain ⟨task, job⟩ := p
      simp [hs] at hwf
      simp [hwf.1, hs]
    | cons q rest => simp [hs] at hwf

theorem wellFormed_stop (r : DiffRenderer) (hwf : wellFormed r = true) :
    wellFormed (stop r) = true := by
  simp [wellFormed, stop_scheduled r hwf]

theorem stop_ui (r : DiffRenderer) :
    (stop r).ui.toFlags = r.ui.toFlags ∧ (stop r).ui.attached = r.ui.attached ∧
    (stop r).ui.diffOutput = r.ui.diffOutput ∧ (stop r).pauseCalls = r.pauseCalls := by
  unfold stop cancelTask
  cases r.renderTask <;> simp

theorem stop_diffProgress (r : DiffRenderer) :
    (stop r).ui.diffProgress
      = r.ui.diffProgress.map (fun element => { element with shown := false }) := by
  unfold stop cancelTask
  cases r.renderTask <;> rfl

theorem stop_fields (r : DiffRenderer) :
    (stop r).renderTask = none ∧ (stop r).currentResume = none ∧
    (stop r).isRenderingPaused = false ∧ (stop r).ui.progressShown = false ∧
    (stop r).ui.loadMoreShown = false := by
  have hp : (stop r).ui.progressShown = false := by
    unfold UI.progressShown
    rw [stop_diffProgress]
    cases r.ui.diffProgress <;> rfl
  refine ⟨?_, ?_, ?_, hp, ?_⟩ <;>
  · unfold stop cancelTask
    cases h : r.renderTask <;> simp [h]

theorem renderChunk_ui (job : Job) (r : DiffRenderer) :
    (renderChunk job r).ui.toFlags = r.ui.toFlags ∧
    (renderChunk job r).ui.attached = r.ui.attached := by
  unfold renderChunk
  cases hatt : r.ui.attached with
  | false => simp [hatt]
  | true =>
    cases job.renderLimit with
    | none =>
      simp only [Bool.not_true, Bool.false_eq_true, if_false, renderChunkBody, scheduleNext]
      split <;> simp [hatt]
    | some limit =>
      simp only [Bool.not_true, Bool.false_eq_true, if_false, renderChunkBody, scheduleNext,
        pause]
      split
      · simp [hatt]
      · split <;> simp [hatt]

theorem wellFormed_renderChunk (job : Job) (r : DiffRenderer) (hs : r.scheduled = [])
    (hc : r.currentResume = none) : wellFormed (renderChunk job r) = true := by
  unfold renderChunk
  cases hatt : r.ui.attached with
  | false => simp [wellFormed, hs]
  | true =>
    cases job.renderLimit with
    | none =>
      simp only [Bool.not_true, Bool.false_eq_true, if_false, renderChunkBody, scheduleNext]
      split <;> simp [wellFormed, hs, hc]
    | some limit =>
      simp only [Bool.not_true, Bool.false_eq_true, if_false, renderChunkBody, scheduleNext,
        pause]
      split
      · simp [wellFormed, hs]
      · split <;> simp [wellFormed, hs, hc]

theorem renderWithLimit_eq (limit : Option Nat) (diffs : List DiffOp) (r : DiffRenderer) :
    renderWithLimit limit diffs r =
      renderChunk (Job.start limit diffs)
        { stop r with ui := { (stop r).ui with
            diffOutput := []
            diffProgress := (stop r).ui.diffProgress.map
              (fun _ => { shown := true, text := ProgressText.rendering }) } } := rfl

theorem wellFormed_renderWithLimit (limit : Option Nat) (diffs : List DiffOp)
    (r : DiffRenderer) (hwf : wellFormed r = true) :
    wellFormed (renderWithLimit limit diffs r) = true := by
  rw [renderWithLimit_eq]
  apply wellFormed_renderChunk
  · exact stop_scheduled r hwf
  · exact (stop_fields r).2.1

theorem wellFormed_fireNext (r : DiffRenderer) (hwf : wellFormed r = true) :
    wellFormed (fireNext r) = true := by
  unfold fireNext
  cases hs : r.scheduled with
  | nil => simpa using hwf
  | cons p rest =>
    obtain ⟨task, job⟩ := p
    cases rest with
    | nil =>
      simp only
      apply wellFormed_renderChunk
      · rfl
      · unfold wellFormed at hwf
        simp [hs] at hwf
        simpa using hwf.2
    | cons q rest =>
      unfold wellFormed at hwf
      simp [hs] at hwf

theorem wellFormed_run (fuel : Nat) : ∀ (r : DiffRenderer), wellFormed r = true →
    wellFormed (run fuel r) = true := by
  induction fuel with
  | zero => intro r h; exact h
  | succ fuel ih =>
    intro r h
    unfold run
    cases hs : r.scheduled with
    | nil => simpa using h
    | cons p rest => exact ih _ (wellFormed_fireNext r h)

theorem resume_eq (r : DiffRenderer) (job : Job) (h : r.currentResume = some job) :
    resume r = renderChunk { job with renderLimit := none }
      { r with ui := { r.ui with loadMoreShown := false }, currentResume := none } := by
  unfold resume renderChunk
  simp only [h]
  cases hatt : r.ui.attached with
  | false => simp [hatt]
  | true =>
    simp only [Bool.not_true, Bool.false_eq_true, if_false, renderChunkBody, scheduleNext]
    split <;> rfl

theorem wellFormed_resume (r : DiffRenderer) (hwf : wellFormed r = true) :
    wellFormed (resume r) = true := by
  cases hc : r.currentResume with
  | none => simpa [resume, hc] using hwf
  | some job =>
    rw [resume_eq r job hc]
    apply wellFormed_renderChunk
    · unfold wellFormed at hwf
      cases hs : r.scheduled with
      | nil => rfl
      | cons p rest =>
        obtain ⟨task, j⟩ := p
        cases rest with
        | nil => simp [hs, hc] at hwf
        | cons q rest => simp [hs] at hwf
    · rfl

theorem wellFormed_new (ui : UI) (documentHidden : Bool) :
    wellFormed (DiffRenderer.new ui documentHidden) = true := rfl

theorem fireNext_ui (r : DiffRenderer) :
    (fireNext r).ui.toFlags = r.ui.toFlags ∧ (fireNext r).ui.attached = r.ui.attached := by
  unfold fireNext
  cases hs : r.scheduled with
  | nil => simp
  | cons p rest =>
    obtain ⟨task, job⟩ := p
    exact renderChunk_ui job _

theorem run_ui (fuel : Nat) : ∀ (r : DiffRenderer),
    (run fuel r).ui.toFlags = r.ui.toFlags ∧ (run fuel r).ui.attached = r.ui.attached := by
  induction fuel with
  | zero => intro r; exact ⟨rfl, rfl⟩
  | succ fuel ih =>
    intro r
    unfold run
    cases hs : r.scheduled with
    | nil => simp
    | cons p rest =>
      simp only
      have h1 := ih (fireNext r)
      have h2 := fireNext_ui r
      exact ⟨h1.1.trans h2.1, h1.2.trans h2.2⟩

theorem renderWithLimit_ui (limit : Option Nat) (diffs : List DiffOp) (r : DiffRenderer) :
    (renderWithLimit limit diffs r).ui.toFlags = r.ui.toFlags ∧
    (renderWithLimit limit diffs r).ui.attached = r.ui.attached := by
  rw [renderWithLimit_eq]
  have h1 := renderChunk_ui (Job.start limit diffs)
    { stop r with ui := { (stop r).ui with
        diffOutput := []
        diffProgress := (stop r).ui.diffProgress.map
          (fun _ => { shown := true, text := ProgressText.rendering }) } }
  have h2 := stop_ui r
  exact ⟨h1.1.trans h2.1, h1.2.trans h2.2.1⟩

theorem resume_ui (r : DiffRenderer) :
    (resume r).ui.toFlags = r.ui.toFlags ∧ (resume r).ui.attached = r.ui.attached := by
  cases hc : r.currentResume with
  | none => simp [resume, hc]
  | some job =>
    rw [resume_eq r job hc]
    exact renderChunk_ui _ _

/-- What `render` followed by the host's run leaves behind, read off `drive`. -/
theorem run_renderWithLimit (limit : Option Nat) (diffs : List DiffOp) (r : DiffRenderer)
    (fuel : Nat) (hwf : wellFormed r = true) (hatt : r.ui.attached = true) :
    (run fuel (renderWithLimit limit diffs r)).ui.diffOutput
        = (drive r.ui.toFlags fuel (Job.start limit diffs) []).out ∧
    (run fuel (renderWithLimit limit diffs r)).scheduled.map Prod.snd
        = (drive r.ui.toFlags fuel (Job.start limit diffs) []).scheduledJobs ∧
    (run fuel (renderWithLimit limit diffs r)).pauseCalls
        = r.pauseCalls ++ (drive r.ui.toFlags fuel (Job.start limit diffs) []).pauses ∧
    (run fuel (renderWithLimit limit diffs r)).currentResume
        = (drive r.ui.toFlags fuel (Job.start limit diffs) []).resumeAfter none := by
  rw [renderWithLimit_eq]
  have h := run_renderChunk fuel (Job.start limit diffs)
    { stop r with ui := { (stop r).ui with
        diffOutput := []
        diffProgress := (stop r).ui.diffProgress.map
          (fun _ => { shown := true, text := ProgressText.rendering }) } }
    (by simpa using (stop_ui r).2.1.trans hatt) (stop_scheduled r hwf)
  have hf : (stop r).ui.toFlags = r.ui.toFlags := (stop_ui r).1
  have hp : (stop r).pauseCalls = r.pauseCalls := (stop_ui r).2.2.2
  have hc : (stop r).currentResume = none := (stop_fields r).2.1
  simpa [hf, hp, hc] using h

/-! ## View-only mode on a sequence of equal ops -/

theorem setLastElText_isLineDirty (c : Chunk) (t : JSString) :
    (c.setLastElText t).isLineDirty = c.isLineDirty := by
  unfold Chunk.setLastElText
  split <;> rfl

theorem setLastElText_visibleItemCount (c : Chunk) (t : JSString) :
    (c.setLastElText t).visibleItemCount = c.visibleItemCount := by
  unfold Chunk.setLastElText
  split <;> rfl

theorem insertSeparatorIfNeeded_flags (ui : Flags) (i : Nat) (text : JSString) (c : Chunk) :
    (insertSeparatorIfNeeded ui i text c).isLineDirty = c.isLineDirty ∧
    (insertSeparatorIfNeeded ui i text c).visibleItemCount = c.visibleItemCount := by
  unfold insertSeparatorIfNeeded
  simp only
  repeat' split
  all_goals simp [setLastElText_isLineDirty, setLastElText_visibleItemCount, Chunk.append]

theorem processRemainingText_flags (ui : Flags) (diffs : List DiffOp) (i : Nat)
    (text : JSString) (c : Chunk)
    (hnext : ∀ next, diffs.get? (i + 1) = some next → next.type = DiffType.equal) :
    (processRemainingText ui diffs i text c).isLineDirty = c.isLineDirty ∧
    (processRemainingText ui diffs i text c).visibleItemCount = c.visibleItemCount := by
  have hchange : (match diffs.get? (i + 1) with
      | some nextToken => decide (nextToken.type ≠ DiffType.equal)
      | none => false) = false := by
    cases h : diffs.get? (i + 1) with
    | none => rfl
    | some next => simp [hnext next h]
  unfold processRemainingText
  simp only [hchange, Bool.false_and, Bool.and_false, Bool.false_eq_true, if_false,
    List.isEmpty_nil, if_true]
  split
  · exact ⟨rfl, rfl⟩
  · split
    · exact ⟨rfl, rfl⟩
    · exact insertSeparatorIfNeeded_flags _ _ _ _

theorem renderOp_allEqual (ui : Flags) (hv : ui.viewOnlyDiff = true) (diffs : List DiffOp)
    (heq : ∀ op ∈ diffs, op.type = DiffType.equal) (i : Nat) (c : Chunk)
    (hd : c.isLineDirty = false) :
    (renderOp ui diffs i c).isLineDirty = false ∧
    (renderOp ui diffs i c).visibleItemCount = c.visibleItemCount := by
  unfold renderOp
  cases hop : diffs.get? i with
  | none => exact ⟨hd, rfl⟩
  | some op =>
    have ht := heq op (List.get?_mem hop)
    simp only [ht, hv, decide_True, Bool.and_self, if_true]
    unfold processViewOnlyContext
    simp only [hd, Bool.false_eq_true, if_false]
    have h := processRemainingText_flags ui diffs i op.text c
      (fun next hn => heq next (List.get?_mem hn))
    exact ⟨h.1.trans hd, h.2⟩

theorem renderOps_allEqual (ui : Flags) (hv : ui.viewOnlyDiff = true) (diffs : List DiffOp)
    (heq : ∀ op ∈ diffs, op.type = DiffType.equal) (count : Nat) :
    ∀ (i : Nat) (c : Chunk), c.isLineDirty = false →
    (renderOps ui diffs i count c).isLineDirty = false ∧
    (renderOps ui diffs i count c).visibleItemCount = c.visibleItemCount := by
  induction count with
  | zero => intro i c hd; exact ⟨hd, rfl⟩
  | succ count ih =>
    intro i c hd
    have h1 := renderOp_allEqual ui hv diffs heq i c hd
    have h2 := ih (i + 1) (renderOp ui diffs i c) h1.1
    exact ⟨h2.1, h2.2.trans h1.2⟩

/-- In view-only mode a job over equal ops only, not line-dirty and with nothing
visible yet, ends on the single separator `No changes found`, and is in the
same condition whenever it pauses. -/
theorem drive_allEqual (ui : Flags) (hv : ui.viewOnlyDiff = true) (fuel : Nat) :
    ∀ (job : Job) (out : List Node),
    (∀ op ∈ job.diffs, op.type = DiffType.equal) → job.isLineDirty = false →
    job.visibleItemCount = 0 →
    (∀ o, drive ui fuel job out = Outcome.done o → o = [Node.separator noChangesLabel]) ∧
    (∀ j o, drive ui fuel job out = Outcome.paused j o →
      j.diffs = job.diffs ∧ j.isLineDirty = false ∧ j.visibleItemCount = 0) := by
  induction fuel with
  | zero =>
    intro job out heq hd hvis
    have hw := renderOps_allEqual ui hv job.diffs heq
      (min (job.index + CHUNK_SIZE) job.diffs.length - job.index) job.index
      { diffOutput := out, chunkFragment := [], isLineDirty := job.isLineDirty,
        visibleItemCount := job.visibleItemCount } hd
    rw [drive_eq]
    by_cases hl : limitReached job = true
    · simp only [hl, if_true, Outcome.paused.injEq, and_imp, reduceCtorEq, false_implies,
        implies_true, true_and]
      intro j o hj _
      subst hj
      exact ⟨rfl, hd, hvis⟩
    · by_cases hm : (job.afterChunk (chunkWalk ui job out)).index < job.diffs.length
      · simp [hl, hm]
      · simp only [hl, hm, if_false, Outcome.done.injEq, reduceCtorEq, false_implies,
          implies_true, and_true]
        intro o ho
        subst ho
        have hz : (job.afterChunk (chunkWalk ui job out)).visibleItemCount = 0 :=
          hw.2.trans hvis
        simp [finalCheck, hv, hz]
  | succ fuel ih =>
    intro job out heq hd hvis
    have hw := renderOps_allEqual ui hv job.diffs heq
      (min (job.index + CHUNK_SIZE) job.diffs.length - job.index) job.index
      { diffOutput := out, chunkFragment := [], isLineDirty := job.isLineDirty,
        visibleItemCount := job.visibleItemCount } hd
    rw [drive_eq]
    by_cases hl : limitReached job = true
    · simp only [hl, if_true, Outcome.paused.injEq, and_imp, reduceCtorEq, false_implies,
        implies_true, true_and]
      intro j o hj _
      subst hj
      exact ⟨rfl, hd, hvis⟩
    · by_cases hm : (job.afterChunk (chunkWalk ui job out)).index < job.diffs.length
      · simp only [hl, hm, if_true, if_false, Bool.false_eq_true]
        exact ih (job.afterChunk (chunkWalk ui job out)) _ heq hw.1 (hw.2.trans hvis)
      · simp only [hl, hm, if_false, Outcome.done.injEq, reduceCtorEq, false_implies,
          implies_true, and_true]
        intro o ho
        subst ho
        have hz : (job.afterChunk (chunkWalk ui job out)).visibleItemCount = 0 :=
          hw.2.trans hvis
        simp [finalCheck, hv, hz]

/-! ## Rendering to completion -/

theorem render_eq (diffs : List DiffOp) (r : DiffRenderer) :
    render diffs r = renderWithLimit (some SAFE_RENDER_LIMIT) diffs r := rfl

theorem outcome_of_not_paused (d : Outcome) (h : ∀ j o, d ≠ Outcome.paused j o) :
    d.pauses = [] ∧ ∀ prev, d.resumeAfter prev = prev := by
  cases d with
  | done o => exact ⟨rfl, fun _ => rfl⟩
  | paused j o => exact absurd rfl (h j o)
  | waiting j o => exact ⟨rfl, fun _ => rfl⟩

theorem start_fits (diffs : List DiffOp) (h : diffs.length ≤ SAFE_RENDER_LIMIT) :
    ∀ limit, (Job.start (some SAFE_RENDER_LIMIT) diffs).renderLimit = some limit →
      (Job.start (some SAFE_RENDER_LIMIT) diffs).diffs.length ≤ limit ∧
      (Job.start (some SAFE_RENDER_LIMIT) diffs).index < limit := by
  intro limit hl
  simp only [Job.start, Option.some.injEq] at hl
  subst hl
  exact ⟨h, by show 0 < 5000; decide⟩

theorem noLimit_fits (job : Job) (h : job.renderLimit = none) :
    ∀ limit, job.renderLimit = some limit →
      job.diffs.length ≤ limit ∧ job.index < limit := by
  intro limit hl
  rw [h] at hl
  cases hl

/-- What `resume` followed by the host's run leaves behind, read off `drive`. -/
theorem run_resume (r : DiffRenderer) (job : Job) (fuel : Nat)
    (hc : r.currentResume = some job) (hatt : r.ui.attached = true)
    (hs : r.scheduled = []) :
    (run fuel (resume r)).ui.diffOutput
        = (drive r.ui.toFlags fuel { job with renderLimit := none } r.ui.diffOutput).out ∧
    (run fuel (resume r)).scheduled.map Prod.snd
        = (drive r.ui.toFlags fuel { job with renderLimit := none }
            r.ui.diffOutput).scheduledJobs ∧
    (run fuel (resume r)).pauseCalls = r.pauseCalls ∧
    (run fuel (resume r)).currentResume = none := by
  rw [resume_eq r job hc]
  have h := run_renderChunk fuel { job with renderLimit := none }
    { r with ui := { r.ui with loadMoreShown := false }, currentResume := none } hatt hs
  have hn := outcome_of_not_paused _
    (drive_not_paused r.ui.toFlags fuel { job with renderLimit := none } r.ui.diffOutput
      (noLimit_fits _ rfl))
  simp only [hn.1, hn.2, List.append_nil] at h
  exact h

/-- C4: in view-only mode, for every sequence of equal ops only (the empty one
included) and either `ignoreEnter` setting, once `render` has run to completion
(through `resume` when the sequence is longer than the safety limit) the output
holds exactly one element, the separator `No changes found`; a sequence within
the limit gets there without `resume`. -/
theorem render_allEqual_viewOnly (diffs : List DiffOp) (r : DiffRenderer) (fuel : Nat)
    (hwf : wellFormed r = true) (hatt : r.ui.attached = true)
    (hv : r.ui.viewOnlyDiff = true)
    (heq : ∀ op ∈ diffs, op.type = DiffType.equal) (hfuel : diffs.length ≤ fuel) :
    (run fuel (resume (run fuel (render diffs r)))).ui.diffOutput
        = [Node.separator noChangesLabel] ∧
    (run fuel (resume (run fuel (render diffs r)))).scheduled = [] ∧
    (run fuel (resume (run fuel (render diffs r)))).currentResume = none ∧
    (diffs.length ≤ SAFE_RENDER_LIMIT →
      (run fuel (render diffs r)).ui.diffOutput = [Node.separator noChangesLabel] ∧
      (run fuel (render diffs r)).scheduled = [] ∧
      (run fuel (render diffs r)).currentResume = none) := by
  have hvf : r.ui.toFlags.viewOnlyDiff = true := hv
  obtain ⟨h1, h2, _, h4⟩ :=
    run_renderWithLimit (some SAFE_RENDER_LIMIT) diffs r fuel hwf hatt
  rw [← render_eq] at h1 h2 h4
  have hshort : diffs.length ≤ SAFE_RENDER_LIMIT →
      (run fuel (render diffs r)).ui.diffOutput = [Node.separator noChangesLabel] ∧
      (run fuel (render diffs r)).scheduled = [] ∧
      (run fuel (render diffs r)).currentResume = none := by
    intro hN
    obtain ⟨o, ho⟩ := drive_done r.ui.toFlags fuel (Job.start (some SAFE_RENDER_LIMIT) diffs) []
      (start_fits diffs hN) (by simpa [Job.start] using hfuel)
    have hdone := (drive_allEqual r.ui.toFlags hvf fuel
      (Job.start (some SAFE_RENDER_LIMIT) diffs) [] heq rfl rfl).1 o ho
    rw [ho] at h1 h2 h4
    subst hdone
    exact ⟨h1, by simpa [Outcome.scheduledJobs] using h2, h4⟩
  refine ⟨?_, ?_, ?_, hshort⟩
  all_goals
    by_cases hN : diffs.length ≤ SAFE_RENDER_LIMIT
    · obtain ⟨a1, a2, a3⟩ := hshort hN
      have hres : resume (run fuel (render diffs r)) = run fuel (render diffs r) := by
        simp [resume, a3]
      rw [hres, run_of_scheduled_nil fuel _ a2]
      first | exact a1 | exact a2 | exact a3
    · have hN' : SAFE_RENDER_LIMIT < diffs.length := by omega
      obtain ⟨j, o, hj, _, hjd, hcont⟩ :=
        (drive_paused r.ui.toFlags SAFE_RENDER_LIMIT 10 fuel
          (Job.start (some SAFE_RENDER_LIMIT) diffs) [] rfl hN' rfl).1
          (by unfold SAFE_RENDER_LIMIT at hN'; omega)
      rw [hj] at h1 h2 h4
      have hs1 : (run fuel (render diffs r)).scheduled = [] := by
        simpa [Outcome.scheduledJobs] using h2
      have hf1 : (run fuel (render diffs r)).ui.toFlags = r.ui.toFlags :=
        (run_ui fuel _).1.trans (renderWithLimit_ui _ diffs r).1
      have ha1 : (run fuel (render diffs r)).ui.attached = true :=
        ((run_ui fuel _).2.trans (renderWithLimit_ui _ diffs r).2).trans hatt
      obtain ⟨b1, b2, _, b4⟩ := run_resume (run fuel (render diffs r)) j fuel h4 ha1 hs1
      rw [hf1, h1] at b1 b2
      simp only [Outcome.out] at b1 b2
      rw [hcont fuel] at b1 b2
      obtain ⟨o', ho'⟩ := drive_done r.ui.toFlags (fuel + 10)
        { Job.start (some SAFE_RENDER_LIMIT) diffs with renderLimit := none } []
        (noLimit_fits _ rfl) (by simp only [Job.start]; omega)
      have hdone := (drive_allEqual r.ui.toFlags hvf (fuel + 10)
        { Job.start (some SAFE_RENDER_LIMIT) diffs with renderLimit := none } []
        heq rfl rfl).1 o' ho'
      rw [ho'] at b1 b2
      subst hdone
      first
        | exact b1
        | exact (by simpa [Outcome.scheduledJobs] using b2)
        | exact b4

/-- Witness for C4: three equal ops on a fresh renderer in view-only mode. -/
theorem render_allEqual_viewOnly_witness :
    (run 3 (resume (run 3 (render
      [⟨DiffType.equal, utf16 "a\n"⟩, ⟨DiffType.equal, utf16 "b"⟩, ⟨DiffType.equal, []⟩]
      (freshRenderer false true))))).ui.diffOutput = [Node.separator noChangesLabel] :=
  (render_allEqual_viewOnly
    [⟨DiffType.equal, utf16 "a\n"⟩, ⟨DiffType.equal, utf16 "b"⟩, ⟨DiffType.equal, []⟩]
    (freshRenderer false true) 3 rfl rfl rfl
    (by
      intro op hop
      simp only [List.mem_cons, List.mem_singleton, List.not_mem_nil, or_false] at hop
      rcases hop with rfl | rfl | rfl <;> rfl)
    (by decide)).1

/-! ## Scenario B -/

theorem drive_of_done_zero (ui : Flags) (job : Job) (out o : List Node)
    (h : drive ui 0 job out = Outcome.done o) (fuel : Nat) :
    drive ui fuel job out = Outcome.done o := by
  have h2 := drive_add_of_settled ui 0 job out (by rw [h]; intro j o'; simp) fuel
  rw [Nat.zero_add] at h2
  rw [h2, h]

theorem scenarioB_drive (ignoreEnter : Bool) :
    drive { ignoreEnter := ignoreEnter, viewOnlyDiff := true } 0
        (Job.start (some SAFE_RENDER_LIMIT) scenarioB) [] =
      Outcome.done
        [Node.separator (utf16 "... 2 Hidden Lines ..."),
         Node.span SpanClass.diffDel (utf16 "old"),
         Node.span (if ignoreEnter then SpanClass.plain else SpanClass.diffDel) (utf16 "\n"),
         Node.span SpanClass.diffAdd (utf16 "new"),
         Node.span (if ignoreEnter then SpanClass.plain else SpanClass.diffAdd) (utf16 "\n"),
         Node.separator (utf16 "... 2 Hidden Lines ...")] := by
  cases ignoreEnter <;> decide

/-- C5 as stated fails: in view-only mode the output for Scenario B is not the
four nodes separator `... 1 Hidden Line ...`, deletion `old\n`, insertion
`new\n`, separator `... 1 Hidden Line ...`, with `ignoreEnter` off or on, and no
separator with that text occurs in it. -/
theorem scenarioB_not_as_stated :
    (run 1 (render scenarioB (freshRenderer false true))).ui.diffOutput ≠
      [Node.separator (utf16 "... 1 Hidden Line ..."),
       Node.span SpanClass.diffDel (utf16 "old\n"),
       Node.span SpanClass.diffAdd (utf16 "new\n"),
       Node.separator (utf16 "... 1 Hidden Line ...")] ∧
    (run 1 (render scenarioB (freshRenderer true true))).ui.diffOutput ≠
      [Node.separator (utf16 "... 1 Hidden Line ..."),
       Node.span SpanClass.diffDel (utf16 "old\n"),
       Node.span SpanClass.diffAdd (utf16 "new\n"),
       Node.separator (utf16 "... 1 Hidden Line ...")] ∧
    Node.separator (utf16 "... 1 Hidden Line ...") ∉
      (run 1 (render scenarioB (freshRenderer false true))).ui.diffOutput ∧
    Node.separator (utf16 "... 1 Hidden Line ...") ∉
      (run 1 (render scenarioB (freshRenderer true true))).ui.diffOutput := by
  decide

/-- C5, amended: in view-only mode Scenario B renders to exactly six nodes: the
separator `... 2 Hidden Lines ...`, a span `old` marked as a deletion, a span
holding the line break (marked as a deletion with `ignoreEnter` off, unmarked
with it on), a span `new` marked as an insertion, a span holding the line break
(marked as an insertion with `ignoreEnter` off, unmarked with it on), and a
second separator `... 2 Hidden Lines ...`. -/
theorem scenarioB_viewOnly (r : DiffRenderer) (fuel : Nat)
    (hwf : wellFormed r = true) (hatt : r.ui.attached = true)
    (hv : r.ui.viewOnlyDiff = true) :
    (run fuel (render scenarioB r)).ui.diffOutput =
      [Node.separator (utf16 "... 2 Hidden Lines ..."),
       Node.span SpanClass.diffDel (utf16 "old"),
       Node.span (if r.ui.ignoreEnter then SpanClass.plain else SpanClass.diffDel)
         (utf16 "\n"),
       Node.span SpanClass.diffAdd (utf16 "new"),
       Node.span (if r.ui.ignoreEnter then SpanClass.plain else SpanClass.diffAdd)
         (utf16 "\n"),
       Node.separator (utf16 "... 2 Hidden Lines ...")] := by
  have h := (run_renderWithLimit (some SAFE_RENDER_LIMIT) scenarioB r fuel hwf hatt).1
  have hf : r.ui.toFlags = { ignoreEnter := r.ui.ignoreEnter, viewOnlyDiff := true } := by
    rw [← hv]
  rw [← render_eq, hf,
    drive_of_done_zero _ _ _ _ (scenarioB_drive r.ui.ignoreEnter) fuel] at h
  exact h

/-- Witness for the amended C5: a fresh renderer in view-only mode. -/
theorem scenarioB_viewOnly_witness :
    (run 1 (render scenarioB (freshRenderer false true))).ui.diffOutput =
      [Node.separator (utf16 "... 2 Hidden Lines ..."),
       Node.span SpanClass.diffDel (utf16 "old"),
       Node.span SpanClass.diffDel (utf16 "\n"),
       Node.span SpanClass.diffAdd (utf16 "new"),
       Node.span SpanClass.diffAdd (utf16 "\n"),
       Node.separator (utf16 "... 2 Hidden Lines ...")] :=
  scenarioB_viewOnly (freshRenderer false true) 1 rfl rfl rfl

/-! ## Pause and resume -/

theorem drive_done_unique (ui : Flags) (job : Job) (out : List Node) (f1 f2 : Nat)
    (o1 o2 : List Node) (h1 : drive ui f1 job out = Outcome.done o1)
    (h2 : drive ui f2 job out = Outcome.done o2) : o1 = o2 := by
  have a := drive_add_of_settled ui f1 job out (by rw [h1]; intro j o; simp) f2
  have b := drive_add_of_settled ui f2 job out (by rw [h2]; intro j o; simp) f1
  rw [Nat.add_comm f2 f1, a, h1, h2] at b
  exact Outcome.done.inj b

theorem run_renderChunk_not_paused (fuel : Nat) : ∀ (job : Job) (r : DiffRenderer),
    r.ui.attached = true → r.scheduled = [] →
    (∀ j o, drive r.ui.toFlags fuel job r.ui.diffOutput ≠ Outcome.paused j o) →
    (run fuel (renderChunk job r)).isRenderingPaused = r.isRenderingPaused := by
  induction fuel with
  | zero =>
    intro job r hatt hs
    rw [renderChunk_eq job r hatt, drive_eq]
    by_cases hl : limitReached job = true
    · simp [hl]
    · by_cases hm : (job.afterChunk (chunkWalk r.ui.toFlags job r.ui.diffOutput)).index
          < job.diffs.length
      · simp [hl, hm, run, renderChunkBody, scheduleNext]
      · simp [hl, hm, run, renderChunkBody]
  | succ fuel ih =>
    intro job r hatt hs
    rw [renderChunk_eq job r hatt, drive_eq]
    by_cases hl : limitReached job = true
    · simp [hl]
    · by_cases hm : (job.afterChunk (chunkWalk r.ui.toFlags job r.ui.diffOutput)).index
          < job.diffs.length
      · have h := ih (job.afterChunk (chunkWalk r.ui.toFlags job r.ui.diffOutput))
          { r with
            ui := { r.ui with diffOutput :=
              (chunkWalk r.ui.toFlags job r.ui.diffOutput).diffOutput ++
                (chunkWalk r.ui.toFlags job r.ui.diffOutput).chunkFragment }
            renderTask := some
              { id := r.nextTaskId
                type := if r.documentHidden then TaskType.timeout else TaskType.raf }
            nextTaskId := r.nextTaskId + 1
            scheduled := [] } hatt rfl
        simp only [hl, hm, if_true, if_false, Bool.false_eq_true]
        simp only [renderChunkBody, hm, if_true, scheduleNext, hs, List.nil_append, run,
          fireNext]
        exact h
      · simp [hl, hm, run, renderChunkBody, hs]

/-- C6: for every sequence longer than `SAFE_RENDER_LIMIT` and every mode
setting, `render` pauses with the cursor at the limit; after `resume()` the job
runs to completion and the output equals that of rendering the same sequence
with the limit unbounded from the start. -/
theorem pause_resume_equivalence (diffs : List DiffOp) (r : DiffRenderer)
    (fuel1 fuel2 fuel3 : Nat)
    (hwf : wellFormed r = true) (hatt : r.ui.attached = true)
    (hN : SAFE_RENDER_LIMIT < diffs.length)
    (hfuel1 : 10 ≤ fuel1) (hfuel2 : diffs.length ≤ fuel2) (hfuel3 : diffs.length ≤ fuel3) :
    (∃ job, (run fuel1 (render diffs r)).currentResume = some job ∧
      job.index = SAFE_RENDER_LIMIT ∧ job.diffs = diffs) ∧
    (run fuel1 (render diffs r)).scheduled = [] ∧
    (run fuel2 (resume (run fuel1 (render diffs r)))).scheduled = [] ∧
    (run fuel2 (resume (run fuel1 (render diffs r)))).currentResume = none ∧
    (run fuel3 (renderWithLimit none diffs r)).scheduled = [] ∧
    (run fuel3 (renderWithLimit none diffs r)).currentResume = none ∧
    (run fuel2 (resume (run fuel1 (render diffs r)))).ui.diffOutput
      = (run fuel3 (renderWithLimit none diffs r)).ui.diffOutput := by
  obtain ⟨h1, h2, _, h4⟩ :=
    run_renderWithLimit (some SAFE_RENDER_LIMIT) diffs r fuel1 hwf hatt
  rw [← render_eq] at h1 h2 h4
  obtain ⟨j, o, hj, hji, hjd, hcont⟩ :=
    (drive_paused r.ui.toFlags SAFE_RENDER_LIMIT 10 fuel1
      (Job.start (some SAFE_RENDER_LIMIT) diffs) [] rfl hN rfl).1 hfuel1
  rw [hj] at h1 h2 h4
  have hs1 : (run fuel1 (render diffs r)).scheduled = [] := by
    simpa [Outcome.scheduledJobs] using h2
  have hf1 : (run fuel1 (render diffs r)).ui.toFlags = r.ui.toFlags :=
    (run_ui fuel1 _).1.trans (renderWithLimit_ui _ diffs r).1
  have ha1 : (run fuel1 (render diffs r)).ui.attached = true :=
    ((run_ui fuel1 _).2.trans (renderWithLimit_ui _ diffs r).2).trans hatt
  obtain ⟨b1, b2, _, b4⟩ := run_resume (run fuel1 (render diffs r)) j fuel2 h4 ha1 hs1
  rw [hf1, h1] at b1 b2
  simp only [Outcome.out] at b1 b2
  rw [hcont fuel2] at b1 b2
  obtain ⟨c1, c2, _, c4⟩ := run_renderWithLimit none diffs r fuel3 hwf hatt
  obtain ⟨o2, ho2⟩ := drive_done r.ui.toFlags (fuel2 + 10) (Job.start none diffs) []
    (noLimit_fits _ rfl) (by simp only [Job.start]; omega)
  obtain ⟨o3, ho3⟩ := drive_done r.ui.toFlags fuel3 (Job.start none diffs) []
    (noLimit_fits _ rfl) (by simp only [Job.start]; omega)
  have hsame : ({ Job.start (some SAFE_RENDER_LIMIT) diffs with renderLimit := none } : Job)
      = Job.start none diffs := rfl
  rw [hsame, ho2] at b1 b2
  rw [ho3] at c1 c2 c4
  have ho := drive_done_unique _ _ _ _ _ _ _ ho2 ho3
  refine ⟨⟨j, h4, hji, hjd⟩, hs1, by simpa [Outcome.scheduledJobs] using b2, b4,
    by simpa [Outcome.scheduledJobs] using c2, c4, ?_⟩
  rw [b1, c1]
  simp only [Outcome.out]
  exact ho

/-- Witness for C6: 5001 equal ops on a fresh renderer. -/
theorem pause_resume_equivalence_witness :
    (run 5001 (resume (run 10 (render (List.replicate 5001 ⟨DiffType.equal, utf16 "a"⟩)
        (freshRenderer false false))))).ui.diffOutput
      = (run 5001 (renderWithLimit none (List.replicate 5001 ⟨DiffType.equal, utf16 "a"⟩)
        (freshRenderer false false))).ui.diffOutput :=
  (pause_resume_equivalence (List.replicate 5001 ⟨DiffType.equal, utf16 "a"⟩)
    (freshRenderer false false) 10 5001 5001 rfl rfl
    (by rw [List.length_replicate]; decide) (by decide)
    (by rw [List.length_replicate]) (by rw [List.length_replicate])).2.2.2.2.2.2

/-- C7: a render job pauses exactly when the sequence has more than 5000 ops.
With at most 5000 ops no step calls `pause`. With `N > 5000` ops the job has not
paused while fewer than ten scheduled steps have run and is paused from the
tenth on: `pause` was called once, with `(5000, N)`, the cursor is at 5000,
`N - 5000` remaining items are offered and no step is scheduled; after `resume`
no further call of `pause` is made. A progress element shows the pause at
`(5000, N)` when the controller has one; the controller of this repository has
none, and then no progress text is written. -/
theorem pause_iff_over_limit (diffs : List DiffOp) (r : DiffRenderer)
    (hwf : wellFormed r = true) (hatt : r.ui.attached = true) :
    (diffs.length ≤ SAFE_RENDER_LIMIT → ∀ fuel,
      (run fuel (render diffs r)).pauseCalls = r.pauseCalls ∧
      (run fuel (render diffs r)).currentResume = none ∧
      (run fuel (render diffs r)).isRenderingPaused = false) ∧
    (SAFE_RENDER_LIMIT < diffs.length →
      (∀ fuel, fuel < 10 →
        (run fuel (render diffs r)).pauseCalls = r.pauseCalls ∧
        (run fuel (render diffs r)).currentResume = none) ∧
      (∀ fuel, 10 ≤ fuel →
        (run fuel (render diffs r)).pauseCalls
          = r.pauseCalls ++ [(SAFE_RENDER_LIMIT, diffs.length)] ∧
        (∃ job, (run fuel (render diffs r)).currentResume = some job ∧
          job.index = SAFE_RENDER_LIMIT) ∧
        (run fuel (render diffs r)).isRenderingPaused = true ∧
        (run fuel (render diffs r)).scheduled = [] ∧
        (run fuel (render diffs r)).ui.loadMoreShown = true ∧
        (run fuel (render diffs r)).ui.loadMoreRemaining
          = some (diffs.length - SAFE_RENDER_LIMIT) ∧
        (run fuel (render diffs r)).ui.diffProgress
          = r.ui.diffProgress.map (fun _ =>
              { shown := true
                text := ProgressText.pausedAt SAFE_RENDER_LIMIT diffs.length }) ∧
        ∀ fuel2, (run fuel2 (resume (run fuel (render diffs r)))).pauseCalls
          = r.pauseCalls ++ [(SAFE_RENDER_LIMIT, diffs.length)])) := by
  have hstop_att : ({ stop r with ui := { (stop r).ui with
      diffOutput := []
      diffProgress := (stop r).ui.diffProgress.map
        (fun _ => { shown := true, text := ProgressText.rendering }) } } : DiffRenderer).ui.attached = true := by
    simpa using (stop_ui r).2.1.trans hatt
  have hf : (stop r).ui.toFlags = r.ui.toFlags := (stop_ui r).1
  constructor
  · intro hN fuel
    obtain ⟨_, _, h3, h4⟩ :=
      run_renderWithLimit (some SAFE_RENDER_LIMIT) diffs r fuel hwf hatt
    have hnp := drive_not_paused r.ui.toFlags fuel (Job.start (some SAFE_RENDER_LIMIT) diffs) []
      (start_fits diffs hN)
    have hn := outcome_of_not_paused _ hnp
    rw [hn.1, List.append_nil] at h3
    rw [hn.2] at h4
    have h5 := run_renderChunk_not_paused fuel (Job.start (some SAFE_RENDER_LIMIT) diffs)
      { stop r with ui := { (stop r).ui with
          diffOutput := []
          diffProgress := (stop r).ui.diffProgress.map
            (fun _ => { shown := true, text := ProgressText.rendering }) } }
      hstop_att (stop_scheduled r hwf) (by simpa [hf] using hnp)
    rw [← renderWithLimit_eq, ← render_eq] at h5
    rw [← render_eq] at h3 h4
    exact ⟨h3, h4, h5.trans (stop_fields r).2.2.1⟩
  · intro hN
    constructor
    · intro fuel hfuel
      obtain ⟨_, _, h3, h4⟩ :=
        run_renderWithLimit (some SAFE_RENDER_LIMIT) diffs r fuel hwf hatt
      obtain ⟨j, o, hj⟩ :=
        (drive_paused r.ui.toFlags SAFE_RENDER_LIMIT 10 fuel
          (Job.start (some SAFE_RENDER_LIMIT) diffs) [] rfl hN rfl).2 hfuel
      rw [hj] at h3 h4
      rw [← render_eq] at h3 h4
      exact ⟨by simpa [Outcome.pauses] using h3, h4⟩
    · intro fuel hfuel
      obtain ⟨h1, h2, h3, h4⟩ :=
        run_renderWithLimit (some SAFE_RENDER_LIMIT) diffs r fuel hwf hatt
      obtain ⟨j, o, hj, hji, hjd, _⟩ :=
        (drive_paused r.ui.toFlags SAFE_RENDER_LIMIT 10 fuel
          (Job.start (some SAFE_RENDER_LIMIT) diffs) [] rfl hN rfl).1 hfuel
      have h5 := run_renderChunk_paused fuel (Job.start (some SAFE_RENDER_LIMIT) diffs)
        { stop r with ui := { (stop r).ui with
            diffOutput := []
            diffProgress := (stop r).ui.diffProgress.map
              (fun _ => { shown := true, text := ProgressText.rendering }) } }
        hstop_att (stop_scheduled r hwf) j o (by simpa [hf] using hj)
      rw [← renderWithLimit_eq, ← render_eq] at h5
      rw [hj] at h1 h2 h3 h4
      rw [← render_eq] at h1 h2 h3 h4
      have hjd' : j.diffs = diffs := hjd
      simp only [Outcome.pauses, hji, hjd'] at h3
      rw [hji, hjd'] at h5
      have hs1 : (run fuel (render diffs r)).scheduled = [] := by
        simpa [Outcome.scheduledJobs] using h2
      have ha1 : (run fuel (render diffs r)).ui.attached = true :=
        ((run_ui fuel _).2.trans (renderWithLimit_ui _ diffs r).2).trans hatt
      have hprog : (run fuel (render diffs r)).ui.diffProgress
          = r.ui.diffProgress.map (fun _ =>
              { shown := true
                text := ProgressText.pausedAt SAFE_RENDER_LIMIT diffs.length }) := by
        rw [h5.2.2.2]
        show Option.map _ (Option.map _ (stop r).ui.diffProgress) = _
        rw [stop_diffProgress]
        cases r.ui.diffProgress <;> rfl
      refine ⟨h3, ⟨j, h4, hji⟩, h5.1, hs1, h5.2.1, h5.2.2.1, hprog, fun fuel2 => ?_⟩
      have hr := (run_resume (run fuel (render diffs r)) j fuel2 h4 ha1 hs1).2.2.1
      rw [hr, h3]

/-- Witness for C7: three ops never pause; 5001 ops pause once ten scheduled
steps have run. -/
theorem pause_iff_over_limit_witness :
    (run 3 (render scenarioB (freshRenderer false false))).pauseCalls
        = (freshRenderer false false).pauseCalls ∧
    (run 10 (render (List.replicate 5001 ⟨DiffType.insert, utf16 "a"⟩)
        (freshRenderer false false))).pauseCalls
      = (freshRenderer false false).pauseCalls ++
          [(SAFE_RENDER_LIMIT, (List.replicate 5001 (⟨DiffType.insert, utf16 "a"⟩ : DiffOp)).length)] :=
  ⟨((pause_iff_over_limit scenarioB (freshRenderer false false) rfl rfl).1
      (by decide) 3).1,
   (((pause_iff_over_limit (List.replicate 5001 ⟨DiffType.insert, utf16 "a"⟩)
      (freshRenderer false false) rfl rfl).2
      (by rw [List.length_replicate]; decide)).2 10 (by decide)).1⟩

/-! ## Independence of the prior state -/

theorem renderChunk_detached (job : Job) (r : DiffRenderer) (h : r.ui.attached = false) :
    renderChunk job r = r := by
  simp [renderChunk, h]

theorem sameView_renderChunk (job : Job) (r r' : DiffRenderer) (h : sameView r r') :
    sameView (renderChunk job r) (renderChunk job r') := by
  obtain ⟨hf, ha, ho, hs, hc⟩ := h
  cases hatt : r.ui.attached with
  | false =>
    rw [renderChunk_detached job r hatt, renderChunk_detached job r' (ha ▸ hatt)]
    exact ⟨hf, ha, ho, hs, hc⟩
  | true =>
    have hatt' : r'.ui.attached = true := ha ▸ hatt
    rw [renderChunk_eq job r hatt, renderChunk_eq job r' hatt']
    by_cases hl : limitReached job = true
    · simp only [hl, if_true]
      exact ⟨hf, ha, ho, hs, rfl⟩
    · simp only [hl, if_false]
      unfold renderChunkBody
      rw [← hf, ← ho]
      by_cases hm : (job.afterChunk (chunkWalk r.ui.toFlags job r.ui.diffOutput)).index
          < job.diffs.length
      · simp only [hm, if_true]
        refine ⟨hf, ha, rfl, ?_, hc⟩
        simp [scheduleNext, hs]
      · simp only [hm, if_false]
        exact ⟨hf, ha, rfl, hs, hc⟩

theorem sameView_fireNext (r r' : DiffRenderer) (h : sameView r r') :
    sameView (fireNext r) (fireNext r') := by
  obtain ⟨hf, ha, ho, hs, hc⟩ := h
  unfold fireNext
  cases h1 : r.scheduled with
  | nil =>
    cases h2 : r'.scheduled with
    | nil => exact ⟨hf, ha, ho, hs, hc⟩
    | cons p' rest' => simp [h1, h2] at hs
  | cons p rest =>
    cases h2 : r'.scheduled with
    | nil => simp [h1, h2] at hs
    | cons p' rest' =>
      obtain ⟨task, job⟩ := p
      obtain ⟨task', job'⟩ := p'
      simp only [h1, h2, List.map_cons, List.cons.injEq] at hs
      obtain ⟨hj, hrest⟩ := hs
      subst hj
      exact sameView_renderChunk job _ _ ⟨hf, ha, ho, hrest, hc⟩

theorem sameView_run (fuel : Nat) : ∀ (r r' : DiffRenderer), sameView r r' →
    sameView (run fuel r) (run fuel r') := by
  induction fuel with
  | zero => intro r r' h; exact h
  | succ fuel ih =>
    intro r r' h
    have hs := h.2.2.2.1
    unfold run
    cases h1 : r.scheduled with
    | nil =>
      cases h2 : r'.scheduled with
      | nil => exact h
      | cons p' rest' => simp [h1, h2] at hs
    | cons p rest =>
      cases h2 : r'.scheduled with
      | nil => simp [h1, h2] at hs
      | cons p' rest' => exact ih _ _ (sameView_fireNext r r' h)

theorem sameView_resume (r r' : DiffRenderer) (h : sameView r r') :
    sameView (resume r) (resume r') := by
  obtain ⟨hf, ha, ho, hs, hc⟩ := h
  cases h1 : r.currentResume with
  | none =>
    have h2 : r'.currentResume = none := hc ▸ h1
    simp only [resume, h1, h2]
    exact ⟨hf, ha, ho, hs, hc⟩
  | some job =>
    have h2 : r'.currentResume = some job := hc ▸ h1
    rw [resume_eq r job h1, resume_eq r' job h2]
    exact sameView_renderChunk _ _ _ ⟨hf, ha, ho, hs, rfl⟩

theorem sameView_renderWithLimit (limit : Option Nat) (diffs : List DiffOp)
    (r r' : DiffRenderer) (hwf : wellFormed r = true) (hwf' : wellFormed r' = true)
    (hf : r.ui.toFlags = r'.ui.toFlags) (ha : r.ui.attached = r'.ui.attached) :
    sameView (renderWithLimit limit diffs r) (renderWithLimit limit diffs r') := by
  rw [renderWithLimit_eq, renderWithLimit_eq]
  apply sameView_renderChunk
  refine ⟨?_, ?_, rfl, ?_, ?_⟩
  · exact ((stop_ui r).1.trans hf).trans (stop_ui r').1.symm
  · exact ((stop_ui r).2.1.trans ha).trans (stop_ui r').2.1.symm
  · show List.map Prod.snd (stop r).scheduled = List.map Prod.snd (stop r').scheduled
    rw [stop_scheduled r hwf, stop_scheduled r' hwf']
  · exact (stop_fields r).2.1.trans (stop_fields r').2.1.symm

theorem wellFormed_render (diffs : List DiffOp) (r : DiffRenderer)
    (hwf : wellFormed r = true) : wellFormed (render diffs r) = true :=
  wellFormed_renderWithLimit (some SAFE_RENDER_LIMIT) diffs r hwf

theorem render_ui (diffs : List DiffOp) (r : DiffRenderer) :
    (render diffs r).ui.toFlags = r.ui.toFlags ∧
    (render diffs r).ui.attached = r.ui.attached :=
  renderWithLimit_ui (some SAFE_RENDER_LIMIT) diffs r

/-- C8: `render(seq)` does not depend on the state it starts from. From any two
states of the renderer (idle, with a scheduled step, paused, or done, and
whatever the output held) with the same mode settings, `render(seq)` gives the
same output after any number of scheduled steps, and again after `resume` and
any number of further steps; so rendering the same sequence a second time gives
the output of the first time. -/
theorem render_independent_of_state (diffs : List DiffOp) (r r' : DiffRenderer)
    (fuel fuel2 : Nat)
    (hwf : wellFormed r = true) (hwf' : wellFormed r' = true)
    (hf : r.ui.toFlags = r'.ui.toFlags) (ha : r.ui.attached = r'.ui.attached) :
    (run fuel (render diffs r)).ui.diffOutput = (run fuel (render diffs r')).ui.diffOutput ∧
    (run fuel2 (resume (run fuel (render diffs r)))).ui.diffOutput
      = (run fuel2 (resume (run fuel (render diffs r')))).ui.diffOutput ∧
    (run fuel2 (resume (run fuel (render diffs
        (run fuel2 (resume (run fuel (render diffs r)))))))).ui.diffOutput
      = (run fuel2 (resume (run fuel (render diffs r)))).ui.diffOutput := by
  have key : ∀ (a b : DiffRenderer), wellFormed a = true → wellFormed b = true →
      a.ui.toFlags = b.ui.toFlags → a.ui.attached = b.ui.attached →
      sameView (run fuel (render diffs a)) (run fuel (render diffs b)) ∧
      sameView (run fuel2 (resume (run fuel (render diffs a))))
        (run fuel2 (resume (run fuel (render diffs b)))) := by
    intro a b hwa hwb hfab haab
    have h1 := sameView_run fuel _ _
      (sameView_renderWithLimit (some SAFE_RENDER_LIMIT) diffs a b hwa hwb hfab haab)
    exact ⟨h1, sameView_run fuel2 _ _ (sameView_resume _ _ h1)⟩
  obtain ⟨k1, k2⟩ := key r r' hwf hwf' hf ha
  refine ⟨k1.2.2.1, k2.2.2.1, ?_⟩
  have hwfx : wellFormed (run fuel2 (resume (run fuel (render diffs r)))) = true :=
    wellFormed_run fuel2 _ (wellFormed_resume _ (wellFormed_run fuel _
      (wellFormed_renderWithLimit _ diffs r hwf)))
  have hux := run_ui fuel2 (resume (run fuel (render diffs r)))
  have hur := resume_ui (run fuel (render diffs r))
  have hu1 := run_ui fuel (render diffs r)
  have hu0 := renderWithLimit_ui (some SAFE_RENDER_LIMIT) diffs r
  rw [← render_eq] at hu0
  have hfx : (run fuel2 (resume (run fuel (render diffs r)))).ui.toFlags = r.ui.toFlags :=
    ((hux.1.trans hur.1).trans hu1.1).trans hu0.1
  have hax : (run fuel2 (resume (run fuel (render diffs r)))).ui.attached = r.ui.attached :=
    ((hux.2.trans hur.2).trans hu1.2).trans hu0.2
  exact (key _ r hwfx hwf hfx hax).2.2.2.1

/-- Witness for C8: a fresh renderer against one that is in the middle of
another render. -/
theorem render_independent_of_state_witness :
    (run 1 (render scenarioB (freshRenderer false true))).ui.diffOutput
      = (run 1 (render scenarioB
          (render (List.replicate 600 ⟨DiffType.insert, utf16 "x"⟩)
            (freshRenderer false true)))).ui.diffOutput :=
  (render_independent_of_state scenarioB (freshRenderer false true)
    (render (List.replicate 600 ⟨DiffType.insert, utf16 "x"⟩) (freshRenderer false true))
    1 0 (wellFormed_new _ _)
    (wellFormed_render (List.replicate 600 ⟨DiffType.insert, utf16 "x"⟩)
      (freshRenderer false true) (wellFormed_new _ _))
    (render_ui (List.replicate 600 ⟨DiffType.insert, utf16 "x"⟩)
      (freshRenderer false true)).1.symm
    (render_ui (List.replicate 600 ⟨DiffType.insert, utf16 "x"⟩)
      (freshRenderer false true)).2.symm).1

/-! ## Stopping -/

theorem stop_of_idle (r : DiffRenderer) (h : isIdle r = true) : stop r = r := by
  obtain ⟨ui, renderTask, isRenderingPaused, currentResume, documentHidden, nextTaskId,
    scheduled, pauseCalls⟩ := r
  obtain ⟨flags, attached, diffOutput, diffProgress, loadMoreShown, loadMoreRemaining,
    loadingBarActive⟩ := ui
  simp only [isIdle, Bool.and_eq_true, Option.isNone_iff_eq_none, Bool.not_eq_true',
    List.isEmpty_iff] at h
  obtain ⟨⟨⟨⟨⟨h1, h2⟩, h3⟩, h4⟩, h5⟩, h6⟩ := h
  subst h1 h2 h3 h5 h6
  cases diffProgress with
  | none => rfl
  | some element =>
    obtain ⟨shown, text⟩ := element
    have hshown : shown = false := h4
    subst hshown
    rfl

/-- C9: `stop()` is safe from every state. After it `renderTask` and
`currentResume` are `null` and `isRenderingPaused` is `false`, whatever the state
before. From every state a renderer reaches, no callback is left scheduled, the
output is untouched, the renderer is idle, a further `resume()` changes nothing
and no later step of the host changes anything, so the stopped job appends
nothing more; in the idle state `stop()` changes nothing. -/
theorem stop_safe (r : DiffRenderer) :
    (stop r).renderTask = none ∧ (stop r).currentResume = none ∧
    (stop r).isRenderingPaused = false ∧
    (stop r).ui.diffOutput = r.ui.diffOutput ∧
    resume (stop r) = stop r ∧
    (isIdle r = true → stop r = r) ∧
    (wellFormed r = true →
      (stop r).scheduled = [] ∧ isIdle (stop r) = true ∧
      (∀ fuel, run fuel (stop r) = stop r) ∧
      (∀ fuel, run fuel (resume (stop r)) = stop r)) := by
  have hfields := stop_fields r
  have hres : resume (stop r) = stop r := by
    simp [resume, hfields.2.1]
  refine ⟨hfields.1, hfields.2.1, hfields.2.2.1, (stop_ui r).2.2.1, hres, stop_of_idle r, ?_⟩
  intro hwf
  have hs := stop_scheduled r hwf
  refine ⟨hs, ?_, fun fuel => run_of_scheduled_nil fuel _ hs, fun fuel => ?_⟩
  · simp [isIdle, hfields.1, hfields.2.1, hfields.2.2.1, hfields.2.2.2.1, hfields.2.2.2.2, hs]
  · rw [hres]
    exact run_of_scheduled_nil fuel _ hs

/-- Witness for C9: stopping a render of 600 ops that has a step scheduled. -/
theorem stop_safe_witness :
    (stop (render (List.replicate 600 ⟨DiffType.insert, utf16 "x"⟩)
        (freshRenderer false false))).scheduled = [] ∧
    stop (freshRenderer false false) = freshRenderer false false :=
  ⟨((stop_safe (render (List.replicate 600 ⟨DiffType.insert, utf16 "x"⟩)
      (freshRenderer false false))).2.2.2.2.2.2
      (wellFormed_render (List.replicate 600 ⟨DiffType.insert, utf16 "x"⟩)
        (freshRenderer false false) (wellFormed_new _ _))).1,
   (stop_safe (freshRenderer false false)).2.2.2.2.2.1 rfl⟩

/-! ## The worker manager in fallback mode -/

theorem compute_of_useFallback (env : Env) (textA textB : JSString) (ignoreEnter : Bool)
    (m : DiffWorkerManager) (h : m.useFallback = true) :
    compute env textA textB ignoreEnter m = computeFallback env textA textB m := by
  simp [compute, computeDepth, h]

theorem computeFallback_fields (env : Env) (textA textB : JSString) (m : DiffWorkerManager) :
    (computeFallback env textA textB m).useFallback = m.useFallback ∧
    (computeFallback env textA textB m).initCalls = m.initCalls ∧
    (computeFallback env textA textB m).workersCreated = m.workersCreated ∧
    (computeFallback env textA textB m).posted = m.posted ∧
    (computeFallback env textA textB m).worker = m.worker ∧
    (computeFallback env textA textB m).isBusy = m.isBusy ∧
    ∃ c, (computeFallback env textA textB m).callbacks = m.callbacks ++ [c] := by
  unfold computeFallback
  cases env.dmp with
  | none => exact ⟨rfl, rfl, rfl, rfl, rfl, rfl, _, rfl⟩
  | some dmp =>
    simp only
    cases dmp.diff_main textA textB with
    | error message => exact ⟨rfl, rfl, rfl, rfl, rfl, rfl, _, rfl⟩
    | ok diffs =>
      simp only
      cases dmp.diff_cleanupSemantic diffs with
      | error message => exact ⟨rfl, rfl, rfl, rfl, rfl, rfl, _, rfl⟩
      | ok cleaned => exact ⟨rfl, rfl, rfl, rfl, rfl, rfl, _, rfl⟩

theorem computeFallback_success (env : Env) (textA textB : JSString) (m : DiffWorkerManager)
    (dmp : DiffMatchPatch) (diffs cleaned : List DiffOp) (hd : env.dmp = some dmp)
    (hmain : dmp.diff_main textA textB = Except.ok diffs)
    (hclean : dmp.diff_cleanupSemantic diffs = Except.ok cleaned) :
    (computeFallback env textA textB m).callbacks
      = m.callbacks ++ [Callback.onSuccess cleaned none] := by
  simp [computeFallback, hd, hmain, hclean]

theorem apply_of_useFallback (env : Env) (m : DiffWorkerManager) (e : ManagerEvent)
    (h : m.useFallback = true) :
    (e.apply env m).useFallback = true ∧ (e.apply env m).initCalls = m.initCalls ∧
    (e.apply env m).workersCreated = m.workersCreated ∧ (e.apply env m).posted = m.posted := by
  cases e with
  | compute textA textB ignoreEnter =>
    simp only [ManagerEvent.apply]
    rw [compute_of_useFallback env textA textB ignoreEnter m h]
    have hf := computeFallback_fields env textA textB m
    exact ⟨hf.1.trans h, hf.2.1, hf.2.2.1, hf.2.2.2.1⟩
  | message w data =>
    simp only [ManagerEvent.apply]
    split
    · cases data <;> exact ⟨h, rfl, rfl, rfl⟩
    · exact ⟨h, rfl, rfl, rfl⟩
  | error w =>
    simp only [ManagerEvent.apply]
    split
    · unfold onerror terminateWorker
      cases m.worker <;> exact ⟨rfl, rfl, rfl, rfl⟩
    · exact ⟨h, rfl, rfl, rfl⟩

theorem applyEvents_of_useFallback (env : Env) (events : List ManagerEvent) :
    ∀ (m : DiffWorkerManager), m.useFallback = true →
    (applyEvents env m events).useFallback = true ∧
    (applyEvents env m events).initCalls = m.initCalls ∧
    (applyEvents env m events).workersCreated = m.workersCreated ∧
    (applyEvents env m events).posted = m.posted := by
  induction events with
  | nil => intro m h; exact ⟨h, rfl, rfl, rfl⟩
  | cons e rest ih =>
    intro m h
    have h1 := apply_of_useFallback env m e h
    have h2 := ih (e.apply env m) h1.1
    exact ⟨h2.1, h2.2.1.trans h1.2.1, h2.2.2.1.trans h1.2.2.1, h2.2.2.2.trans h1.2.2.2⟩

/-- C10: the switch to fallback is one-way. Once `useFallback` is true it stays
true under every later sequence of `compute` calls and worker events, during
which `init` is never called and no Worker is built; and every later `compute`
runs the diff on the caller: it posts no message, calls exactly one callback
before returning, and when the diff library does not throw that call is
`onSuccess(diffs, null)`. -/
theorem fallback_one_way (env : Env) (m : DiffWorkerManager) (events : List ManagerEvent)
    (h : m.useFallback = true) :
    (applyEvents env m events).useFallback = true ∧
    (applyEvents env m events).initCalls = m.initCalls ∧
    (applyEvents env m events).workersCreated = m.workersCreated ∧
    ∀ textA textB ignoreEnter,
      (compute env textA textB ignoreEnter (applyEvents env m events)).useFallback = true ∧
      (compute env textA textB ignoreEnter (applyEvents env m events)).initCalls
        = m.initCalls ∧
      (compute env textA textB ignoreEnter (applyEvents env m events)).workersCreated
        = m.workersCreated ∧
      (compute env textA textB ignoreEnter (applyEvents env m events)).posted
        = (applyEvents env m events).posted ∧
      (∃ c, (compute env textA textB ignoreEnter (applyEvents env m events)).callbacks
        = (applyEvents env m events).callbacks ++ [c]) ∧
      ∀ dmp diffs cleaned, env.dmp = some dmp →
        dmp.diff_main textA textB = Except.ok diffs →
        dmp.diff_cleanupSemantic diffs = Except.ok cleaned →
        (compute env textA textB ignoreEnter (applyEvents env m events)).callbacks
          = (applyEvents env m events).callbacks ++ [Callback.onSuccess cleaned none] := by
  obtain ⟨h1, h2, h3, _⟩ := applyEvents_of_useFallback env events m h
  refine ⟨h1, h2, h3, fun textA textB ignoreEnter => ?_⟩
  rw [compute_of_useFallback env textA textB ignoreEnter _ h1]
  have hf := computeFallback_fields env textA textB (applyEvents env m events)
  exact ⟨hf.1.trans h1, hf.2.1.trans h2, hf.2.2.1.trans h3, hf.2.2.2.1, hf.2.2.2.2.2.2,
    fun dmp diffs cleaned hd hmain hclean =>
      computeFallback_success env textA textB _ dmp diffs cleaned hd hmain hclean⟩

/-- Witness for C10: a manager built where no Worker can be made is in fallback
from the start; after a stray worker error, `compute` delivers one success with
`null` stats. -/
theorem fallback_one_way_witness :
    (compute noWorkerEnv (utf16 "a") (utf16 "b") false
        (applyEvents noWorkerEnv (DiffWorkerManager.new noWorkerEnv)
          [ManagerEvent.error 0])).callbacks
      = (applyEvents noWorkerEnv (DiffWorkerManager.new noWorkerEnv)
          [ManagerEvent.error 0]).callbacks ++
        [Callback.onSuccess [⟨DiffType.delete, utf16 "a"⟩, ⟨DiffType.insert, utf16 "b"⟩]
          none] :=
  ((fallback_one_way noWorkerEnv (DiffWorkerManager.new noWorkerEnv)
      [ManagerEvent.error 0] rfl).2.2.2 (utf16 "a") (utf16 "b") false).2.2.2.2.2
    _ _ _ rfl rfl rfl

/-! ## The worker manager: reachable states -/

theorem terminateWorker_fields (m : DiffWorkerManager) :
    (terminateWorker m).worker = m.worker ∧ (terminateWorker m).isBusy = m.isBusy ∧
    (terminateWorker m).useFallback = m.useFallback ∧
    (terminateWorker m).workersCreated = m.workersCreated ∧
    (terminateWorker m).posted = m.posted ∧ (terminateWorker m).callbacks = m.callbacks ∧
    (terminateWorker m).initCalls = m.initCalls := by
  unfold terminateWorker
  split <;> exact ⟨rfl, rfl, rfl, rfl, rfl, rfl, rfl⟩

theorem terminateWorker_terminated (m : DiffWorkerManager) :
    (∀ w, w ∈ m.terminated → w ∈ (terminateWorker m).terminated) ∧
    (∀ w, m.worker = some w → w ∈ (terminateWorker m).terminated) ∧
    (∀ w, w ∈ (terminateWorker m).terminated → w ∈ m.terminated ∨ m.worker = some w) := by
  unfold terminateWorker
  split
  · rename_i v hv
    refine ⟨fun w hw => by simp [hw], fun w hw => ?_, fun w hw => ?_⟩
    · rw [hv] at hw
      cases hw
      simp
    · have hw' : w ∈ m.terminated ++ [v] := hw
      simp only [List.mem_append, List.mem_singleton] at hw'
      rcases hw' with h | h
      · exact Or.inl h
      · exact Or.inr (by rw [h, hv])
  · rename_i hv
    refine ⟨fun w hw => hw, fun w hw => ?_, fun w hw => Or.inl hw⟩
    rw [hv] at hw
    cases hw

theorem managerWF_terminateWorker (m : DiffWorkerManager) (h : managerWF m) :
    managerWF (terminateWorker m) := by
  obtain ⟨h1, h2, h3, h4⟩ := h
  have hf := terminateWorker_fields m
  have ht := terminateWorker_terminated m
  refine ⟨?_, ?_, ?_, ?_⟩
  · intro w hw
    rw [hf.1] at hw
    rw [hf.2.2.2.1]
    exact h1 w hw
  · intro w hw
    rw [hf.2.2.2.1] at hw
    rw [hf.1]
    rcases h2 w hw with h | h
    · exact Or.inl h
    · exact Or.inr (ht.1 w h)
  · intro p hp
    rw [hf.2.2.2.2.1] at hp
    rw [hf.2.2.2.1]
    exact h3 p hp
  · intro w hw
    rw [hf.2.2.2.1]
    rcases ht.2.2 w hw with h | h
    · exact h4 w h
    · exact h1 w h

theorem init_eq_of_available (env : Env) (m : DiffWorkerManager)
    (ha : env.workerAvailable m.initCalls = true) :
    init env m =
      { terminateWorker m with
        initCalls := m.initCalls + 1
        worker := some (terminateWorker m).workersCreated
        workersCreated := (terminateWorker m).workersCreated + 1 } := by
  unfold init
  rw [if_pos ha]

theorem init_eq_of_unavailable (env : Env) (m : DiffWorkerManager)
    (ha : env.workerAvailable m.initCalls = false) :
    init env m =
      { terminateWorker m with initCalls := m.initCalls + 1, useFallback := true } := by
  unfold init
  rw [if_neg (by rw [ha]; exact Bool.false_ne_true)]

theorem init_fields (env : Env) (m : DiffWorkerManager) :
    (init env m).callbacks = m.callbacks ∧ (init env m).posted = m.posted ∧
    (init env m).isBusy = m.isBusy ∧ (init env m).initCalls = m.initCalls + 1 ∧
    (∀ w, w ∈ m.terminated → w ∈ (init env m).terminated) ∧
    (∀ w, m.worker = some w → w ∈ (init env m).terminated) := by
  have hf := terminateWorker_fields m
  have ht := terminateWorker_terminated m
  cases ha : env.workerAvailable m.initCalls with
  | true =>
    rw [init_eq_of_available env m ha]
    exact ⟨hf.2.2.2.2.2.1, hf.2.2.2.2.1, hf.2.1, rfl, ht.1, ht.2.1⟩
  | false =>
    rw [init_eq_of_unavailable env m ha]
    exact ⟨hf.2.2.2.2.2.1, hf.2.2.2.2.1, hf.2.1, rfl, ht.1, ht.2.1⟩

theorem init_of_available (env : Env) (m : DiffWorkerManager)
    (ha : env.workerAvailable m.initCalls = true) :
    (init env m).worker = some m.workersCreated ∧
    (init env m).workersCreated = m.workersCreated + 1 ∧
    (init env m).useFallback = m.useFallback ∧
    (init env m).terminated = (terminateWorker m).terminated := by
  have hf := terminateWorker_fields m
  rw [init_eq_of_available env m ha]
  exact ⟨congrArg some hf.2.2.2.1, congrArg (· + 1) hf.2.2.2.1, hf.2.2.1, rfl⟩

theorem init_of_unavailable (env : Env) (m : DiffWorkerManager)
    (ha : env.workerAvailable m.initCalls = false) :
    (init env m).useFallback = true ∧ (init env m).worker = m.worker ∧
    (init env m).workersCreated = m.workersCreated := by
  have hf := terminateWorker_fields m
  rw [init_eq_of_unavailable env m ha]
  exact ⟨rfl, hf.1, hf.2.2.2.1⟩

theorem managerWF_init (env : Env) (m : DiffWorkerManager) (h : managerWF m) :
    managerWF (init env m) := by
  obtain ⟨h1, h2, h3, h4⟩ := managerWF_terminateWorker m h
  have hf := terminateWorker_fields m
  cases ha : env.workerAvailable m.initCalls with
  | true =>
    rw [init_eq_of_available env m ha]
    refine ⟨?_, ?_, ?_, ?_⟩
    · intro w hw
      have hw' : some (terminateWorker m).workersCreated = some w := hw
      cases hw'
      exact Nat.lt_succ_self _
    · intro w hw
      have hw' : w < (terminateWorker m).workersCreated + 1 := hw
      by_cases hlast : w = (terminateWorker m).workersCreated
      · left
        rw [hlast]
      · right
        have hlt : w < (terminateWorker m).workersCreated := by omega
        rcases h2 w hlt with hcur | hterm
        · exact (terminateWorker_terminated m).2.1 w (by rw [← hf.1]; exact hcur)
        · exact hterm
    · intro p hp
      exact Nat.lt_succ_of_lt (h3 p hp)
    · intro w hw
      exact Nat.lt_succ_of_lt (h4 w hw)
  | false =>
    rw [init_eq_of_unavailable env m ha]
    exact ⟨h1, h2, h3, h4⟩

theorem managerWF_new (env : Env) : managerWF (DiffWorkerManager.new env) := by
  apply managerWF_init
  refine ⟨?_, ?_, ?_, ?_⟩
  · intro w hw; cases hw
  · intro w hw; exact absurd hw (Nat.not_lt_zero w)
  · intro p hp; cases hp
  · intro w hw; cases hw

theorem managerWF_computeFallback (env : Env) (textA textB : JSString)
    (m : DiffWorkerManager) (h : managerWF m) :
    managerWF (computeFallback env textA textB m) := by
  unfold computeFallback
  cases env.dmp with
  | none => exact h
  | some dmp =>
    simp only
    cases dmp.diff_main textA textB with
    | error message => exact h
    | ok diffs =>
      simp only
      cases dmp.diff_cleanupSemantic diffs <;> exact h

theorem computeDepth_step (depth : Nat) (env : Env) (textA textB : JSString)
    (ignoreEnter : Bool) (m m1 m2 : DiffWorkerManager)
    (h1 : m1 = if m.worker.isNone && !m.useFallback then init env m else m)
    (h2 : m2 = if m1.isBusy then init env (terminateWorker m1) else m1) :
    computeDepth (depth + 1) env textA textB ignoreEnter m =
      if m1.useFallback then computeFallback env textA textB m1
      else if m2.useFallback then computeDepth depth env textA textB ignoreEnter m2
      else
        match m2.worker with
        | some w =>
          { m2 with
            isBusy := true
            posted := m2.posted ++
              [(w, { textA := textA, textB := textB, ignoreEnter := ignoreEnter })] }
        | none => { m2 with isBusy := true } := by
  subst h1 h2
  rfl

theorem managerWF_computeDepth (env : Env) (textA textB : JSString) (ignoreEnter : Bool)
    (depth : Nat) : ∀ (m : DiffWorkerManager), managerWF m →
    managerWF (computeDepth depth env textA textB ignoreEnter m) := by
  induction depth with
  | zero => intro m h; exact h
  | succ depth ih =>
    intro m h
    rw [computeDepth_step depth env textA textB ignoreEnter m _ _ rfl rfl]
    have hm1 : managerWF (if m.worker.isNone && !m.useFallback then init env m else m) := by
      split
      · exact managerWF_init env m h
      · exact h
    generalize (if m.worker.isNone && !m.useFallback then init env m else m) = m1 at hm1 ⊢
    have hm2 : managerWF (if m1.isBusy then init env (terminateWorker m1) else m1) := by
      split
      · exact managerWF_init env _ (managerWF_terminateWorker _ hm1)
      · exact hm1
    generalize (if m1.isBusy then init env (terminateWorker m1) else m1) = m2 at hm2 ⊢
    by_cases hf1 : m1.useFallback = true
    · rw [if_pos hf1]
      exact managerWF_computeFallback env textA textB _ hm1
    · rw [if_neg hf1]
      by_cases hf2 : m2.useFallback = true
      · rw [if_pos hf2]
        exact ih _ hm2
      · rw [if_neg hf2]
        obtain ⟨a1, a2, a3, a4⟩ := hm2
        split
        · rename_i w hw
          refine ⟨a1, a2, ?_, a4⟩
          intro p hp
          have hp' : p ∈ m2.posted ++
              [(w, { textA := textA, textB := textB, ignoreEnter := ignoreEnter })] := hp
          simp only [List.mem_append, List.mem_singleton] at hp'
          rcases hp' with hp' | hp'
          · exact a3 p hp'
          · rw [hp']
            exact a1 w hw
        · exact ⟨a1, a2, a3, a4⟩

theorem managerWF_onmessage (data : WorkerData) (m : DiffWorkerManager) (h : managerWF m) :
    managerWF (onmessage data m) := by
  unfold onmessage
  cases data <;> exact h

theorem managerWF_onerror (m : DiffWorkerManager) (h : managerWF m) :
    managerWF (onerror m) := by
  obtain ⟨h1, h2, h3, h4⟩ := h
  unfold onerror terminateWorker
  cases hw : m.worker with
  | none =>
    refine ⟨?_, ?_, h3, h4⟩
    · intro w hw'
      simp only [hw] at hw'
      cases hw'
    · intro w hlt
      rcases h2 w hlt with hcur | hterm
      · rw [hw] at hcur; cases hcur
      · exact Or.inr hterm
  | some v =>
    refine ⟨?_, ?_, h3, ?_⟩
    · intro w hw'
      cases hw'
    · intro w hlt
      right
      rcases h2 w hlt with hcur | hterm
      · rw [hw] at hcur
        cases hcur
        simp
      · simp [hterm]
    · intro w hmem
      have hmem' : w ∈ m.terminated ++ [v] := hmem
      simp only [List.mem_append, List.mem_singleton] at hmem'
      rcases hmem' with h | h
      · exact h4 w h
      · rw [h]
        exact h1 v hw

theorem managerWF_apply (env : Env) (m : DiffWorkerManager) (e : ManagerEvent)
    (h : managerWF m) : managerWF (e.apply env m) := by
  cases e with
  | compute textA textB ignoreEnter =>
    exact managerWF_computeDepth env textA textB ignoreEnter 2 m h
  | message w data =>
    simp only [ManagerEvent.apply]
    split
    · exact managerWF_onmessage data m h
    · exact h
  | error w =>
    simp only [ManagerEvent.apply]
    split
    · exact managerWF_onerror m h
    · exact h

theorem managerWF_applyEvents (env : Env) (events : List ManagerEvent) :
    ∀ (m : DiffWorkerManager), managerWF m → managerWF (applyEvents env m events) := by
  induction events with
  | nil => intro m h; exact h
  | cons e rest ih => intro m h; exact ih _ (managerWF_apply env m e h)

theorem worker_of_workerLive (m : DiffWorkerManager) (w : Nat) (h : managerWF m)
    (hl : workerLive m w = true) : m.worker = some w := by
  unfold workerLive at hl
  simp only [Bool.and_eq_true, decide_eq_true_eq, Bool.not_eq_true'] at hl
  rcases h.2.1 w hl.1 with hcur | hterm
  · exact hcur
  · have hc : m.terminated.contains w = true := by simp [hterm]
    rw [hl.2] at hc
    cases hc

theorem not_workerLive_of_terminated (m : DiffWorkerManager) (w : Nat)
    (h : w ∈ m.terminated) : workerLive m w = false := by
  simp [workerLive, h]

theorem not_workerLive_of_no_worker (m : DiffWorkerManager) (h : managerWF m)
    (hn : m.worker = none) (w : Nat) : workerLive m w = false := by
  cases hl : workerLive m w with
  | false => rfl
  | true =>
    have := worker_of_workerLive m w h hl
    rw [hn] at this
    cases this

theorem applyEvents_of_no_worker (env : Env) (events : List ManagerEvent) :
    ∀ (m : DiffWorkerManager), managerWF m → m.worker = none →
    (∀ e ∈ events, e.isCompute = false) → applyEvents env m events = m := by
  induction events with
  | nil => intro m _ _ _; rfl
  | cons e rest ih =>
    intro m hwf hn hev
    have he := hev e (List.mem_cons_self e rest)
    have hstep : e.apply env m = m := by
      cases e with
      | compute textA textB ignoreEnter => cases he
      | message w data =>
        simp [ManagerEvent.apply, not_workerLive_of_no_worker m hwf hn w]
      | error w =>
        simp [ManagerEvent.apply, not_workerLive_of_no_worker m hwf hn w]
    show applyEvents env (e.apply env m) rest = m
    rw [hstep]
    exact ih m hwf hn (fun e' he' => hev e' (List.mem_cons_of_mem e he'))

theorem compute_of_unavailable (env : Env) (textA textB : JSString) (ignoreEnter : Bool)
    (m : DiffWorkerManager) (hfb : m.useFallback = false)
    (hinit : m.worker = none ∨ m.isBusy = true)
    (ha : env.workerAvailable m.initCalls = false) :
    ∃ m', compute env textA textB ignoreEnter m = computeFallback env textA textB m' ∧
      m'.useFallback = true ∧ m'.callbacks = m.callbacks ∧ m'.posted = m.posted ∧
      m'.initCalls = m.initCalls + 1 ∧ m'.workersCreated = m.workersCreated ∧
      ∀ w, m.worker = some w → w ∈ m'.terminated := by
  unfold compute
  rw [computeDepth_step 1 env textA textB ignoreEnter m _ _ rfl rfl]
  cases hw : m.worker with
  | none =>
    have hu := init_of_unavailable env m ha
    have hi := init_fields env m
    refine ⟨init env m, ?_, hu.1, hi.1, hi.2.1, hi.2.2.2.1, hu.2.2, fun w h => by cases h⟩
    simp [hfb, hu.1]
  | some w =>
    have hbusy : m.isBusy = true := by
      rcases hinit with h | h
      · rw [hw] at h; cases h
      · exact h
    have hft := terminateWorker_fields m
    have ha' : env.workerAvailable (terminateWorker m).initCalls = false := by
      rw [hft.2.2.2.2.2.2]; exact ha
    have hu := init_of_unavailable env (terminateWorker m) ha'
    have hi := init_fields env (terminateWorker m)
    refine ⟨init env (terminateWorker m), ?_, hu.1, hi.1.trans hft.2.2.2.2.2.1,
      hi.2.1.trans hft.2.2.2.2.1, ?_, hu.2.2.trans hft.2.2.2.1, ?_⟩
    · simp only [Option.isNone_some, Bool.false_and, Bool.false_eq_true, if_false, hfb, hbusy,
        if_true, hu.1]
      rw [computeDepth_step 0 env textA textB ignoreEnter _ _ _ rfl rfl]
      simp [hu.1]
    · rw [hi.2.2.2.1, hft.2.2.2.2.2.2]
    · intro v hv
      exact hi.2.2.2.2.1 v ((terminateWorker_terminated m).2.1 v (by rw [hw]; exact hv))

/-- What a call of `compute` adds to the record of callbacks: nothing, or calls
made with `useFallback` set. -/
theorem computeDepth_callbacks (env : Env) (textA textB : JSString) (ignoreEnter : Bool)
    (depth : Nat) : ∀ (m : DiffWorkerManager),
    ∃ new, (computeDepth depth env textA textB ignoreEnter m).callbacks = m.callbacks ++ new ∧
      (new ≠ [] → (computeDepth depth env textA textB ignoreEnter m).useFallback = true) := by
  induction depth with
  | zero => intro m; exact ⟨[], by simp [computeDepth], fun h => absurd rfl h⟩
  | succ depth ih =>
    intro m
    rw [computeDepth_step depth env textA textB ignoreEnter m _ _ rfl rfl]
    have hc1 : (if m.worker.isNone && !m.useFallback then init env m else m).callbacks
        = m.callbacks := by
      split
      · exact (init_fields env m).1
      · rfl
    generalize (if m.worker.isNone && !m.useFallback then init env m else m) = m1 at hc1 ⊢
    have hc2 : (if m1.isBusy then init env (terminateWorker m1) else m1).callbacks
        = m.callbacks := by
      split
      · exact ((init_fields env _).1.trans (terminateWorker_fields m1).2.2.2.2.2.1).trans hc1
      · exact hc1
    generalize (if m1.isBusy then init env (terminateWorker m1) else m1) = m2 at hc2 ⊢
    by_cases hf1 : m1.useFallback = true
    · rw [if_pos hf1]
      have hf := computeFallback_fields env textA textB m1
      obtain ⟨c, hc⟩ := hf.2.2.2.2.2.2
      exact ⟨[c], by rw [hc, hc1], fun _ => hf.1.trans hf1⟩
    · rw [if_neg hf1]
      by_cases hf2 : m2.useFallback = true
      · rw [if_pos hf2]
        obtain ⟨new, hn1, hn2⟩ := ih m2
        exact ⟨new, by rw [hn1, hc2], hn2⟩
      · rw [if_neg hf2]
        refine ⟨[], ?_, fun h => absurd rfl h⟩
        rw [List.append_nil]
        split <;> exact hc2

theorem computeFallback_terminated (env : Env) (textA textB : JSString)
    (m : DiffWorkerManager) :
    (computeFallback env textA textB m).terminated = m.terminated := by
  unfold computeFallback
  cases env.dmp with
  | none => rfl
  | some dmp =>
    simp only
    cases dmp.diff_main textA textB with
    | error message => rfl
    | ok diffs =>
      simp only
      cases dmp.diff_cleanupSemantic diffs <;> rfl

theorem computeDepth_terminated (env : Env) (textA textB : JSString) (ignoreEnter : Bool)
    (w : Nat) (depth : Nat) : ∀ (m : DiffWorkerManager), w ∈ m.terminated →
    w ∈ (computeDepth depth env textA textB ignoreEnter m).terminated := by
  induction depth with
  | zero => intro m h; exact h
  | succ depth ih =>
    intro m h
    rw [computeDepth_step depth env textA textB ignoreEnter m _ _ rfl rfl]
    have h1 : w ∈ (if m.worker.isNone && !m.useFallback then init env m else m).terminated := by
      split
      · exact (init_fields env m).2.2.2.2.1 w h
      · exact h
    generalize (if m.worker.isNone && !m.useFallback then init env m else m) = m1 at h1 ⊢
    have h2 : w ∈ (if m1.isBusy then init env (terminateWorker m1) else m1).terminated := by
      split
      · exact (init_fields env _).2.2.2.2.1 w ((terminateWorker_terminated m1).1 w h1)
      · exact h1
    generalize (if m1.isBusy then init env (terminateWorker m1) else m1) = m2 at h2 ⊢
    by_cases hf1 : m1.useFallback = true
    · rw [if_pos hf1, computeFallback_terminated]
      exact h1
    · rw [if_neg hf1]
      by_cases hf2 : m2.useFallback = true
      · rw [if_pos hf2]
        exact ih m2 h2
      · rw [if_neg hf2]
        split <;> exact h2

theorem apply_terminated (env : Env) (m : DiffWorkerManager) (e : ManagerEvent) (w : Nat)
    (h : w ∈ m.terminated) : w ∈ (e.apply env m).terminated := by
  cases e with
  | compute textA textB ignoreEnter =>
    exact computeDepth_terminated env textA textB ignoreEnter w 2 m h
  | message v data =>
    simp only [ManagerEvent.apply]
    split
    · unfold onmessage
      cases data <;> exact h
    · exact h
  | error v =>
    simp only [ManagerEvent.apply]
    split
    · unfold onerror
      simp only
      split
      · exact h
      · exact (terminateWorker_terminated _).1 w h
    · exact h

theorem applyEvents_terminated (env : Env) (w : Nat) (events : List ManagerEvent) :
    ∀ (m : DiffWorkerManager), w ∈ m.terminated →
    w ∈ (applyEvents env m events).terminated := by
  induction events with
  | nil => intro m h; exact h
  | cons e rest ih => intro m h; exact ih _ (apply_terminated env m e w h)

theorem onerror_of_worker (m : DiffWorkerManager) (w : Nat) (hw : m.worker = some w) :
    (onerror m).useFallback = true ∧ (onerror m).worker = none ∧
    (onerror m).callbacks = m.callbacks ++ [Callback.onError workerFailedMessage] ∧
    (onerror m).posted = m.posted ∧ w ∈ (onerror m).terminated := by
  unfold onerror terminateWorker
  simp [hw]

/-- A call of `compute` made while a request is in flight, when a new Worker can
be built: the old worker is terminated and the request goes to the new one. -/
theorem compute_of_busy_available (env : Env) (textA textB : JSString) (ignoreEnter : Bool)
    (m : DiffWorkerManager) (w : Nat) (hfb : m.useFallback = false)
    (hbusy : m.isBusy = true) (hw : m.worker = some w)
    (ha : env.workerAvailable m.initCalls = true) :
    (compute env textA textB ignoreEnter m).worker = some m.workersCreated ∧
    (compute env textA textB ignoreEnter m).workersCreated = m.workersCreated + 1 ∧
    (compute env textA textB ignoreEnter m).posted = m.posted ++
      [(m.workersCreated, { textA := textA, textB := textB, ignoreEnter := ignoreEnter })] ∧
    (compute env textA textB ignoreEnter m).callbacks = m.callbacks ∧
    (compute env textA textB ignoreEnter m).useFallback = false ∧
    (compute env textA textB ignoreEnter m).terminated = m.terminated ++ [w, w] := by
  have hft := terminateWorker_fields m
  have ha' : env.workerAvailable (terminateWorker m).initCalls = true := by
    rw [hft.2.2.2.2.2.2]; exact ha
  have hi := init_of_available env (terminateWorker m) ha'
  have hif := init_fields env (terminateWorker m)
  have hfb2 : (init env (terminateWorker m)).useFallback = false :=
    (hi.2.2.1.trans hft.2.2.1).trans hfb
  have hterm : (init env (terminateWorker m)).terminated = m.terminated ++ [w, w] := by
    rw [hi.2.2.2]
    simp [terminateWorker, hw]
  have hc : compute env textA textB ignoreEnter m =
      { init env (terminateWorker m) with
        isBusy := true
        posted := (init env (terminateWorker m)).posted ++
          [(m.workersCreated,
            { textA := textA, textB := textB, ignoreEnter := ignoreEnter })] } := by
    unfold compute
    rw [computeDepth_step 1 env textA textB ignoreEnter m _ _ rfl rfl]
    simp only [hw, Option.isNone_some, Bool.false_and, Bool.false_eq_true, if_false, hfb,
      hbusy, if_true, hfb2, hi.1]
    rw [hft.2.2.2.1]
  rw [hc]
  exact ⟨hi.1.trans (congrArg some hft.2.2.2.1),
    hi.2.1.trans (congrArg (· + 1) hft.2.2.2.1),
    congrArg (· ++ [(m.workersCreated,
      ({ textA := textA, textB := textB, ignoreEnter := ignoreEnter } : WorkerRequest))])
      (hif.2.1.trans hft.2.2.2.2.1),
    hif.1.trans hft.2.2.2.2.2.1, hfb2, hterm⟩

/-! ## The worker manager: failures and supersession -/

/-- C11 as stated fails: with one request in flight, a second `compute` whose
re-initialisation cannot build a Worker switches to fallback and answers that
request with `onSuccess(diffs, null)`; `onError` is not called. A manager built
where no Worker can be made is in fallback without any callback. -/
theorem init_failure_not_surfaced :
    (applyEvents oneWorkerEnv (DiffWorkerManager.new oneWorkerEnv)
      [ManagerEvent.compute (utf16 "a") (utf16 "b") false,
       ManagerEvent.compute (utf16 "c") (utf16 "d") false]).useFallback = true ∧
    (applyEvents oneWorkerEnv (DiffWorkerManager.new oneWorkerEnv)
      [ManagerEvent.compute (utf16 "a") (utf16 "b") false,
       ManagerEvent.compute (utf16 "c") (utf16 "d") false]).callbacks =
      [Callback.onSuccess [⟨DiffType.delete, utf16 "c"⟩, ⟨DiffType.insert, utf16 "d"⟩] none] ∧
    (DiffWorkerManager.new noWorkerEnv).useFallback = true ∧
    (DiffWorkerManager.new noWorkerEnv).callbacks = [] := by
  decide

/-- C11, amended: when the worker crashes (`worker.onerror` fires) the manager
switches to fallback and calls `onError` exactly once, with the message
`Worker failed. Enabling fallback for next run.`, and no further callback
follows until the next `compute`. When a Worker cannot be built in `init`, the
manager switches to fallback without calling `onError`: inside `compute` the
request is answered by the fallback branch with exactly one callback
(`onSuccess(diffs, null)` when the library does not throw), and in the
constructor no callback is made. -/
theorem background_failure (env : Env) (m : DiffWorkerManager) (hwf : managerWF m) :
    (∀ w, workerLive m w = true →
      ((ManagerEvent.error w).apply env m).useFallback = true ∧
      ((ManagerEvent.error w).apply env m).callbacks
        = m.callbacks ++ [Callback.onError workerFailedMessage] ∧
      ∀ events, (∀ e ∈ events, e.isCompute = false) →
        (applyEvents env ((ManagerEvent.error w).apply env m) events).callbacks
          = m.callbacks ++ [Callback.onError workerFailedMessage]) ∧
    (m.useFallback = false → (m.worker = none ∨ m.isBusy = true) →
      env.workerAvailable m.initCalls = false → ∀ textA textB ignoreEnter,
      (compute env textA textB ignoreEnter m).useFallback = true ∧
      (∃ c, (compute env textA textB ignoreEnter m).callbacks = m.callbacks ++ [c]) ∧
      ∀ dmp diffs cleaned, env.dmp = some dmp →
        dmp.diff_main textA textB = Except.ok diffs →
        dmp.diff_cleanupSemantic diffs = Except.ok cleaned →
        (compute env textA textB ignoreEnter m).callbacks
          = m.callbacks ++ [Callback.onSuccess cleaned none]) ∧
    (env.workerAvailable 0 = false →
      (DiffWorkerManager.new env).useFallback = true ∧
      (DiffWorkerManager.new env).callbacks = []) := by
  refine ⟨?_, ?_, ?_⟩
  · intro w hl
    have hw := worker_of_workerLive m w hwf hl
    have ho := onerror_of_worker m w hw
    have happ : (ManagerEvent.error w).apply env m = onerror m := by
      simp [ManagerEvent.apply, hl]
    rw [happ]
    refine ⟨ho.1, ho.2.2.1, fun events hev => ?_⟩
    rw [applyEvents_of_no_worker env events (onerror m) (managerWF_onerror m hwf) ho.2.1 hev]
    exact ho.2.2.1
  · intro hfb hinit ha textA textB ignoreEnter
    obtain ⟨m', hc, h1, h2, _, _, _, _⟩ :=
      compute_of_unavailable env textA textB ignoreEnter m hfb hinit ha
    have hf := computeFallback_fields env textA textB m'
    rw [hc]
    refine ⟨hf.1.trans h1, ?_, fun dmp diffs cleaned hd hmain hclean => ?_⟩
    · obtain ⟨c, hcb⟩ := hf.2.2.2.2.2.2
      exact ⟨c, by rw [hcb, h2]⟩
    · rw [computeFallback_success env textA textB m' dmp diffs cleaned hd hmain hclean, h2]
  · intro ha
    have hu := init_of_unavailable env
      { worker := none, isBusy := false, useFallback := false, workersCreated := 0,
        terminated := [], posted := [], callbacks := [], initCalls := 0 } ha
    have hi := init_fields env
      { worker := none, isBusy := false, useFallback := false, workersCreated := 0,
        terminated := [], posted := [], callbacks := [], initCalls := 0 }
    exact ⟨hu.1, hi.1⟩

/-- Witness for the amended C11: the worker of a new manager crashes. -/
theorem background_failure_witness :
    ((ManagerEvent.error 0).apply workingEnv (DiffWorkerManager.new workingEnv)).callbacks
      = (DiffWorkerManager.new workingEnv).callbacks ++
        [Callback.onError workerFailedMessage] :=
  ((background_failure workingEnv (DiffWorkerManager.new workingEnv)
    (managerWF_new workingEnv)).1 0 rfl).2.1

/-- C12 as stated fails: a failure reported by the worker as `success: false`
reaches `onError` and leaves `useFallback` false; the next `compute` still posts
its message to the worker. -/
theorem worker_failure_keeps_worker_mode :
    (applyEvents workingEnv (DiffWorkerManager.new workingEnv)
      [ManagerEvent.compute (utf16 "a") (utf16 "b") false,
       ManagerEvent.message 0 (WorkerData.failure (utf16 "Error: boom"))]).callbacks
      = [Callback.onError (utf16 "Error: boom")] ∧
    (applyEvents workingEnv (DiffWorkerManager.new workingEnv)
      [ManagerEvent.compute (utf16 "a") (utf16 "b") false,
       ManagerEvent.message 0 (WorkerData.failure (utf16 "Error: boom"))]).useFallback
      = false ∧
    (applyEvents workingEnv (DiffWorkerManager.new workingEnv)
      [ManagerEvent.compute (utf16 "a") (utf16 "b") false,
       ManagerEvent.message 0 (WorkerData.failure (utf16 "Error: boom")),
       ManagerEvent.compute (utf16 "c") (utf16 "d") false]).posted
      = [(0, { textA := utf16 "a", textB := utf16 "b", ignoreEnter := false }),
         (0, { textA := utf16 "c", textB := utf16 "d", ignoreEnter := false })] := by
  decide

/-- C12, amended: `useFallback` is set when a Worker cannot be built and when
the worker crashes, and once set it stays set for the rest of the manager's
life. Every call of `onError` is made with `useFallback` set, except the call
that passes on a failure the worker reported as `success: false`: that call
leaves `useFallback` as it was. -/
theorem onError_and_useFallback (env : Env) (m : DiffWorkerManager) :
    (∀ e : ManagerEvent, ∃ new, (e.apply env m).callbacks = m.callbacks ++ new ∧
      ∀ msg, Callback.onError msg ∈ new →
        (e.apply env m).useFallback = true ∨
        ((∃ w, e = ManagerEvent.message w (WorkerData.failure msg)) ∧
          (e.apply env m).useFallback = m.useFallback)) ∧
    (∀ w msg, workerLive m w = true →
      ((ManagerEvent.message w (WorkerData.failure msg)).apply env m).callbacks
        = m.callbacks ++ [Callback.onError msg] ∧
      ((ManagerEvent.message w (WorkerData.failure msg)).apply env m).useFallback
        = m.useFallback) ∧
    (m.useFallback = true → ∀ events, (applyEvents env m events).useFallback = true) := by
  refine ⟨?_, ?_, fun h events => (applyEvents_of_useFallback env events m h).1⟩
  · intro e
    cases e with
    | compute textA textB ignoreEnter =>
      obtain ⟨new, h1, h2⟩ := computeDepth_callbacks env textA textB ignoreEnter 2 m
      refine ⟨new, h1, fun msg hmem => Or.inl (h2 ?_)⟩
      intro hnil
      rw [hnil] at hmem
      cases hmem
    | message w data =>
      by_cases hl : workerLive m w = true
      · cases data with
        | success diff stats =>
          refine ⟨[Callback.onSuccess diff (some stats)], ?_, fun msg hmem => ?_⟩
          · simp [ManagerEvent.apply, hl, onmessage]
          · simp at hmem
        | failure error =>
          refine ⟨[Callback.onError error], ?_, fun msg hmem => ?_⟩
          · simp [ManagerEvent.apply, hl, onmessage]
          · simp only [List.mem_singleton, Callback.onError.injEq] at hmem
            subst hmem
            exact Or.inr ⟨⟨w, rfl⟩, by simp [ManagerEvent.apply, hl, onmessage]⟩
      · refine ⟨[], ?_, fun msg hmem => by cases hmem⟩
        simp [ManagerEvent.apply, hl]
    | error w =>
      by_cases hl : workerLive m w = true
      · have happ : (ManagerEvent.error w).apply env m = onerror m := by
          simp [ManagerEvent.apply, hl]
        rw [happ]
        cases hw : m.worker with
        | none =>
          refine ⟨[], ?_, fun msg hmem => by cases hmem⟩
          simp [onerror, hw]
        | some v =>
          have ho := onerror_of_worker m v hw
          exact ⟨[Callback.onError workerFailedMessage], ho.2.2.1, fun msg _ => Or.inl ho.1⟩
      · refine ⟨[], ?_, fun msg hmem => by cases hmem⟩
        simp [ManagerEvent.apply, hl]
  · intro w msg hl
    simp [ManagerEvent.apply, hl, onmessage]

/-- Witness for the amended C12: a manager in fallback stays there through a
`compute`, a worker message and a worker error. -/
theorem onError_and_useFallback_witness :
    (applyEvents noWorkerEnv (DiffWorkerManager.new noWorkerEnv)
      [ManagerEvent.compute (utf16 "a") (utf16 "b") false,
       ManagerEvent.message 0 (WorkerData.failure (utf16 "x")),
       ManagerEvent.error 0]).useFallback = true :=
  (onError_and_useFallback noWorkerEnv (DiffWorkerManager.new noWorkerEnv)).2.2 rfl _

/-- C13 as stated fails in its last part: delivery compares no generation token
or request id. After a second `compute` has superseded the first, the handler
`worker.onmessage`, if it were run with the answer to the first request, would
pass it on to `onSuccess`; the answer is kept out only because the first worker
was terminated, so that the host delivers nothing from it. -/
theorem delivery_compares_no_token :
    workerLive (applyEvents workingEnv (DiffWorkerManager.new workingEnv)
      [ManagerEvent.compute (utf16 "a") (utf16 "b") false,
       ManagerEvent.compute (utf16 "c") (utf16 "d") false]) 0 = false ∧
    (onmessage
      (WorkerData.success [⟨DiffType.delete, utf16 "a"⟩, ⟨DiffType.insert, utf16 "b"⟩]
        { added := 1, removed := 1, lines := 2, totalChanges := 2 })
      (applyEvents workingEnv (DiffWorkerManager.new workingEnv)
        [ManagerEvent.compute (utf16 "a") (utf16 "b") false,
         ManagerEvent.compute (utf16 "c") (utf16 "d") false])).callbacks
      = [Callback.onSuccess [⟨DiffType.delete, utf16 "a"⟩, ⟨DiffType.insert, utf16 "b"⟩]
          (some { added := 1, removed := 1, lines := 2, totalChanges := 2 })] := by
  decide

/-- C13, amended: if `compute` is called for a request R2 while R1 is in flight
on worker `w1`, the call terminates `w1`, so that from then on no message or
error of `w1` is delivered and no result for R1 reaches `onSuccess` or
`onError`. When a new Worker can be built, R2 is the only message posted to it,
it is the only live worker, and each answer it sends makes exactly one callback;
when none can be built, R2 is answered before `compute` returns by exactly one
callback of the fallback branch. The guarantee rests on `worker.terminate()`;
no generation token or request id is compared. -/
theorem supersession_by_termination (env : Env) (m : DiffWorkerManager) (w1 : Nat)
    (textA textB : JSString) (ignoreEnter : Bool)
    (hwf : managerWF m) (hfb : m.useFallback = false) (hbusy : m.isBusy = true)
    (hw : m.worker = some w1) :
    (∀ events,
      workerLive (applyEvents env (compute env textA textB ignoreEnter m) events) w1
        = false) ∧
    (∀ events data,
      (ManagerEvent.message w1 data).apply env
          (applyEvents env (compute env textA textB ignoreEnter m) events)
        = applyEvents env (compute env textA textB ignoreEnter m) events) ∧
    (env.workerAvailable m.initCalls = true →
      (compute env textA textB ignoreEnter m).worker = some m.workersCreated ∧
      workerLive (compute env textA textB ignoreEnter m) m.workersCreated = true ∧
      (∀ w, workerLive (compute env textA textB ignoreEnter m) w = true →
        w = m.workersCreated) ∧
      (compute env textA textB ignoreEnter m).posted = m.posted ++
        [(m.workersCreated,
          { textA := textA, textB := textB, ignoreEnter := ignoreEnter })] ∧
      (∀ p ∈ m.posted, p.1 ≠ m.workersCreated) ∧
      (compute env textA textB ignoreEnter m).callbacks = m.callbacks ∧
      ∀ data, ∃ c,
        ((ManagerEvent.message m.workersCreated data).apply env
          (compute env textA textB ignoreEnter m)).callbacks = m.callbacks ++ [c]) ∧
    (env.workerAvailable m.initCalls = false →
      (compute env textA textB ignoreEnter m).useFallback = true ∧
      (compute env textA textB ignoreEnter m).posted = m.posted ∧
      ∃ c, (compute env textA textB ignoreEnter m).callbacks = m.callbacks ++ [c]) := by
  have hwf' : managerWF (compute env textA textB ignoreEnter m) :=
    managerWF_computeDepth env textA textB ignoreEnter 2 m hwf
  have hterm : w1 ∈ (compute env textA textB ignoreEnter m).terminated := by
    cases ha : env.workerAvailable m.initCalls with
    | true =>
      rw [(compute_of_busy_available env textA textB ignoreEnter m w1 hfb hbusy hw
        ha).2.2.2.2.2]
      simp
    | false =>
      obtain ⟨m', hc, _, _, _, _, _, ht⟩ :=
        compute_of_unavailable env textA textB ignoreEnter m hfb (Or.inr hbusy) ha
      rw [hc, computeFallback_terminated]
      exact ht w1 hw
  have hdead : ∀ events,
      workerLive (applyEvents env (compute env textA textB ignoreEnter m) events) w1
        = false :=
    fun events => not_workerLive_of_terminated _ w1
      (applyEvents_terminated env w1 events _ hterm)
  refine ⟨hdead, ?_, ?_, ?_⟩
  · intro events data
    simp [ManagerEvent.apply, hdead events]
  · intro ha
    obtain ⟨c1, c2, c3, c4, c5, c6⟩ :=
      compute_of_busy_available env textA textB ignoreEnter m w1 hfb hbusy hw ha
    have hlive : workerLive (compute env textA textB ignoreEnter m) m.workersCreated
        = true := by
      unfold workerLive
      rw [c2, c6]
      have hn : m.workersCreated ∉ m.terminated ++ [w1, w1] := by
        intro hmem
        simp only [List.mem_append, List.mem_cons, List.mem_singleton, List.not_mem_nil,
          or_false, or_self] at hmem
        rcases hmem with h | h
        · exact absurd (hwf.2.2.2 _ h) (Nat.lt_irrefl _)
        · have := hwf.1 w1 hw
          omega
      simp [hn]
    refine ⟨c1, hlive, ?_, c3, ?_, c4, ?_⟩
    · intro w hl
      have := worker_of_workerLive _ w hwf' hl
      rw [c1] at this
      exact (Option.some.inj this).symm
    · intro p hp
      exact Nat.ne_of_lt (hwf.2.2.1 p hp)
    · intro data
      cases data with
      | success diff stats =>
        exact ⟨Callback.onSuccess diff (some stats),
          by simp [ManagerEvent.apply, hlive, onmessage, c4]⟩
      | failure error =>
        exact ⟨Callback.onError error, by simp [ManagerEvent.apply, hlive, onmessage, c4]⟩
  · intro ha
    obtain ⟨m', hc, h1, h2, h3, _, _, _⟩ :=
      compute_of_unavailable env textA textB ignoreEnter m hfb (Or.inr hbusy) ha
    have hf := computeFallback_fields env textA textB m'
    rw [hc]
    refine ⟨hf.1.trans h1, hf.2.2.2.1.trans h3, ?_⟩
    obtain ⟨c, hcb⟩ := hf.2.2.2.2.2.2
    exact ⟨c, by rw [hcb, h2]⟩

/-- Witness for the amended C13: a second `compute` while the first request is
in flight. -/
theorem supersession_by_termination_witness :
    workerLive
      (applyEvents workingEnv
        (compute workingEnv (utf16 "c") (utf16 "d") false
          (compute workingEnv (utf16 "a") (utf16 "b") false
            (DiffWorkerManager.new workingEnv)))
        [ManagerEvent.message 1 (WorkerData.failure (utf16 "x"))]) 0 = false :=
  (supersession_by_termination workingEnv
    (compute workingEnv (utf16 "a") (utf16 "b") false (DiffWorkerManager.new workingEnv))
    0 (utf16 "c") (utf16 "d") false
    (managerWF_computeDepth workingEnv (utf16 "a") (utf16 "b") false 2 _
      (managerWF_new workingEnv))
    rfl rfl rfl).1 _

/-! ## The last element child of the output -/

theorem lastElementChild_append (a b : List Node) :
    lastElementChild (a ++ b) =
      match lastElementChild b with
      | some n => some n
      | none => lastElementChild a := by
  unfold lastElementChild
  rw [List.reverse_append, List.find?_append]
  cases List.find? Node.isElement b.reverse <;> rfl

theorem lastEl_eq_flat (c : Chunk) : c.lastEl = lastElementChild c.flat := by
  unfold Chunk.lastEl Chunk.flat
  rw [lastElementChild_append]

theorem mapFirstElement_append_of_element (f : Node → Node) :
    ∀ (x y : List Node) (n : Node), List.find? Node.isElement x = some n →
    mapFirstElement f (x ++ y) = mapFirstElement f x ++ y := by
  intro x
  induction x with
  | nil => intro y n h; cases h
  | cons a x ih =>
    intro y n h
    by_cases ha : a.isElement = true
    · simp [mapFirstElement, ha]
    · simp only [List.find?, ha] at h
      simp only [List.cons_append, mapFirstElement, ha, Bool.false_eq_true, if_false,
        List.cons.injEq, true_and]
      exact ih y n h

theorem mapFirstElement_append_of_no_element (f : Node → Node) :
    ∀ (x y : List Node), List.find? Node.isElement x = none →
    mapFirstElement f (x ++ y) = x ++ mapFirstElement f y := by
  intro x
  induction x with
  | nil => intro y _; rfl
  | cons a x ih =>
    intro y h
    by_cases ha : a.isElement = true
    · simp [List.find?, ha] at h
    · simp only [List.find?, ha] at h
      simp only [List.cons_append, mapFirstElement, ha, Bool.false_eq_true, if_false,
        List.cons.injEq, true_and]
      exact ih y h

theorem setLastElText_flat (c : Chunk) (t : JSString) :
    (c.setLastElText t).flat = setLastElementText c.flat t := by
  unfold Chunk.setLastElText Chunk.flat setLastElementText
  cases h : lastElementChild c.chunkFragment with
  | some n =>
    simp only
    rw [List.reverse_append, mapFirstElement_append_of_element _ _ _ n h,
      List.reverse_append, List.reverse_reverse]
  | none =>
    simp only
    rw [List.reverse_append, mapFirstElement_append_of_no_element _ _ _ h,
      List.reverse_append, List.reverse_reverse]

theorem append_flat (c : Chunk) (n : Node) : (c.append n).flat = c.flat ++ [n] := by
  simp [Chunk.append, Chunk.flat]

/-! ## Walks that differ only in where the output is cut -/

theorem same_refl (c : Chunk) : c.same c := ⟨rfl, rfl, rfl⟩

theorem same_trans {a b c : Chunk} (h1 : a.same b) (h2 : b.same c) : a.same c :=
  ⟨h1.1.trans h2.1, h1.2.1.trans h2.2.1, h1.2.2.trans h2.2.2⟩

theorem same_symm {a b : Chunk} (h : a.same b) : b.same a :=
  ⟨h.1.symm, h.2.1.symm, h.2.2.symm⟩

theorem same_append (c c' : Chunk) (n : Node) (h : c.same c') :
    (c.append n).same (c'.append n) := by
  refine ⟨?_, h.2.1, h.2.2⟩
  rw [append_flat, append_flat, h.1]

theorem same_countVisible (c c' : Chunk) (h : c.same c') :
    c.countVisible.same c'.countVisible :=
  ⟨h.1, h.2.1, congrArg (· + 1) h.2.2⟩

theorem same_setDirty (c c' : Chunk) (b : Bool) (h : c.same c') :
    Chunk.same { c with isLineDirty := b } { c' with isLineDirty := b } :=
  ⟨h.1, rfl, h.2.2⟩

theorem same_setLastElText (c c' : Chunk) (t : JSString) (h : c.same c') :
    (c.setLastElText t).same (c'.setLastElText t) := by
  refine ⟨?_, ?_, ?_⟩
  · rw [setLastElText_flat, setLastElText_flat, h.1]
  · rw [setLastElText_isLineDirty, setLastElText_isLineDirty]; exact h.2.1
  · rw [setLastElText_visibleItemCount, setLastElText_visibleItemCount]; exact h.2.2

theorem insertSeparatorIfNeeded_eq (ui : Flags) (i : Nat) (text : JSString) (c : Chunk) :
    insertSeparatorIfNeeded ui i text c =
      match c.lastEl with
      | some (Node.separator textContent) =>
        match matchHidden textContent with
        | some m =>
          if parseInt m + hiddenLineCount ui text ≠ parseInt m
          then c.setLastElText (hiddenLabel (parseInt m + hiddenLineCount ui text)) else c
        | none => c
      | _ =>
        if hiddenLineCount ui text > 0
        then c.append (Node.separator (hiddenLabel (hiddenLineCount ui text)))
        else if decide (i > 0) && !ui.viewOnlyDiff then c.append Node.br
        else c := rfl

theorem same_newSeparator (ui : Flags) (i k : Nat) (c c' : Chunk) (h : c.same c') :
    Chunk.same
      (if k > 0 then c.append (Node.separator (hiddenLabel k))
        else if decide (i > 0) && !ui.viewOnlyDiff then c.append Node.br else c)
      (if k > 0 then c'.append (Node.separator (hiddenLabel k))
        else if decide (i > 0) && !ui.viewOnlyDiff then c'.append Node.br else c') := by
  by_cases hk : k > 0
  · rw [if_pos hk, if_pos hk]
    exact same_append _ _ _ h
  · rw [if_neg hk, if_neg hk]
    by_cases hb : (decide (i > 0) && !ui.viewOnlyDiff) = true
    · rw [if_pos hb, if_pos hb]
      exact same_append _ _ _ h
    · rw [if_neg hb, if_neg hb]
      exact h

theorem same_insertSeparatorIfNeeded (ui : Flags) (i : Nat) (text : JSString)
    (c c' : Chunk) (h : c.same c') :
    (insertSeparatorIfNeeded ui i text c).same (insertSeparatorIfNeeded ui i text c') := by
  have hl : c'.lastEl = c.lastEl := by rw [lastEl_eq_flat, lastEl_eq_flat, h.1]
  rw [insertSeparatorIfNeeded_eq, insertSeparatorIfNeeded_eq, hl]
  generalize hiddenLineCount ui text = k
  cases c.lastEl with
  | none => exact same_newSeparator ui i k c c' h
  | some n =>
    cases n with
    | separator textContent =>
      simp only
      cases matchHidden textContent with
      | none => exact h
      | some m =>
        simp only
        by_cases hk : parseInt m + k ≠ parseInt m
        · rw [if_pos hk, if_pos hk]
          exact same_setLastElText _ _ _ h
        · rw [if_neg hk, if_neg hk]
          exact h
    | text data => exact same_newSeparator ui i k c c' h
    | br => exact same_newSeparator ui i k c c' h
    | span className textContent => exact same_newSeparator ui i k c c' h

/-! ## The split of a context text at its last newline -/

theorem lastIndexOfNewline_none : ∀ (text : JSString), lastIndexOfNewline text = none →
    10 ∉ text := by
  intro text
  induction text with
  | nil => intro _ h; cases h
  | cons c cs ih =>
    intro h hmem
    unfold lastIndexOfNewline at h
    cases hcs : lastIndexOfNewline cs with
    | some k => rw [hcs] at h; cases h
    | none =>
      rw [hcs] at h
      by_cases hc : c = 10
      · simp [hc] at h
      · rcases List.mem_cons.mp hmem with h1 | h1
        · exact hc h1.symm
        · exact ih hcs h1

theorem lastIndexOfNewline_some : ∀ (text : JSString) (k : Nat),
    lastIndexOfNewline text = some k →
    ∃ a b, text = a ++ 10 :: b ∧ a.length = k ∧ 10 ∉ b := by
  intro text
  induction text with
  | nil => intro k h; cases h
  | cons c cs ih =>
    intro k h
    unfold lastIndexOfNewline at h
    cases hcs : lastIndexOfNewline cs with
    | some j =>
      rw [hcs] at h
      obtain ⟨a, b, h1, h2, h3⟩ := ih j hcs
      refine ⟨c :: a, b, by rw [h1]; rfl, ?_, h3⟩
      simp only [Option.some.injEq] at h
      simp [h2, h]
    | none =>
      rw [hcs] at h
      by_cases hc : c = 10
      · simp only [hc, if_true, Option.some.injEq] at h
        exact ⟨[], cs, by rw [hc]; rfl, by simp [h], lastIndexOfNewline_none cs hcs⟩
      · simp [hc] at h

theorem tail_of_split (a b : JSString) (hb : 10 ∉ b) :
    tailAfterLastNewline (a ++ 10 :: b) = b ∧
    headThroughLastNewline (a ++ 10 :: b) = a ++ [10] := by
  have hp : ∀ x ∈ b.reverse, (fun c => c != 10) x = true := by
    intro x hx
    have hx' : x ∈ b := List.mem_reverse.mp hx
    have : x ≠ 10 := fun h => hb (h ▸ hx')
    simpa using this
  have hrev : (a ++ 10 :: b).reverse = b.reverse ++ 10 :: a.reverse := by
    simp
  unfold tailAfterLastNewline headThroughLastNewline
  rw [hrev, List.takeWhile_append_of_pos hp, List.dropWhile_append_of_pos hp]
  simp

theorem tail_of_no_newline (text : JSString) (h : 10 ∉ text) :
    tailAfterLastNewline text = text ∧ headThroughLastNewline text = [] := by
  have hp : ∀ x ∈ text.reverse, (fun c => c != 10) x = true := by
    intro x hx
    have hx' : x ∈ text := List.mem_reverse.mp hx
    have : x ≠ 10 := fun h' => h (h' ▸ hx')
    simpa using this
  unfold tailAfterLastNewline headThroughLastNewline
  have h1 : (text.reverse ++ []).takeWhile (fun c => c != 10)
      = text.reverse ++ ([] : JSString).takeWhile (fun c => c != 10) :=
    List.takeWhile_append_of_pos hp
  have h2 : (text.reverse ++ []).dropWhile (fun c => c != 10)
      = ([] : JSString).dropWhile (fun c => c != 10) :=
    List.dropWhile_append_of_pos hp
  simp only [List.append_nil, List.takeWhile_nil, List.dropWhile_nil] at h1 h2
  rw [h1, h2]
  simp

theorem head_append_tail (text : JSString) :
    headThroughLastNewline text ++ tailAfterLastNewline text = text := by
  unfold tailAfterLastNewline headThroughLastNewline
  rw [← List.reverse_append, List.takeWhile_append_dropWhile, List.reverse_reverse]

/-- Steps 2 to 5 of `processViewOnlyContext` in terms of the head and the tail
of the text. -/
theorem processRemainingText_eq (ui : Flags) (diffs : List DiffOp) (i : Nat)
    (text : JSString) (c : Chunk) (hne : text ≠ []) :
    processRemainingText ui diffs i text c =
      if (!(tailAfterLastNewline text).isEmpty && nextStartsChangedLine diffs i) = true then
        ((if (headThroughLastNewline text).isEmpty then c
          else insertSeparatorIfNeeded ui i (headThroughLastNewline text) c).append
            (Node.text (tailAfterLastNewline text))).countVisible
      else insertSeparatorIfNeeded ui i text c := by
  have hnext : ((match diffs.get? (i + 1) with
      | some nextToken => decide (nextToken.type ≠ DiffType.equal)
      | none => false) &&
      !(match diffs.get? (i + 1) with
      | some nextToken => startsWithNewline nextToken.text
      | none => false)) = nextStartsChangedLine diffs i := by
    unfold nextStartsChangedLine
    cases diffs.get? (i + 1) <;> rfl
  have hsplit : (match lastIndexOfNewline text with
      | some k => text.take (k + 1)
      | none => []) = headThroughLastNewline text ∧
      (match lastIndexOfNewline text with
      | some k => text.drop (k + 1)
      | none => text) = tailAfterLastNewline text := by
    cases hk : lastIndexOfNewline text with
    | none =>
      have := tail_of_no_newline text (lastIndexOfNewline_none text hk)
      exact ⟨this.2.symm, this.1.symm⟩
    | some k =>
      obtain ⟨a, b, h1, h2, h3⟩ := lastIndexOfNewline_some text k hk
      have := tail_of_split a b h3
      rw [h1, this.1, this.2]
      subst h2
      constructor
      · simp [List.take_append_eq_append_take]
      · simp [List.drop_append_eq_append_drop]
  have hempty : text.isEmpty = false := by
    cases text with
    | nil => exact absurd rfl hne
    | cons a as => rfl
  unfold processRemainingText
  simp only [hempty, Bool.false_eq_true, if_false, hnext, hsplit.1, hsplit.2]
  cases ht : (tailAfterLastNewline text).isEmpty <;>
    cases hb : nextStartsChangedLine diffs i <;>
    simp [ht, head_append_tail, hempty]

theorem same_processRemainingText (ui : Flags) (diffs : List DiffOp) (i : Nat)
    (text : JSString) (c c' : Chunk) (h : c.same c') :
    (processRemainingText ui diffs i text c).same
      (processRemainingText ui diffs i text c') := by
  by_cases hne : text = []
  · subst hne
    simpa [processRemainingText] using h
  · rw [processRemainingText_eq ui diffs i text c hne,
      processRemainingText_eq ui diffs i text c' hne]
    by_cases hp : (!(tailAfterLastNewline text).isEmpty && nextStartsChangedLine diffs i)
        = true
    · rw [if_pos hp, if_pos hp]
      apply same_countVisible
      apply same_append
      by_cases hh : (headThroughLastNewline text).isEmpty = true
      · rw [if_pos hh, if_pos hh]
        exact h
      · rw [if_neg hh, if_neg hh]
        exact same_insertSeparatorIfNeeded ui i _ c c' h
    · rw [if_neg hp, if_neg hp]
      exact same_insertSeparatorIfNeeded ui i _ c c' h

theorem same_processViewOnlyContext (ui : Flags) (diffs : List DiffOp) (i : Nat)
    (text : JSString) (c c' : Chunk) (h : c.same c') :
    (processViewOnlyContext ui diffs i text c).same
      (processViewOnlyContext ui diffs i text c') := by
  unfold processViewOnlyContext
  rw [← h.2.1]
  by_cases hd : c.isLineDirty = true
  · rw [if_pos hd, if_pos hd]
    cases indexOfNewline text with
    | none => exact same_countVisible _ _ (same_append _ _ _ h)
    | some k =>
      simp only
      apply same_processRemainingText
      apply same_append
      apply same_setDirty
      by_cases hs : (List.take k text).isEmpty = true
      · rw [if_pos hs, if_pos hs]
        exact h
      · rw [if_neg hs, if_neg hs]
        exact same_countVisible _ _ (same_append _ _ _ h)
  · rw [if_neg hd, if_neg hd]
    exact same_processRemainingText ui diffs i text c c' h

theorem renderPart_eq (ui : Flags) (type : DiffType) (c : Chunk) (part : JSString)
    (hne : part.isEmpty = false) :
    renderPart ui type c part =
      if shouldIgnoreChange part ui.ignoreEnter = true
      then c.append (Node.span (partClass ui type part) part)
      else (c.append (Node.span (partClass ui type part) part)).countVisible := by
  cases hs : shouldIgnoreChange part ui.ignoreEnter <;>
    simp [renderPart, partClass, hne, hs]

theorem same_renderPart (ui : Flags) (type : DiffType) (part : JSString) (c c' : Chunk)
    (h : c.same c') : (renderPart ui type c part).same (renderPart ui type c' part) := by
  cases hp : part.isEmpty with
  | true =>
    unfold renderPart
    rw [if_pos hp, if_pos hp]
    exact h
  | false =>
    rw [renderPart_eq ui type c part hp, renderPart_eq ui type c' part hp]
    by_cases hi : shouldIgnoreChange part ui.ignoreEnter = true
    · rw [if_pos hi, if_pos hi]
      exact same_append _ _ _ h
    · rw [if_neg hi, if_neg hi]
      exact same_countVisible _ _ (same_append _ _ _ h)

theorem same_foldl_renderPart (ui : Flags) (type : DiffType) (parts : List JSString) :
    ∀ (c c' : Chunk), c.same c' →
    (parts.foldl (renderPart ui type) c).same (parts.foldl (renderPart ui type) c') := by
  induction parts with
  | nil => intro c c' h; exact h
  | cons part rest ih =>
    intro c c' h
    exact ih _ _ (same_renderPart ui type part c c' h)

theorem same_renderPlain (type : DiffType) (text : JSString) (c c' : Chunk)
    (h : c.same c') : (renderPlain type text c).same (renderPlain type text c') := by
  cases type <;> exact same_countVisible _ _ (same_append _ _ _ h)

theorem renderOp_eq (ui : Flags) (diffs : List DiffOp) (i : Nat) (c : Chunk) (op : DiffOp)
    (hop : diffs.get? i = some op) :
    renderOp ui diffs i c =
      if (decide (op.type = DiffType.equal) && ui.viewOnlyDiff) = true then
        processViewOnlyContext ui diffs i op.text c
      else if op.type ≠ DiffType.equal then
        if shouldIgnoreChange op.text ui.ignoreEnter = true then
          if ui.viewOnlyDiff = true then
            if (!endsWithNewline op.text) = true then
              { insertSeparatorIfNeeded ui i op.text
                  { c with isLineDirty := !endsWithNewline op.text } with
                isLineDirty := true }
            else insertSeparatorIfNeeded ui i op.text
              { c with isLineDirty := !endsWithNewline op.text }
          else renderPlain DiffType.equal op.text
            { c with isLineDirty := !endsWithNewline op.text }
        else if containsLineBreak op.text = true then
          { (splitBreaks op.text).foldl (renderPart ui op.type)
              { c with isLineDirty := !endsWithNewline op.text } with
            isLineDirty := !endsWithNewline op.text }
        else renderPlain op.type op.text { c with isLineDirty := !endsWithNewline op.text }
      else renderPlain DiffType.equal op.text c := by
  unfold renderOp
  rw [hop]

theorem same_renderOp (ui : Flags) (diffs : List DiffOp) (i : Nat) (c c' : Chunk)
    (h : c.same c') : (renderOp ui diffs i c).same (renderOp ui diffs i c') := by
  cases hop : diffs.get? i with
  | none =>
    unfold renderOp
    rw [hop]
    exact h
  | some op =>
    rw [renderOp_eq ui diffs i c op hop, renderOp_eq ui diffs i c' op hop]
    by_cases h1 : (decide (op.type = DiffType.equal) && ui.viewOnlyDiff) = true
    · rw [if_pos h1, if_pos h1]
      exact same_processViewOnlyContext ui diffs i op.text c c' h
    · rw [if_neg h1, if_neg h1]
      by_cases h2 : op.type ≠ DiffType.equal
      · rw [if_pos h2, if_pos h2]
        have hc1 := same_setDirty c c' (!endsWithNewline op.text) h
        by_cases h3 : shouldIgnoreChange op.text ui.ignoreEnter = true
        · rw [if_pos h3, if_pos h3]
          by_cases h4 : ui.viewOnlyDiff = true
          · rw [if_pos h4, if_pos h4]
            by_cases h5 : (!endsWithNewline op.text) = true
            · rw [if_pos h5, if_pos h5]
              exact same_setDirty _ _ true (same_insertSeparatorIfNeeded ui i _ _ _ hc1)
            · rw [if_neg h5, if_neg h5]
              exact same_insertSeparatorIfNeeded ui i _ _ _ hc1
          · rw [if_neg h4, if_neg h4]
            exact same_renderPlain _ _ _ _ hc1
        · rw [if_neg h3, if_neg h3]
          by_cases h6 : containsLineBreak op.text = true
          · rw [if_pos h6, if_pos h6]
            exact same_setDirty _ _ _ (same_foldl_renderPart ui op.type _ _ _ hc1)
          · rw [if_neg h6, if_neg h6]
            exact same_renderPlain _ _ _ _ hc1
      · rw [if_neg h2, if_neg h2]
        exact same_renderPlain _ _ _ _ h

theorem same_renderOps (ui : Flags) (diffs : List DiffOp) (count : Nat) :
    ∀ (i : Nat) (c c' : Chunk), c.same c' →
    (renderOps ui diffs i count c).same (renderOps ui diffs i count c') := by
  induction count with
  | zero => intro i c c' h; exact h
  | succ count ih =>
    intro i c c' h
    exact ih (i + 1) _ _ (same_renderOp ui diffs i c c' h)

theorem renderOps_add (ui : Flags) (diffs : List DiffOp) (n : Nat) :
    ∀ (m i : Nat) (c : Chunk),
    renderOps ui diffs i (n + m) c = renderOps ui diffs (i + n) m (renderOps ui diffs i n c) := by
  induction n with
  | zero => intro m i c; simp [renderOps]
  | succ n ih =>
    intro m i c
    have h1 : n + 1 + m = (n + m) + 1 := by omega
    rw [h1]
    show renderOps ui diffs (i + 1) (n + m) (renderOp ui diffs i c) = _
    rw [ih m (i + 1) (renderOp ui diffs i c)]
    have h2 : i + 1 + n = i + (n + 1) := by omega
    rw [h2]
    rfl

/-! ## Chunked and single-step rendering -/

theorem finalCheck_congr (ui : Flags) (c c' : Chunk) (h : c.same c') :
    finalCheck ui c.visibleItemCount c.flat = finalCheck ui c'.visibleItemCount c'.flat := by
  rw [h.1, h.2.2]

/-- A finished job shows what one walk over the rest of the diffs gives. -/
theorem drive_done_eq_walk (ui : Flags) (fuel : Nat) : ∀ (job : Job) (out o : List Node),
    drive ui fuel job out = Outcome.done o → job.index ≤ job.diffs.length →
    o = finalCheck ui
      (renderOps ui job.diffs job.index (job.diffs.length - job.index)
        { diffOutput := out, chunkFragment := [], isLineDirty := job.isLineDirty,
          visibleItemCount := job.visibleItemCount }).visibleItemCount
      (renderOps ui job.diffs job.index (job.diffs.length - job.index)
        { diffOutput := out, chunkFragment := [], isLineDirty := job.isLineDirty,
          visibleItemCount := job.visibleItemCount }).flat := by
  have hstep : ∀ (job : Job) (out : List Node), job.index ≤ job.diffs.length →
      (renderOps ui job.diffs (min (job.index + CHUNK_SIZE) job.diffs.length)
        (job.diffs.length - min (job.index + CHUNK_SIZE) job.diffs.length)
        { diffOutput := (chunkWalk ui job out).flat, chunkFragment := [],
          isLineDirty := (chunkWalk ui job out).isLineDirty,
          visibleItemCount := (chunkWalk ui job out).visibleItemCount }).same
      (renderOps ui job.diffs job.index (job.diffs.length - job.index)
        { diffOutput := out, chunkFragment := [], isLineDirty := job.isLineDirty,
          visibleItemCount := job.visibleItemCount }) := by
    intro job out hle
    have hsplit : job.diffs.length - job.index
        = (min (job.index + CHUNK_SIZE) job.diffs.length - job.index)
          + (job.diffs.length - min (job.index + CHUNK_SIZE) job.diffs.length) := by
      omega
    have hidx : job.index + (min (job.index + CHUNK_SIZE) job.diffs.length - job.index)
        = min (job.index + CHUNK_SIZE) job.diffs.length := by
      omega
    rw [hsplit, renderOps_add, hidx]
    apply same_renderOps
    exact ⟨by simp [Chunk.flat, chunkWalk], rfl, rfl⟩
  induction fuel with
  | zero =>
    intro job out o hd hle
    rw [drive_eq] at hd
    by_cases hl : limitReached job = true
    · simp [hl] at hd
    · by_cases hm : (job.afterChunk (chunkWalk ui job out)).index < job.diffs.length
      · simp [hl, hm] at hd
      · simp only [hl, hm, if_false, Outcome.done.injEq, Bool.false_eq_true] at hd
        rw [← hd]
        have hend : min (job.index + CHUNK_SIZE) job.diffs.length = job.diffs.length := by
          rw [afterChunk_index] at hm
          omega
        have hw : chunkWalk ui job out
            = renderOps ui job.diffs job.index (job.diffs.length - job.index)
              { diffOutput := out, chunkFragment := [], isLineDirty := job.isLineDirty,
                visibleItemCount := job.visibleItemCount } := by
          unfold chunkWalk
          rw [hend]
        rw [← hw]
        rfl
  | succ fuel ih =>
    intro job out o hd hle
    rw [drive_eq] at hd
    by_cases hl : limitReached job = true
    · simp [hl] at hd
    · by_cases hm : (job.afterChunk (chunkWalk ui job out)).index < job.diffs.length
      · simp only [hl, hm, if_true, if_false, Bool.false_eq_true] at hd
        have h1 := ih _ _ o hd (Nat.le_of_lt hm)
        rw [h1]
        exact finalCheck_congr ui _ _ (hstep job out hle)
      · simp only [hl, hm, if_false, Outcome.done.injEq, Bool.false_eq_true] at hd
        rw [← hd]
        have hend : min (job.index + CHUNK_SIZE) job.diffs.length = job.diffs.length := by
          rw [afterChunk_index] at hm
          omega
        have hw : chunkWalk ui job out
            = renderOps ui job.diffs job.index (job.diffs.length - job.index)
              { diffOutput := out, chunkFragment := [], isLineDirty := job.isLineDirty,
                visibleItemCount := job.visibleItemCount } := by
          unfold chunkWalk
          rw [hend]
        rw [← hw]
        rfl

theorem drive_start_done (ui : Flags) (fuel : Nat) (limit : Option Nat)
    (diffs : List DiffOp) (o : List Node)
    (h : drive ui fuel (Job.start limit diffs) [] = Outcome.done o) :
    o = renderInOneStep ui diffs :=
  drive_done_eq_walk ui fuel (Job.start limit diffs) [] o h (Nat.zero_le _)

/-- The output of a completed render, through `resume` when the sequence is
longer than the safety limit, is that of one single step over the sequence. -/
theorem render_completed (diffs : List DiffOp) (r : DiffRenderer) (fuel : Nat)
    (hwf : wellFormed r = true) (hatt : r.ui.attached = true)
    (hfuel : diffs.length ≤ fuel) :
    (run fuel (resume (run fuel (render diffs r)))).ui.diffOutput
        = renderInOneStep r.ui.toFlags diffs ∧
    (diffs.length ≤ SAFE_RENDER_LIMIT →
      (run fuel (render diffs r)).ui.diffOutput = renderInOneStep r.ui.toFlags diffs) := by
  obtain ⟨h1, h2, _, h4⟩ :=
    run_renderWithLimit (some SAFE_RENDER_LIMIT) diffs r fuel hwf hatt
  rw [← render_eq] at h1 h2 h4
  have hshort : diffs.length ≤ SAFE_RENDER_LIMIT →
      (run fuel (render diffs r)).ui.diffOutput = renderInOneStep r.ui.toFlags diffs ∧
      (run fuel (render diffs r)).scheduled = [] ∧
      (run fuel (render diffs r)).currentResume = none := by
    intro hN
    obtain ⟨o, ho⟩ := drive_done r.ui.toFlags fuel (Job.start (some SAFE_RENDER_LIMIT) diffs) []
      (start_fits diffs hN) (by simpa [Job.start] using hfuel)
    have hdone := drive_start_done r.ui.toFlags fuel _ diffs o ho
    rw [ho] at h1 h2 h4
    subst hdone
    exact ⟨h1, by simpa [Outcome.scheduledJobs] using h2, h4⟩
  refine ⟨?_, fun hN => (hshort hN).1⟩
  by_cases hN : diffs.length ≤ SAFE_RENDER_LIMIT
  · obtain ⟨a1, a2, a3⟩ := hshort hN
    have hres : resume (run fuel (render diffs r)) = run fuel (render diffs r) := by
      simp [resume, a3]
    rw [hres, run_of_scheduled_nil fuel _ a2]
    exact a1
  · have hN' : SAFE_RENDER_LIMIT < diffs.length := by omega
    obtain ⟨j, o, hj, _, hjd, hcont⟩ :=
      (drive_paused r.ui.toFlags SAFE_RENDER_LIMIT 10 fuel
        (Job.start (some SAFE_RENDER_LIMIT) diffs) [] rfl hN' rfl).1
        (by unfold SAFE_RENDER_LIMIT at hN'; omega)
    rw [hj] at h1 h2 h4
    have hs1 : (run fuel (render diffs r)).scheduled = [] := by
      simpa [Outcome.scheduledJobs] using h2
    have hf1 : (run fuel (render diffs r)).ui.toFlags = r.ui.toFlags :=
      (run_ui fuel _).1.trans (renderWithLimit_ui _ diffs r).1
    have ha1 : (run fuel (render diffs r)).ui.attached = true :=
      ((run_ui fuel _).2.trans (renderWithLimit_ui _ diffs r).2).trans hatt
    obtain ⟨b1, _, _, _⟩ := run_resume (run fuel (render diffs r)) j fuel h4 ha1 hs1
    rw [hf1, h1] at b1
    simp only [Outcome.out] at b1
    rw [hcont fuel] at b1
    obtain ⟨o', ho'⟩ := drive_done r.ui.toFlags (fuel + 10)
      { Job.start (some SAFE_RENDER_LIMIT) diffs with renderLimit := none } []
      (noLimit_fits _ rfl) (by simp only [Job.start]; omega)
    have hdone := drive_start_done r.ui.toFlags (fuel + 10) none diffs o' ho'
    rw [ho'] at b1
    rw [b1]
    exact hdone

theorem renderInChunks_eq (ui : Flags) (diffs : List DiffOp) (size : Nat) (hsize : 0 < size)
    (fuel : Nat) : ∀ (index : Nat) (out : List Node) (isLineDirty : Bool)
    (visibleItemCount : Nat), index ≤ diffs.length → diffs.length < index + fuel →
    renderInChunks ui diffs size fuel index out isLineDirty visibleItemCount =
      finalCheck ui
        (renderOps ui diffs index (diffs.length - index)
          { diffOutput := out, chunkFragment := [], isLineDirty := isLineDirty,
            visibleItemCount := visibleItemCount }).visibleItemCount
        (renderOps ui diffs index (diffs.length - index)
          { diffOutput := out, chunkFragment := [], isLineDirty := isLineDirty,
            visibleItemCount := visibleItemCount }).flat := by
  induction fuel with
  | zero => intro index out d v hle hf; omega
  | succ fuel ih =>
    intro index out d v hle hf
    unfold renderInChunks
    simp only
    by_cases hm : min (index + size) diffs.length < diffs.length
    · rw [if_pos hm]
      rw [ih _ _ _ _ (Nat.le_of_lt hm) (by omega)]
      apply finalCheck_congr
      have hsplit : diffs.length - index
          = (min (index + size) diffs.length - index)
            + (diffs.length - min (index + size) diffs.length) := by
        omega
      have hidx : index + (min (index + size) diffs.length - index)
          = min (index + size) diffs.length := by
        omega
      rw [hsplit, renderOps_add, hidx]
      apply same_renderOps
      exact ⟨by simp [Chunk.flat], rfl, rfl⟩
    · rw [if_neg hm]
      have hend : min (index + size) diffs.length = diffs.length := by omega
      rw [hend]

/-- C19: chunking is unobservable. For every sequence, every mode setting and
every renderer state with the output attached, once the host has run the
callbacks of the job (through `resume` when the sequence is longer than the
safety limit) the sink holds what one single step over the whole sequence
produces; a sequence within the limit gets there without `resume`; and the loop
of `renderChunk` run with any positive chunk size gives that same output. -/
theorem chunking_unobservable (diffs : List DiffOp) (r : DiffRenderer) (fuel : Nat)
    (hwf : wellFormed r = true) (hatt : r.ui.attached = true)
    (hfuel : diffs.length ≤ fuel) :
    (run fuel (resume (run fuel (render diffs r)))).ui.diffOutput
        = renderInOneStep r.ui.toFlags diffs ∧
    (diffs.length ≤ SAFE_RENDER_LIMIT →
      (run fuel (render diffs r)).ui.diffOutput = renderInOneStep r.ui.toFlags diffs) ∧
    (∀ size, 0 < size →
      renderInChunks r.ui.toFlags diffs size (fuel + 1) 0 [] false 0
        = renderInOneStep r.ui.toFlags diffs) := by
  obtain ⟨h1, h2⟩ := render_completed diffs r fuel hwf hatt hfuel
  refine ⟨h1, h2, ?_⟩
  intro size hsize
  exact renderInChunks_eq r.ui.toFlags diffs size hsize (fuel + 1) 0 [] false 0
    (Nat.zero_le _) (by omega)

/-- Witness for C19: a line of context, an insertion and more context on a fresh
renderer in view-only mode. -/
theorem chunking_unobservable_witness :
    (run 3 (resume (run 3 (render
      [⟨DiffType.equal, utf16 "a\nb"⟩, ⟨DiffType.insert, utf16 "x"⟩,
        ⟨DiffType.equal, utf16 "c\nd\n"⟩]
      (freshRenderer true true))))).ui.diffOutput
      = renderInOneStep (freshRenderer true true).ui.toFlags
          [⟨DiffType.equal, utf16 "a\nb"⟩, ⟨DiffType.insert, utf16 "x"⟩,
            ⟨DiffType.equal, utf16 "c\nd\n"⟩] ∧
    renderInChunks (freshRenderer true true).ui.toFlags
      [⟨DiffType.equal, utf16 "a\nb"⟩, ⟨DiffType.insert, utf16 "x"⟩,
        ⟨DiffType.equal, utf16 "c\nd\n"⟩] 1 4 0 [] false 0
      = renderInOneStep (freshRenderer true true).ui.toFlags
          [⟨DiffType.equal, utf16 "a\nb"⟩, ⟨DiffType.insert, utf16 "x"⟩,
            ⟨DiffType.equal, utf16 "c\nd\n"⟩] :=
  ⟨(chunking_unobservable
      [⟨DiffType.equal, utf16 "a\nb"⟩, ⟨DiffType.insert, utf16 "x"⟩,
        ⟨DiffType.equal, utf16 "c\nd\n"⟩]
      (freshRenderer true true) 3 rfl rfl (by decide)).1,
   (chunking_unobservable
      [⟨DiffType.equal, utf16 "a\nb"⟩, ⟨DiffType.insert, utf16 "x"⟩,
        ⟨DiffType.equal, utf16 "c\nd\n"⟩]
      (freshRenderer true true) 3 rfl rfl (by decide)).2.2 1 (by decide)⟩

/-! ## The split of a change at its runs of line breaks -/

theorem splitBreaksGo_flatten (text : JSString) : ∀ (b : Bool) (cur : JSString),
    (splitBreaksGo b cur text).flatten = cur ++ text := by
  induction text with
  | nil => intro b cur; cases b <;> simp [splitBreaksGo]
  | cons c cs ih =>
    intro b cur
    cases b <;> cases hc : isLineBreak c <;> simp [splitBreaksGo, hc, ih]

theorem flatten_filter_nonempty (l : List JSString) :
    (l.filter (fun part => !part.isEmpty)).flatten = l.flatten := by
  induction l with
  | nil => rfl
  | cons a l ih =>
    cases a with
    | nil => simpa using ih
    | cons x xs => simp [List.filter, ih]

theorem breakParts_flatten (text : JSString) : (breakParts text).flatten = text := by
  unfold breakParts splitBreaks
  rw [flatten_filter_nonempty, splitBreaksGo_flatten]
  rfl

theorem foldl_renderPart (ui : Flags) (type : DiffType) (parts : List JSString) :
    ∀ c : Chunk,
    (parts.foldl (renderPart ui type) c).diffOutput = c.diffOutput ∧
    (parts.foldl (renderPart ui type) c).chunkFragment = c.chunkFragment ++
      (parts.filter (fun part => !part.isEmpty)).map
        (fun part => Node.span (partClass ui type part) part) ∧
    (parts.foldl (renderPart ui type) c).isLineDirty = c.isLineDirty := by
  induction parts with
  | nil => intro c; simp
  | cons p ps ih =>
    intro c
    rw [List.foldl_cons]
    obtain ⟨h1, h2, h3⟩ := ih (renderPart ui type c p)
    rw [h1, h2, h3]
    cases hp : p.isEmpty
    · rw [renderPart_eq ui type c p hp]
      by_cases hs : shouldIgnoreChange p ui.ignoreEnter = true
      · rw [if_pos hs]
        simp [Chunk.append, List.filter, hp]
      · rw [if_neg hs]
        simp [Chunk.append, Chunk.countVisible, List.filter, hp]
    · simp [renderPart, List.filter, hp]

theorem splitBreaksGo_shape (text : JSString) : ∀ (b : Bool) (cur : JSString),
    (∀ x ∈ cur, isLineBreak x = b) →
    ∃ first rest, splitBreaksGo b cur text = first :: rest ∧
      cur <+: first ∧ (∀ x ∈ first, isLineBreak x = b) ∧
      (∀ p ∈ rest.filter (fun part => !part.isEmpty),
        p.all isLineBreak = true ∨ p.all (fun x => !isLineBreak x) = true) ∧
      List.Chain' (fun p q => p.all isLineBreak = !q.all isLineBreak)
        (rest.filter (fun part => !part.isEmpty)) ∧
      (∀ p, (rest.filter (fun part => !part.isEmpty)).head? = some p →
        p.all isLineBreak = !b) := by
  induction text with
  | nil =>
    intro b cur hcur
    cases b
    · exact ⟨cur, [], rfl, List.prefix_refl _, hcur,
        fun p hp => absurd hp (List.not_mem_nil p), List.chain'_nil,
        fun p hp => by cases hp⟩
    · exact ⟨cur, [[]], rfl, List.prefix_refl _, hcur,
        fun p hp => absurd hp (List.not_mem_nil p), List.chain'_nil,
        fun p hp => by cases hp⟩
  | cons c cs ih =>
    intro b cur hcur
    by_cases hc : isLineBreak c = b
    · -- the piece goes on
      have hstep : splitBreaksGo b cur (c :: cs) = splitBreaksGo b (cur ++ [c]) cs := by
        cases b <;> simp [splitBreaksGo, hc]
      obtain ⟨first, rest, h1, h2, h3, h4, h5, h6⟩ := ih b (cur ++ [c]) (by
        intro x hx
        rcases List.mem_append.1 hx with hx | hx
        · exact hcur x hx
        · rw [List.mem_singleton.1 hx]; exact hc)
      exact ⟨first, rest, hstep.trans h1,
        (List.prefix_append cur [c]).trans h2, h3, h4, h5, h6⟩
    · -- a new piece starts
      have hc' : isLineBreak c = !b := by
        revert hc
        cases b <;> cases isLineBreak c <;> decide
      have hstep : splitBreaksGo b cur (c :: cs) = cur :: splitBreaksGo (!b) [c] cs := by
        cases b <;> simp [splitBreaksGo, hc']
      obtain ⟨first, rest, h1, h2, h3, h4, h5, h6⟩ := ih (!b) [c] (by
        intro x hx
        rw [List.mem_singleton.1 hx]; exact hc')
      have hcin : c ∈ first := h2.subset (List.mem_singleton.2 rfl)
      have hne : first.isEmpty = false := by
        cases first with
        | nil => simp at hcin
        | cons _ _ => rfl
      have hkind : first.all isLineBreak = !b := by
        cases b
        · simp only [Bool.not_false, List.all_eq_true]
          intro x hx; simpa using h3 x hx
        · simp only [Bool.not_true]
          rw [Bool.eq_false_iff]
          intro hall
          have := (List.all_eq_true.1 hall) c hcin
          rw [hc'] at this
          simp at this
      have hfilter : (first :: rest).filter (fun part => !part.isEmpty)
          = first :: rest.filter (fun part => !part.isEmpty) := by
        exact List.filter_cons_of_pos (by rw [hne]; rfl)
      refine ⟨cur, first :: rest, by rw [hstep, h1], List.prefix_refl _, hcur, ?_, ?_, ?_⟩
      · intro p hp
        rw [hfilter] at hp
        rcases List.mem_cons.1 hp with rfl | hp
        · cases b
          · left; simpa using hkind
          · right
            simp only [List.all_eq_true]
            intro x hx
            have := h3 x hx
            simpa using this
        · exact h4 p hp
      · rw [hfilter]
        apply List.Chain'.cons' h5
        intro q hq
        rw [hkind, h6 q hq]
        simp
      · intro p hp
        rw [hfilter] at hp
        simp only [List.head?_cons, Option.some.injEq] at hp
        rw [← hp]; exact hkind

theorem breakParts_kind (text : JSString) :
    (∀ p ∈ breakParts text, p ≠ [] ∧
      (p.all isLineBreak = true ∨ p.all (fun x => !isLineBreak x) = true)) ∧
    List.Chain' (fun p q => p.all isLineBreak = !q.all isLineBreak) (breakParts text) := by
  obtain ⟨first, rest, h1, _, h3, h4, h5, h6⟩ :=
    splitBreaksGo_shape text false [] (by simp)
  have hb : breakParts text = (first :: rest).filter (fun part => !part.isEmpty) := by
    unfold breakParts splitBreaks
    rw [h1]
  have hnonempty : ∀ p ∈ breakParts text, p ≠ [] := by
    intro p hp
    unfold breakParts at hp
    have := (List.mem_filter.1 hp).2
    intro h
    rw [h] at this
    simp at this
  cases hf : first.isEmpty
  · have hfilter : (first :: rest).filter (fun part => !part.isEmpty)
        = first :: rest.filter (fun part => !part.isEmpty) := by
      simp [List.filter, hf]
    have hkind : first.all isLineBreak = false := by
      cases first with
      | nil => simp at hf
      | cons x xs =>
        have := h3 x (List.mem_cons_self _ _)
        simp [this]
    refine ⟨fun p hp => ⟨hnonempty p hp, ?_⟩, ?_⟩
    · rw [hb, hfilter] at hp
      rcases List.mem_cons.1 hp with rfl | hp
      · right
        simp only [List.all_eq_true]
        intro x hx
        simpa using h3 x hx
      · exact h4 p hp
    · rw [hb, hfilter]
      apply List.Chain'.cons' h5
      intro q hq
      rw [hkind, h6 q hq]
      simp
  · have hfilter : (first :: rest).filter (fun part => !part.isEmpty)
        = rest.filter (fun part => !part.isEmpty) := by
      exact List.filter_cons_of_neg (by rw [hf]; decide)
    refine ⟨fun p hp => ⟨hnonempty p hp, ?_⟩, ?_⟩
    · rw [hb, hfilter] at hp
      exact h4 p hp
    · rw [hb, hfilter]
      exact h5

theorem partClass_of_nonempty (ui : Flags) (type : DiffType) (p : JSString) (hp : p ≠ []) :
    partClass ui type p =
      if (ui.ignoreEnter && p.all isLineBreak) = true then SpanClass.plain
      else if type = DiffType.insert then SpanClass.diffAdd else SpanClass.diffDel := by
  cases p with
  | nil => exact absurd rfl hp
  | cons x xs =>
    unfold partClass shouldIgnoreChange
    cases ui.ignoreEnter <;> simp

theorem renderOp_split (ui : Flags) (diffs : List DiffOp) (i : Nat) (c : Chunk) (op : DiffOp)
    (hop : diffs.get? i = some op) (htype : op.type ≠ DiffType.equal)
    (hnot : shouldIgnoreChange op.text ui.ignoreEnter = false)
    (hbr : containsLineBreak op.text = true) :
    (renderOp ui diffs i c).diffOutput = c.diffOutput ∧
    (renderOp ui diffs i c).chunkFragment = c.chunkFragment ++
      (breakParts op.text).map (fun part => Node.span (partClass ui op.type part) part) ∧
    (renderOp ui diffs i c).isLineDirty = !endsWithNewline op.text := by
  rw [renderOp_eq ui diffs i c op hop]
  have h1 : ¬ (decide (op.type = DiffType.equal) && ui.viewOnlyDiff) = true := by
    simp [htype]
  have h3 : ¬ shouldIgnoreChange op.text ui.ignoreEnter = true := by
    rw [hnot]; decide
  rw [if_neg h1, if_pos htype, if_neg h3, if_pos hbr]
  obtain ⟨a1, a2, _⟩ := foldl_renderPart ui op.type (splitBreaks op.text)
    { c with isLineDirty := !endsWithNewline op.text }
  exact ⟨a1, a2, rfl⟩

/-- C18 (counterexample): with ignoreEnter off, the line break inside an
insertion is emitted with the diff-add marking. -/
theorem break_run_keeps_marking :
    shouldIgnoreChange (utf16 "a\nb") false = false ∧
    containsLineBreak (utf16 "a\nb") = true ∧
    (renderOp ⟨false, false⟩ [⟨DiffType.insert, utf16 "a\nb"⟩] 0 Chunk.start).chunkFragment
      = [Node.span SpanClass.diffAdd (utf16 "a"), Node.span SpanClass.diffAdd (utf16 "\n"),
         Node.span SpanClass.diffAdd (utf16 "b")] := by
  decide

/-- C18 (amended): for every non-ignored Insert/Delete op whose text contains
a line break, in every mode, the text is cut into non-empty fragments whose
concatenation is the text, each a run of line breaks or free of them, runs and
break-free fragments alternating; one span is emitted per fragment, in order; a
run of line breaks is unstyled when ignoreEnter is on and carries the marking of
the op when ignoreEnter is off, every other fragment carries the marking; the
dirty flag afterwards is false exactly when the text ends in a newline. -/
theorem embedded_break_splitting (ui : Flags) (diffs : List DiffOp) (i : Nat) (c : Chunk)
    (op : DiffOp) (hop : diffs.get? i = some op) (htype : op.type ≠ DiffType.equal)
    (hnot : shouldIgnoreChange op.text ui.ignoreEnter = false)
    (hbr : containsLineBreak op.text = true) :
    (breakParts op.text).flatten = op.text ∧
    (∀ p ∈ breakParts op.text, p ≠ [] ∧
      (p.all isLineBreak = true ∨ p.all (fun x => !isLineBreak x) = true)) ∧
    List.Chain' (fun p q => p.all isLineBreak = !q.all isLineBreak) (breakParts op.text) ∧
    (renderOp ui diffs i c).diffOutput = c.diffOutput ∧
    (renderOp ui diffs i c).chunkFragment = c.chunkFragment ++
      (breakParts op.text).map (fun p => Node.span
        (if (ui.ignoreEnter && p.all isLineBreak) = true then SpanClass.plain
         else if op.type = DiffType.insert then SpanClass.diffAdd else SpanClass.diffDel) p) ∧
    ((renderOp ui diffs i c).isLineDirty = false ↔ endsWithNewline op.text = true) := by
  obtain ⟨k1, k2⟩ := breakParts_kind op.text
  obtain ⟨r1, r2, r3⟩ := renderOp_split ui diffs i c op hop htype hnot hbr
  refine ⟨breakParts_flatten op.text, k1, k2, r1, ?_, ?_⟩
  · rw [r2]
    congr 1
    apply List.map_congr_left
    intro p hp
    rw [partClass_of_nonempty ui op.type p (k1 p hp).1]
  · rw [r3]
    cases endsWithNewline op.text <;> decide

/-- Witness for C18: the deletion of two lines with ignoreEnter on. -/
theorem embedded_break_splitting_witness :
    (breakParts (utf16 "a\r\nb")).flatten = utf16 "a\r\nb" ∧
    (renderOp ⟨true, true⟩ [⟨DiffType.delete, utf16 "a\r\nb"⟩] 0 Chunk.start).chunkFragment
      = [] ++ (breakParts (utf16 "a\r\nb")).map (fun p => Node.span
        (if (true && p.all isLineBreak) = true then SpanClass.plain
         else if DiffType.delete = DiffType.insert then SpanClass.diffAdd
           else SpanClass.diffDel) p) :=
  ⟨(embedded_break_splitting ⟨true, true⟩ [⟨DiffType.delete, utf16 "a\r\nb"⟩] 0 Chunk.start
      ⟨DiffType.delete, utf16 "a\r\nb"⟩ rfl (by decide) (by decide) (by decide)).1,
   (embedded_break_splitting ⟨true, true⟩ [⟨DiffType.delete, utf16 "a\r\nb"⟩] 0 Chunk.start
      ⟨DiffType.delete, utf16 "a\r\nb"⟩ rfl (by decide) (by decide) (by decide)).2.2.2.2.1⟩

/-! ## The full view -/

theorem shownTextOf_append (a b : List Node) :
    shownTextOf (a ++ b) = shownTextOf a ++ shownTextOf b := by
  simp [shownTextOf]

theorem textWithout_append (cls : SpanClass) (a b : List Node) :
    textWithout cls (a ++ b) = textWithout cls a ++ textWithout cls b := by
  simp [textWithout, shownTextOf_append]

theorem shownTextOf_spans (cls : SpanClass) (parts : List JSString) :
    shownTextOf (parts.map (fun p => Node.span cls p)) = parts.flatten := by
  induction parts with
  | nil => rfl
  | cons p ps ih =>
    rw [List.map_cons, List.flatten_cons, ← ih]
    rfl

theorem textWithout_spans (cls cls' : SpanClass) (parts : List JSString) :
    textWithout cls' (parts.map (fun p => Node.span cls p))
      = if cls = cls' then [] else parts.flatten := by
  induction parts with
  | nil => by_cases h : cls = cls' <;> simp [h, textWithout, shownTextOf]
  | cons p ps ih =>
    have h := textWithout_append cls' [Node.span cls p] (ps.map (fun p => Node.span cls p))
    rw [List.map_cons]
    rw [show Node.span cls p :: ps.map (fun p => Node.span cls p)
      = [Node.span cls p] ++ ps.map (fun p => Node.span cls p) from rfl, h, ih]
    by_cases hc : cls = cls'
    · simp [hc, textWithout, shownTextOf, Node.hasClass]
    · simp [hc, textWithout, shownTextOf, Node.hasClass, Node.shownText]

theorem partClass_of_ignoreEnter_off (ui : Flags) (hi : ui.ignoreEnter = false)
    (type : DiffType) (p : JSString) :
    partClass ui type p
      = if type = DiffType.insert then SpanClass.diffAdd else SpanClass.diffDel := by
  simp [partClass, shouldIgnoreChange, hi]

/-- In the full view with ignoreEnter off one op adds nodes that carry its text:
unmarked for context, marked diff-add for an insertion, diff-del for a deletion. -/
theorem renderOp_fullView (ui : Flags) (hv : ui.viewOnlyDiff = false)
    (hi : ui.ignoreEnter = false) (diffs : List DiffOp) (i : Nat) (c : Chunk) (op : DiffOp)
    (hop : diffs.get? i = some op) :
    ∃ nodes, (renderOp ui diffs i c).flat = c.flat ++ nodes ∧
      shownTextOf nodes = op.text ∧
      textWithout SpanClass.diffDel nodes
        = (if op.type = DiffType.delete then [] else op.text) ∧
      textWithout SpanClass.diffAdd nodes
        = (if op.type = DiffType.insert then [] else op.text) := by
  have hnot : shouldIgnoreChange op.text ui.ignoreEnter = false := by
    simp [shouldIgnoreChange, hi]
  by_cases htype : op.type = DiffType.equal
  · refine ⟨[Node.text op.text], ?_, ?_, ?_, ?_⟩
    · rw [renderOp_eq ui diffs i c op hop]
      simp [htype, hv, renderPlain, Chunk.flat, Chunk.append, Chunk.countVisible]
    · simp [shownTextOf, Node.shownText]
    · simp [textWithout, shownTextOf, Node.shownText, Node.hasClass, htype]
    · simp [textWithout, shownTextOf, Node.shownText, Node.hasClass, htype]
  · by_cases hbr : containsLineBreak op.text = true
    · obtain ⟨r1, r2, _⟩ := renderOp_split ui diffs i c op hop htype hnot hbr
      have hmap : (breakParts op.text).map
          (fun part => Node.span (partClass ui op.type part) part)
          = (breakParts op.text).map (fun part => Node.span
            (if op.type = DiffType.insert then SpanClass.diffAdd else SpanClass.diffDel)
            part) := by
        apply List.map_congr_left
        intro p _
        rw [partClass_of_ignoreEnter_off ui hi]
      rw [hmap] at r2
      refine ⟨(breakParts op.text).map (fun part => Node.span
            (if op.type = DiffType.insert then SpanClass.diffAdd else SpanClass.diffDel)
            part), ?_, ?_, ?_, ?_⟩
      · unfold Chunk.flat
        rw [r1, r2, List.append_assoc]
      · rw [shownTextOf_spans, breakParts_flatten]
      · rw [textWithout_spans, breakParts_flatten]
        cases ht : op.type <;> simp [ht] at htype ⊢
      · rw [textWithout_spans, breakParts_flatten]
        cases ht : op.type <;> simp [ht] at htype ⊢
    · refine ⟨[Node.span
        (if op.type = DiffType.insert then SpanClass.diffAdd else SpanClass.diffDel)
        op.text], ?_, ?_, ?_, ?_⟩
      · rw [renderOp_eq ui diffs i c op hop]
        cases ht : op.type <;>
          simp [ht, hv, hnot, hbr, renderPlain, Chunk.flat, Chunk.append,
            Chunk.countVisible] at htype ⊢
      · simp [shownTextOf, Node.shownText]
      · cases ht : op.type <;>
          simp [ht, textWithout, shownTextOf, Node.shownText, Node.hasClass] at htype ⊢
      · cases ht : op.type <;>
          simp [ht, textWithout, shownTextOf, Node.shownText, Node.hasClass] at htype ⊢

theorem opsText_cons (op : DiffOp) (rest : List DiffOp) :
    opsText (op :: rest) = op.text ++ opsText rest := rfl

theorem renderOps_fullView (ui : Flags) (hv : ui.viewOnlyDiff = false)
    (hi : ui.ignoreEnter = false) (diffs : List DiffOp) (n : Nat) :
    ∀ (i : Nat) (c : Chunk), i + n = diffs.length →
    ∃ nodes, (renderOps ui diffs i n c).flat = c.flat ++ nodes ∧
      shownTextOf nodes = opsText (diffs.drop i) ∧
      textWithout SpanClass.diffDel nodes
        = opsText ((diffs.drop i).filter (fun op => decide (op.type ≠ DiffType.delete))) ∧
      textWithout SpanClass.diffAdd nodes
        = opsText ((diffs.drop i).filter (fun op => decide (op.type ≠ DiffType.insert))) := by
  induction n with
  | zero =>
    intro i c hlen
    have hdrop : diffs.drop i = [] := List.drop_eq_nil_of_le (by omega)
    rw [hdrop]
    exact ⟨[], by rw [List.append_nil]; rfl, rfl, rfl, rfl⟩
  | succ n ih =>
    intro i c hlen
    have hlt : i < diffs.length := by omega
    have hop : diffs.get? i = some (diffs.get ⟨i, hlt⟩) := List.get?_eq_get hlt
    have hdrop : diffs.drop i = diffs.get ⟨i, hlt⟩ :: diffs.drop (i + 1) :=
      List.drop_eq_getElem_cons hlt
    generalize diffs.get ⟨i, hlt⟩ = op at hop hdrop
    obtain ⟨n1, a1, a2, a3, a4⟩ := renderOp_fullView ui hv hi diffs i c op hop
    obtain ⟨n2, b1, b2, b3, b4⟩ := ih (i + 1) (renderOp ui diffs i c) (by omega)
    refine ⟨n1 ++ n2, ?_, ?_, ?_, ?_⟩
    · show (renderOps ui diffs (i + 1) n (renderOp ui diffs i c)).flat = _
      rw [b1, a1, List.append_assoc]
    · rw [shownTextOf_append, a2, b2, hdrop, opsText_cons]
    · rw [textWithout_append, a3, b3, hdrop]
      by_cases ht : op.type = DiffType.delete
      · rw [if_pos ht, List.filter_cons_of_neg (by simp [ht])]
        rfl
      · rw [if_neg ht, List.filter_cons_of_pos (by simp [ht]), opsText_cons]
    · rw [textWithout_append, a4, b4, hdrop]
      by_cases ht : op.type = DiffType.insert
      · rw [if_pos ht, List.filter_cons_of_neg (by simp [ht])]
        rfl
      · rw [if_neg ht, List.filter_cons_of_pos (by simp [ht]), opsText_cons]

theorem renderInOneStep_fullView (ui : Flags) (hv : ui.viewOnlyDiff = false)
    (hi : ui.ignoreEnter = false) (diffs : List DiffOp) :
    shownTextOf (renderInOneStep ui diffs) = opsText diffs ∧
    textWithout SpanClass.diffDel (renderInOneStep ui diffs)
      = opsText (diffs.filter (fun op => decide (op.type ≠ DiffType.delete))) ∧
    textWithout SpanClass.diffAdd (renderInOneStep ui diffs)
      = opsText (diffs.filter (fun op => decide (op.type ≠ DiffType.insert))) := by
  obtain ⟨nodes, h1, h2, h3, h4⟩ :=
    renderOps_fullView ui hv hi diffs diffs.length 0 Chunk.start (Nat.zero_add _)
  have hout : renderInOneStep ui diffs = nodes := by
    unfold renderInOneStep finalCheck
    rw [hv, h1]
    rfl
  rw [hout, h2, h3, h4]
  exact ⟨rfl, rfl, rfl⟩

/-- C20: the full view is lossless. With view-only mode off and ignoreEnter off,
for every sequence of ops and every renderer state with the output attached,
the completed output satisfies: the texts of all nodes concatenated in order
are the concatenation of all op texts; the texts of the nodes not marked
diff-del are the concatenation of the Equal and Insert texts; the texts of the
nodes not marked diff-add are the concatenation of the Equal and Delete texts. -/
theorem full_view_lossless (diffs : List DiffOp) (r : DiffRenderer) (fuel : Nat)
    (hwf : wellFormed r = true) (hatt : r.ui.attached = true)
    (hfuel : diffs.length ≤ fuel)
    (hv : r.ui.viewOnlyDiff = false) (hi : r.ui.ignoreEnter = false) :
    shownTextOf (run fuel (resume (run fuel (render diffs r)))).ui.diffOutput
      = opsText diffs ∧
    textWithout SpanClass.diffDel
        (run fuel (resume (run fuel (render diffs r)))).ui.diffOutput
      = opsText (diffs.filter (fun op => decide (op.type ≠ DiffType.delete))) ∧
    textWithout SpanClass.diffAdd
        (run fuel (resume (run fuel (render diffs r)))).ui.diffOutput
      = opsText (diffs.filter (fun op => decide (op.type ≠ DiffType.insert))) := by
  rw [(render_completed diffs r fuel hwf hatt hfuel).1]
  exact renderInOneStep_fullView r.ui.toFlags hv hi diffs

/-- Witness for C20: context, a deletion over two lines, an insertion and more
context on a fresh renderer in the full view. -/
theorem full_view_lossless_witness :
    shownTextOf (run 4 (resume (run 4 (render
        [⟨DiffType.equal, utf16 "a\n"⟩, ⟨DiffType.delete, utf16 "b\nc"⟩,
          ⟨DiffType.insert, utf16 "d"⟩, ⟨DiffType.equal, utf16 "e"⟩]
        (freshRenderer false false))))).ui.diffOutput
      = utf16 "a\nb\ncde" ∧
    textWithout SpanClass.diffDel (run 4 (resume (run 4 (render
        [⟨DiffType.equal, utf16 "a\n"⟩, ⟨DiffType.delete, utf16 "b\nc"⟩,
          ⟨DiffType.insert, utf16 "d"⟩, ⟨DiffType.equal, utf16 "e"⟩]
        (freshRenderer false false))))).ui.diffOutput
      = utf16 "a\nde" ∧
    textWithout SpanClass.diffAdd (run 4 (resume (run 4 (render
        [⟨DiffType.equal, utf16 "a\n"⟩, ⟨DiffType.delete, utf16 "b\nc"⟩,
          ⟨DiffType.insert, utf16 "d"⟩, ⟨DiffType.equal, utf16 "e"⟩]
        (freshRenderer false false))))).ui.diffOutput
      = utf16 "a\nb\nce" :=
  full_view_lossless
    [⟨DiffType.equal, utf16 "a\n"⟩, ⟨DiffType.delete, utf16 "b\nc"⟩,
      ⟨DiffType.insert, utf16 "d"⟩, ⟨DiffType.equal, utf16 "e"⟩]
    (freshRenderer false false) 4 rfl rfl (by decide) rfl rfl

/-! ## Reading the count back from a separator -/

theorem digitsOnto_ne_nil (fuel : Nat) : ∀ (n : Nat) (acc : JSString),
    acc ≠ [] → digitsOnto fuel n acc ≠ [] := by
  induction fuel with
  | zero => intro n acc h; exact h
  | succ fuel ih =>
    intro n acc _
    unfold digitsOnto
    by_cases h0 : n / 10 = 0
    · simp only [h0, if_true]
      exact List.cons_ne_nil _ _
    · simp only [h0, if_false]
      exact ih _ _ (List.cons_ne_nil _ _)

theorem numberToString_ne_nil (n : Nat) : numberToString n ≠ [] := by
  unfold numberToString digitsOnto
  by_cases h0 : n / 10 = 0
  · simp only [h0, if_true]
    exact List.cons_ne_nil _ _
  · simp only [h0, if_false]
    exact digitsOnto_ne_nil _ _ _ (List.cons_ne_nil _ _)

theorem numberToString_digits (n : Nat) : ∀ c ∈ numberToString n, isDigit c = true := by
  intro c hc
  rcases digitsOnto_mem _ _ _ _ hc with h | h
  · exact absurd h (List.not_mem_nil c)
  · simp [isDigit, h.1, h.2]

theorem matchHidden_skip (c : Nat) (cs : JSString) (hc : isDigit c = false) :
    matchHidden (c :: cs) = matchHidden cs := by
  have h : matchHiddenAt (c :: cs) = none := by
    simp [matchHiddenAt, List.takeWhile, hc]
  show (match matchHiddenAt (c :: cs) with
    | some d => some d
    | none => matchHidden cs) = _
  rw [h]

theorem matchHiddenAt_digits (digits rest : JSString) (hne : digits ≠ [])
    (hd : ∀ c ∈ digits, isDigit c = true) :
    matchHiddenAt (digits ++ 32 :: (utf16 "Hidden" ++ rest)) = some digits := by
  have h1 : (digits ++ 32 :: (utf16 "Hidden" ++ rest)).takeWhile isDigit = digits := by
    rw [List.takeWhile_append_of_pos hd]
    simp [List.takeWhile, isDigit]
  have h2 : (digits ++ 32 :: (utf16 "Hidden" ++ rest)).dropWhile isDigit
      = 32 :: (utf16 "Hidden" ++ rest) := by
    rw [List.dropWhile_append_of_pos hd]
    simp [List.dropWhile, isDigit]
  have h3 : (32 :: (utf16 "Hidden" ++ rest)).takeWhile isWhiteSpace = [32] := by
    show (32 :: 72 :: _).takeWhile isWhiteSpace = [32]
    rfl
  have h4 : (32 :: (utf16 "Hidden" ++ rest)).dropWhile isWhiteSpace
      = utf16 "Hidden" ++ rest := by
    show (32 :: 72 :: _).dropWhile isWhiteSpace = _
    rfl
  have h5 : (utf16 "Hidden").isPrefixOf (utf16 "Hidden" ++ rest) = true := by
    rw [List.isPrefixOf_iff_prefix]
    exact List.prefix_append _ _
  have h6 : digits.isEmpty = false := by
    cases digits with
    | nil => exact absurd rfl hne
    | cons _ _ => rfl
  unfold matchHiddenAt
  simp only [h1, h2, h3, h4, h5, h6]
  rfl

theorem matchHidden_hiddenLabel (n : Nat) :
    matchHidden (hiddenLabel n) = some (numberToString n) := by
  have hshape : hiddenLabel n = 46 :: 46 :: 46 :: 32 ::
      (numberToString n ++ 32 :: (utf16 "Hidden" ++
        (utf16 " Line" ++ (if n ≠ 1 then utf16 "s" else []) ++ utf16 " ..."))) := by
    unfold hiddenLabel
    simp only [List.append_assoc]
    rfl
  rw [hshape, matchHidden_skip _ _ (by decide), matchHidden_skip _ _ (by decide),
    matchHidden_skip _ _ (by decide), matchHidden_skip _ _ (by decide)]
  have hat := matchHiddenAt_digits (numberToString n)
    (utf16 " Line" ++ (if n ≠ 1 then utf16 "s" else []) ++ utf16 " ...")
    (numberToString_ne_nil n) (numberToString_digits n)
  generalize hrest : (32 :: (utf16 "Hidden" ++
    (utf16 " Line" ++ (if n ≠ 1 then utf16 "s" else []) ++ utf16 " ..."))) = tl at hat ⊢
  cases hD : numberToString n with
  | nil => exact absurd hD (numberToString_ne_nil n)
  | cons d ds =>
    rw [hD] at hat
    show (match matchHiddenAt (d :: (ds ++ tl)) with
      | some d => some d
      | none => matchHidden (ds ++ tl)) = _
    rw [show d :: (ds ++ tl) = (d :: ds) ++ tl from rfl, hat]

/-! ## Hidden parts without lines -/

theorem hiddenLineCount_eq_zero_iff (ui : Flags) (text : JSString) :
    hiddenLineCount ui text = 0 ↔ ui.ignoreEnter = true ∧ text.all isWhiteSpace = true := by
  unfold hiddenLineCount
  by_cases h : (ui.ignoreEnter && text.all isWhiteSpace) = true
  · rw [if_pos h]
    simpa using h
  · rw [if_neg h]
    constructor
    · intro h0; omega
    · intro h1
      exact absurd (by simpa using h1) h

theorem insertSeparatorIfNeeded_zero (ui : Flags) (i : Nat) (text : JSString) (c : Chunk)
    (h0 : hiddenLineCount ui text = 0) :
    insertSeparatorIfNeeded ui i text c =
      match c.lastEl with
      | some (Node.separator _) => c
      | _ => if 0 < i ∧ ui.viewOnlyDiff = false then c.append Node.br else c := by
  rw [insertSeparatorIfNeeded_eq, h0]
  cases hl : c.lastEl with
  | none =>
    simp only [gt_iff_lt, Nat.lt_irrefl, if_false]
    by_cases hi : 0 < i <;> cases hv : ui.viewOnlyDiff <;> simp [hi, hv]
  | some n =>
    cases n with
    | separator t =>
      simp only [Nat.add_zero, ne_eq, not_true_eq_false, if_false]
      cases matchHidden t <;> rfl
    | text _ =>
      simp only [gt_iff_lt, Nat.lt_irrefl, if_false]
      by_cases hi : 0 < i <;> cases hv : ui.viewOnlyDiff <;> simp [hi, hv]
    | br =>
      simp only [gt_iff_lt, Nat.lt_irrefl, if_false]
      by_cases hi : 0 < i <;> cases hv : ui.viewOnlyDiff <;> simp [hi, hv]
    | span _ _ =>
      simp only [gt_iff_lt, Nat.lt_irrefl, if_false]
      by_cases hi : 0 < i <;> cases hv : ui.viewOnlyDiff <;> simp [hi, hv]

theorem insertSeparatorIfNeeded_zero_viewOnly (ui : Flags) (i : Nat) (text : JSString)
    (c : Chunk) (h0 : hiddenLineCount ui text = 0) (hv : ui.viewOnlyDiff = true) :
    insertSeparatorIfNeeded ui i text c = c := by
  rw [insertSeparatorIfNeeded_zero ui i text c h0]
  have hno : ¬ (0 < i ∧ ui.viewOnlyDiff = false) := by
    rw [hv]
    intro h
    exact absurd h.2 (by decide)
  rw [if_neg hno]
  cases c.lastEl with
  | none => rfl
  | some n => cases n <;> rfl

/-- C16 (counterexample): in view-only mode with ignoreEnter on, the context
`"  \n"` at index 1 has line count 0 and the last element of the output is a
span, yet no line break is emitted. -/
theorem no_break_in_viewOnly :
    hiddenLineCount ⟨true, true⟩ (utf16 "  \n") = 0 ∧
    (renderOps ⟨true, true⟩
      [⟨DiffType.insert, utf16 "x\n"⟩, ⟨DiffType.equal, utf16 "  \n"⟩] 0 1 Chunk.start).lastEl
      = some (Node.span SpanClass.plain (utf16 "\n")) ∧
    (run 2 (render [⟨DiffType.insert, utf16 "x\n"⟩, ⟨DiffType.equal, utf16 "  \n"⟩]
      (freshRenderer true true))).ui.diffOutput
      = [Node.span SpanClass.diffAdd (utf16 "x"), Node.span SpanClass.plain (utf16 "\n")] := by
  decide

/-- C16 (amended): when a hidden part has line count 0 (ignoreEnter on and the
text white space only) and the last element of the output is not a separator,
`insertSeparatorIfNeeded` emits a line break only when view-only mode is off and
the index is positive; in view-only mode, the only mode in which the renderer
calls it, nothing is emitted at any index and the state is left as it was. -/
theorem zero_count_emits_nothing (ui : Flags) (i : Nat) (text : JSString) (c : Chunk)
    (h0 : hiddenLineCount ui text = 0)
    (hlast : ∀ t, c.lastEl ≠ some (Node.separator t)) :
    (ui.ignoreEnter = true ∧ text.all isWhiteSpace = true) ∧
    insertSeparatorIfNeeded ui i text c
      = (if 0 < i ∧ ui.viewOnlyDiff = false then c.append Node.br else c) ∧
    (ui.viewOnlyDiff = true → insertSeparatorIfNeeded ui i text c = c) := by
  refine ⟨(hiddenLineCount_eq_zero_iff ui text).1 h0, ?_,
    insertSeparatorIfNeeded_zero_viewOnly ui i text c h0⟩
  rw [insertSeparatorIfNeeded_zero ui i text c h0]
  cases hl : c.lastEl with
  | none => rfl
  | some n =>
    cases n with
    | separator t => exact absurd hl (hlast t)
    | text _ => rfl
    | br => rfl
    | span _ _ => rfl

/-- Witness for C16: the context `"  \n"` at index 1 after the two spans of an
insertion, in view-only mode with ignoreEnter on. -/
theorem zero_count_emits_nothing_witness :
    insertSeparatorIfNeeded ⟨true, true⟩ 1 (utf16 "  \n")
      ⟨[], [Node.span SpanClass.diffAdd (utf16 "x"), Node.span SpanClass.plain (utf16 "\n")],
        false, 1⟩
      = ⟨[], [Node.span SpanClass.diffAdd (utf16 "x"), Node.span SpanClass.plain (utf16 "\n")],
        false, 1⟩ :=
  (zero_count_emits_nothing ⟨true, true⟩ 1 (utf16 "  \n")
    ⟨[], [Node.span SpanClass.diffAdd (utf16 "x"), Node.span SpanClass.plain (utf16 "\n")],
      false, 1⟩ (by decide) (by intro t h; cases h)).2.2 rfl

/-! ## Ignored changes in view-only mode -/

theorem hiddenLineCount_of_pure (ui : Flags) (text : JSString) (hi : ui.ignoreEnter = true)
    (hpure : isPureLineBreaks text) : hiddenLineCount ui text = 0 := by
  rw [hiddenLineCount_eq_zero_iff]
  refine ⟨hi, ?_⟩
  rw [List.all_eq_true]
  intro x hx
  rcases hpure.2 x hx with h | h <;> rw [h] <;> rfl

theorem tail_of_endsWithNewline (text : JSString) (h : endsWithNewline text = true) :
    tailAfterLastNewline text = [] := by
  unfold endsWithNewline at h
  unfold tailAfterLastNewline
  rw [← List.head?_reverse] at h
  cases hr : text.reverse with
  | nil => rfl
  | cons x xs =>
    rw [hr] at h
    have hx : x = 10 := by simpa using h
    rw [hx]
    rfl

theorem setDirty_self (c : Chunk) (b : Bool) (h : c.isLineDirty = b) :
    { c with isLineDirty := b } = c := by
  cases c
  simp only at h
  rw [h]

/-- C17 (counterexample): with ignoreEnter on in view-only mode, after the
insertion of `x` has left the line dirty, the ignored insertion of a line break
emits nothing, while an Equal op with the same text closes the line with a
forced line break. -/
theorem ignored_change_is_not_context :
    shouldIgnoreChange (utf16 "\n") true = true ∧
    (renderOps ⟨true, true⟩
      [⟨DiffType.insert, utf16 "x"⟩, ⟨DiffType.insert, utf16 "\n"⟩] 0 1 Chunk.start).isLineDirty
      = true ∧
    (renderOps ⟨true, true⟩
      [⟨DiffType.insert, utf16 "x"⟩, ⟨DiffType.insert, utf16 "\n"⟩] 0 2 Chunk.start).flat
      = [Node.span SpanClass.diffAdd (utf16 "x")] ∧
    (renderOps ⟨true, true⟩
      [⟨DiffType.insert, utf16 "x"⟩, ⟨DiffType.equal, utf16 "\n"⟩] 0 2 Chunk.start).flat
      = [Node.span SpanClass.diffAdd (utf16 "x"), Node.br] := by
  decide

/-- C17 (amended): with ignoreEnter on and view-only mode active, an
Insert/Delete op whose text is purely line-break characters emits nothing in
every renderer state, also while line-dirty: the state is left as it was but
for the dirty flag, which afterwards is true exactly when the text does not end
in a newline. In a state that is not line-dirty and for a text that ends in a
newline this is what rendering an Equal op with the same text at that position
gives. -/
theorem ignored_change_viewOnly (ui : Flags) (diffs : List DiffOp) (i : Nat) (c : Chunk)
    (op : DiffOp) (hop : diffs.get? i = some op) (htype : op.type ≠ DiffType.equal)
    (hi : ui.ignoreEnter = true) (hv : ui.viewOnlyDiff = true)
    (hpure : isPureLineBreaks op.text) :
    renderOp ui diffs i c = { c with isLineDirty := !endsWithNewline op.text } ∧
    ((renderOp ui diffs i c).isLineDirty = true ↔ endsWithNewline op.text = false) ∧
    (c.isLineDirty = false → endsWithNewline op.text = true →
      renderOp ui (diffs.set i ⟨DiffType.equal, op.text⟩) i c = renderOp ui diffs i c) := by
  have h0 := hiddenLineCount_of_pure ui op.text hi hpure
  have hig : shouldIgnoreChange op.text ui.ignoreEnter = true := by
    rw [hi]
    exact (shouldIgnoreChange_true_iff op.text).2 hpure
  have h1 : ¬ (decide (op.type = DiffType.equal) && ui.viewOnlyDiff) = true := by
    simp [htype]
  have hmain : renderOp ui diffs i c = { c with isLineDirty := !endsWithNewline op.text } := by
    rw [renderOp_eq ui diffs i c op hop, if_neg h1, if_pos htype, if_pos hig, if_pos hv,
      insertSeparatorIfNeeded_zero_viewOnly ui i op.text _ h0 hv]
    cases endsWithNewline op.text <;> rfl
  refine ⟨hmain, ?_, ?_⟩
  · rw [hmain]
    show (!endsWithNewline op.text) = true ↔ endsWithNewline op.text = false
    cases endsWithNewline op.text <;> decide
  · intro hd he
    have hlt : i < diffs.length := by
      rcases Nat.lt_or_ge i diffs.length with h | h
      · exact h
      · rw [List.get?_eq_none.2 h] at hop
        cases hop
    have hop' : (diffs.set i ⟨DiffType.equal, op.text⟩).get? i
        = some ⟨DiffType.equal, op.text⟩ := by
      rw [List.get?_eq_getElem?, List.getElem?_set_self hlt]
    have hnext : nextStartsChangedLine (diffs.set i ⟨DiffType.equal, op.text⟩) i
        = nextStartsChangedLine diffs i := by
      unfold nextStartsChangedLine
      rw [List.get?_eq_getElem?, List.get?_eq_getElem?,
        List.getElem?_set_ne (Nat.ne_of_lt (Nat.lt_succ_self i))]
    rw [hmain, renderOp_eq ui _ i c _ hop']
    have h2 : (decide ((⟨DiffType.equal, op.text⟩ : DiffOp).type = DiffType.equal)
        && ui.viewOnlyDiff) = true := by
      simp [hv]
    rw [if_pos h2]
    show processViewOnlyContext ui _ i op.text c = _
    unfold processViewOnlyContext
    rw [hd]
    simp only [Bool.false_eq_true, if_false]
    rw [processRemainingText_eq ui _ i op.text c hpure.1, tail_of_endsWithNewline op.text he]
    simp only [List.isEmpty_nil, Bool.not_true, Bool.false_and, Bool.false_eq_true, if_false]
    rw [insertSeparatorIfNeeded_zero_viewOnly ui i op.text c h0 hv, he]
    exact (setDirty_self c _ hd).symm

/-- Witness for C17: the ignored insertion of a line break after the insertion
of `x` has left the line dirty. -/
theorem ignored_change_viewOnly_witness :
    renderOp ⟨true, true⟩ [⟨DiffType.insert, utf16 "x"⟩, ⟨DiffType.insert, utf16 "\n"⟩] 1
      ⟨[], [Node.span SpanClass.diffAdd (utf16 "x")], true, 1⟩
      = ⟨[], [Node.span SpanClass.diffAdd (utf16 "x")], false, 1⟩ :=
  (ignored_change_viewOnly ⟨true, true⟩
    [⟨DiffType.insert, utf16 "x"⟩, ⟨DiffType.insert, utf16 "\n"⟩] 1
    ⟨[], [Node.span SpanClass.diffAdd (utf16 "x")], true, 1⟩
    ⟨DiffType.insert, utf16 "\n"⟩ rfl (by decide) rfl rfl
    ⟨by decide, by decide⟩).1

/-! ## Merging into the last separator -/

theorem find_isElement_none (rest : List Node) (h : ∀ x ∈ rest, x.isElement = false) :
    List.find? Node.isElement rest.reverse = none := by
  rw [List.find?_eq_none]
  intro x hx
  rw [h x (List.mem_reverse.1 hx)]
  decide

theorem lastElementChild_of_split (pre rest : List Node) (n : Node)
    (hn : n.isElement = true) (h : ∀ x ∈ rest, x.isElement = false) :
    lastElementChild (pre ++ n :: rest) = some n := by
  unfold lastElementChild
  rw [List.reverse_append, List.reverse_cons, List.append_assoc, List.find?_append,
    find_isElement_none rest h]
  simp [List.find?, hn]

theorem setLastElementText_of_split (pre rest : List Node) (n : Node) (t : JSString)
    (hn : n.isElement = true) (h : ∀ x ∈ rest, x.isElement = false) :
    setLastElementText (pre ++ n :: rest) t = pre ++ Node.separator t :: rest := by
  unfold setLastElementText
  rw [List.reverse_append, List.reverse_cons, List.append_assoc,
    mapFirstElement_append_of_no_element _ _ _ (find_isElement_none rest h)]
  simp [mapFirstElement, hn]

theorem hiddenLabel_one : hiddenLabel 1 = utf16 "... 1 Hidden Line ..." := by decide

theorem hiddenLabel_many (n : Nat) (hn : n ≠ 1) :
    hiddenLabel n = utf16 "... " ++ numberToString n ++ utf16 " Hidden Lines ..." := by
  unfold hiddenLabel
  rw [if_pos hn]
  simp only [List.append_assoc]
  rfl

/-- With a carriage return in a change, which no text of a textarea holds, a
separator is merged into although the visible text `b` stands after it. -/
theorem carriage_return_merge :
    (renderOps ⟨true, true⟩
      [⟨DiffType.equal, utf16 "a\nb"⟩, ⟨DiffType.insert, utf16 "\r\r\n"⟩,
        ⟨DiffType.equal, utf16 "foo\n"⟩] 0 2 Chunk.start).flat
      = [Node.separator (utf16 "... 2 Hidden Lines ..."), Node.text (utf16 "b")] ∧
    (renderOps ⟨true, true⟩
      [⟨DiffType.equal, utf16 "a\nb"⟩, ⟨DiffType.insert, utf16 "\r\r\n"⟩,
        ⟨DiffType.equal, utf16 "foo\n"⟩] 0 3 Chunk.start).flat
      = [Node.separator (utf16 "... 4 Hidden Lines ..."), Node.text (utf16 "b")] ∧
    (run 3 (render
      [⟨DiffType.equal, utf16 "a\nb"⟩, ⟨DiffType.insert, utf16 "\r\r\n"⟩,
        ⟨DiffType.equal, utf16 "foo\n"⟩] (freshRenderer true true))).ui.diffOutput
      = [Node.separator (utf16 "... 4 Hidden Lines ..."), Node.text (utf16 "b")] := by
  decide

/-- What `insertSeparatorIfNeeded` does in a given state. When the last element
of the output is a separator, text nodes after it not counting, its count
becomes the old count plus the line count of the hidden part; when the last
element is not a separator and the count is positive, a new separator with that
count is appended. -/
theorem insertSeparatorIfNeeded_merge (ui : Flags) (i : Nat) (text : JSString) (c : Chunk) :
    (∀ pre n rest, c.flat = pre ++ Node.separator (hiddenLabel n) :: rest →
      (∀ x ∈ rest, x.isElement = false) →
      (insertSeparatorIfNeeded ui i text c).flat
        = pre ++ Node.separator (hiddenLabel (n + hiddenLineCount ui text)) :: rest) ∧
    ((∀ t, c.lastEl ≠ some (Node.separator t)) → 0 < hiddenLineCount ui text →
      insertSeparatorIfNeeded ui i text c
        = c.append (Node.separator (hiddenLabel (hiddenLineCount ui text)))) ∧
    hiddenLineCount ui text
      = (if (ui.ignoreEnter && text.all isWhiteSpace) = true then 0
         else countNewlines text + 1) ∧
    hiddenLabel 1 = utf16 "... 1 Hidden Line ..." ∧
    (∀ n, n ≠ 1 →
      hiddenLabel n = utf16 "... " ++ numberToString n ++ utf16 " Hidden Lines ...") := by
  refine ⟨?_, ?_, rfl, hiddenLabel_one, hiddenLabel_many⟩
  · intro pre n rest hflat hrest
    have hlast : c.lastEl = some (Node.separator (hiddenLabel n)) := by
      rw [lastEl_eq_flat, hflat]
      exact lastElementChild_of_split pre rest _ rfl hrest
    rw [insertSeparatorIfNeeded_eq, hlast]
    simp only [matchHidden_hiddenLabel, parseInt_numberToString]
    by_cases hk : n + hiddenLineCount ui text ≠ n
    · rw [if_pos hk, setLastElText_flat, hflat]
      exact setLastElementText_of_split pre rest _ _ rfl hrest
    · rw [if_neg hk, hflat]
      have : n + hiddenLineCount ui text = n := not_not.1 hk
      rw [this]
  · intro hlast hpos
    rw [insertSeparatorIfNeeded_eq]
    cases hl : c.lastEl with
    | none => simp only [gt_iff_lt, hpos, if_true]
    | some m =>
      cases m with
      | separator t => exact absurd hl (hlast t)
      | text _ => simp only [gt_iff_lt, hpos, if_true]
      | br => simp only [gt_iff_lt, hpos, if_true]
      | span _ _ => simp only [gt_iff_lt, hpos, if_true]

/-! ## The prefix test -/

theorem processViewOnlyContext_eq (ui : Flags) (diffs : List DiffOp) (i : Nat)
    (text : JSString) (c : Chunk) :
    processViewOnlyContext ui diffs i text c =
      match afterSuffix text c with
      | none => (c.append (Node.text text)).countVisible
      | some (rest, c') => processRemainingText ui diffs i rest c' := by
  unfold processViewOnlyContext afterSuffix
  cases c.isLineDirty
  · rfl
  · cases indexOfNewline text <;> rfl

theorem newline_not_mem_tail (text : JSString) : 10 ∉ tailAfterLastNewline text := by
  unfold tailAfterLastNewline
  intro h
  have h1 := List.mem_takeWhile_imp (List.mem_reverse.1 h)
  simp at h1

theorem head_ends_with_newline (text : JSString) :
    headThroughLastNewline text = [] ∨ endsWithNewline (headThroughLastNewline text) = true := by
  unfold headThroughLastNewline endsWithNewline
  cases hd : text.reverse.dropWhile (fun c => c != 10) with
  | nil => left; rfl
  | cons x xs =>
    right
    have hx : (fun c => c != 10) x = false := by
      have := List.head_dropWhile_not (fun c => c != 10) text.reverse
        (by rw [hd]; exact List.cons_ne_nil _ _)
      simpa [hd] using this
    have hx10 : x = 10 := by simpa using hx
    rw [List.getLast?_reverse, List.head?_cons, hx10]
    rfl

theorem nextStartsChangedLine_iff (diffs : List DiffOp) (i : Nat) :
    nextStartsChangedLine diffs i = true ↔
      ∃ next, diffs.get? (i + 1) = some next ∧ next.type ≠ DiffType.equal ∧
        startsWithNewline next.text = false := by
  unfold nextStartsChangedLine
  cases h : diffs.get? (i + 1) with
  | none => simp
  | some next => simp

/-- With a carriage return alone in a change, which no text of a textarea holds,
the insertion is ignored under ignoreEnter, yet the context `abc` before it is
emitted as visible text. -/
theorem carriage_return_prefix :
    shouldIgnoreChange (utf16 "\r") true = true ∧
    tailAfterLastNewline (utf16 "abc") = utf16 "abc" ∧
    (renderOp ⟨true, true⟩
      [⟨DiffType.equal, utf16 "abc"⟩, ⟨DiffType.insert, utf16 "\r"⟩] 0 Chunk.start).flat
      = [Node.text (utf16 "abc")] ∧
    (run 2 (render [⟨DiffType.equal, utf16 "abc"⟩, ⟨DiffType.insert, utf16 "\r"⟩]
      (freshRenderer true true))).ui.diffOutput = [Node.text (utf16 "abc")] := by
  decide

/-- The test of `processViewOnlyContext` as the code writes it: the rest left by
the suffix handling is cut after its last newline, and the tail is emitted as
visible text exactly when it is non-empty and the next op is an Insert/Delete
whose text does not match `/^\r?\n/`. -/
theorem renderOp_prefix_split (ui : Flags) (diffs : List DiffOp) (i : Nat) (c : Chunk) (op : DiffOp)
    (rest : JSString) (c' : Chunk)
    (hop : diffs.get? i = some op) (htype : op.type = DiffType.equal)
    (hv : ui.viewOnlyDiff = true) (hs : afterSuffix op.text c = some (rest, c'))
    (hne : rest ≠ []) :
    headThroughLastNewline rest ++ tailAfterLastNewline rest = rest ∧
    10 ∉ tailAfterLastNewline rest ∧
    (headThroughLastNewline rest = [] ∨
      endsWithNewline (headThroughLastNewline rest) = true) ∧
    ((tailAfterLastNewline rest ≠ [] ∧
        ∃ next, diffs.get? (i + 1) = some next ∧ next.type ≠ DiffType.equal ∧
          startsWithNewline next.text = false) →
      renderOp ui diffs i c =
        ((if (headThroughLastNewline rest).isEmpty then c'
          else insertSeparatorIfNeeded ui i (headThroughLastNewline rest) c').append
            (Node.text (tailAfterLastNewline rest))).countVisible) ∧
    (¬ (tailAfterLastNewline rest ≠ [] ∧
        ∃ next, diffs.get? (i + 1) = some next ∧ next.type ≠ DiffType.equal ∧
          startsWithNewline next.text = false) →
      renderOp ui diffs i c = insertSeparatorIfNeeded ui i rest c') ∧
    ((renderOp ui diffs i c).visibleItemCount = c'.visibleItemCount + 1 ↔
      (tailAfterLastNewline rest ≠ [] ∧
        ∃ next, diffs.get? (i + 1) = some next ∧ next.type ≠ DiffType.equal ∧
          startsWithNewline next.text = false)) := by
  have hrender : renderOp ui diffs i c = processRemainingText ui diffs i rest c' := by
    rw [renderOp_eq ui diffs i c op hop]
    have h1 : (decide (op.type = DiffType.equal) && ui.viewOnlyDiff) = true := by
      simp [htype, hv]
    rw [if_pos h1, processViewOnlyContext_eq, hs]
  have hcond : (!(tailAfterLastNewline rest).isEmpty && nextStartsChangedLine diffs i) = true ↔
      (tailAfterLastNewline rest ≠ [] ∧
        ∃ next, diffs.get? (i + 1) = some next ∧ next.type ≠ DiffType.equal ∧
          startsWithNewline next.text = false) := by
    rw [Bool.and_eq_true, nextStartsChangedLine_iff]
    cases tailAfterLastNewline rest <;> simp
  rw [hrender, processRemainingText_eq ui diffs i rest c' hne]
  refine ⟨head_append_tail rest, newline_not_mem_tail rest, head_ends_with_newline rest,
    ?_, ?_, ?_⟩
  · intro h
    rw [if_pos (hcond.2 h)]
  · intro h
    rw [if_neg (fun h' => h (hcond.1 h'))]
  · by_cases h : (!(tailAfterLastNewline rest).isEmpty && nextStartsChangedLine diffs i) = true
    · rw [if_pos h]
      refine ⟨fun _ => hcond.1 h, fun _ => ?_⟩
      show (if (headThroughLastNewline rest).isEmpty then c'
          else insertSeparatorIfNeeded ui i (headThroughLastNewline rest) c').visibleItemCount
            + 1 = c'.visibleItemCount + 1
      cases (headThroughLastNewline rest).isEmpty
      · rw [if_neg (by decide), (insertSeparatorIfNeeded_flags ui i _ c').2]
      · rw [if_pos rfl]
    · rw [if_neg h, (insertSeparatorIfNeeded_flags ui i rest c').2]
      constructor
      · intro h'
        omega
      · intro h'
        exact absurd (hcond.2 h') h

/-! ## The styled fragments of the output -/

theorem styledFragments_append (a b : List Node) :
    styledFragments (a ++ b) = styledFragments a ++ styledFragments b :=
  List.filter_append a b

theorem styled_append_plain (c : Chunk) (n : Node) (hn : n.isStyled = false) :
    styledFragments (c.append n).flat = styledFragments c.flat := by
  rw [append_flat, styledFragments_append]
  have h : styledFragments [n] = [] := List.filter_cons_of_neg (by rw [hn]; decide)
  rw [h, List.append_nil]

theorem styled_mapFirstElement (t s : JSString) : ∀ (x : List Node),
    List.find? Node.isElement x = some (Node.separator s) →
    styledFragments (mapFirstElement (fun _ => Node.separator t) x) = styledFragments x := by
  intro x
  induction x with
  | nil => intro h; cases h
  | cons n x ih =>
    intro h
    by_cases hn : n.isElement = true
    · have hn' : n = Node.separator s := by
        simp only [List.find?, hn] at h
        exact Option.some.inj h
      subst hn'
      rfl
    · have hn' : n.isElement = false := by simpa using hn
      simp only [List.find?, hn'] at h
      have hstep : mapFirstElement (fun _ => Node.separator t) (n :: x)
          = n :: mapFirstElement (fun _ => Node.separator t) x := by
        simp only [mapFirstElement, hn', Bool.false_eq_true, if_false]
      rw [hstep]
      show styledFragments ([n] ++ _) = styledFragments ([n] ++ x)
      rw [styledFragments_append, styledFragments_append, ih h]

theorem styled_setLastElementText (l : List Node) (t s : JSString)
    (h : lastElementChild l = some (Node.separator s)) :
    styledFragments (setLastElementText l t) = styledFragments l := by
  unfold setLastElementText
  unfold lastElementChild at h
  have h1 := styled_mapFirstElement t s l.reverse h
  unfold styledFragments at h1 ⊢
  rw [List.filter_reverse, h1, List.filter_reverse, List.reverse_reverse]

theorem styled_insertSeparatorIfNeeded (ui : Flags) (i : Nat) (text : JSString) (c : Chunk) :
    styledFragments (insertSeparatorIfNeeded ui i text c).flat = styledFragments c.flat := by
  rw [insertSeparatorIfNeeded_eq]
  cases hl : c.lastEl with
  | none =>
    simp only
    by_cases hk : hiddenLineCount ui text > 0
    · rw [if_pos hk]; exact styled_append_plain c _ rfl
    · rw [if_neg hk]
      by_cases hb : (decide (i > 0) && !ui.viewOnlyDiff) = true
      · rw [if_pos hb]; exact styled_append_plain c _ rfl
      · rw [if_neg hb]
  | some n =>
    cases n with
    | separator s =>
      simp only
      cases matchHidden s with
      | none => rfl
      | some m =>
        simp only
        by_cases hk : parseInt m + hiddenLineCount ui text ≠ parseInt m
        · rw [if_pos hk, setLastElText_flat]
          rw [lastEl_eq_flat] at hl
          exact styled_setLastElementText c.flat _ s hl
        · rw [if_neg hk]
    | text _ =>
      simp only
      by_cases hk : hiddenLineCount ui text > 0
      · rw [if_pos hk]; exact styled_append_plain c _ rfl
      · rw [if_neg hk]
        by_cases hb : (decide (i > 0) && !ui.viewOnlyDiff) = true
        · rw [if_pos hb]; exact styled_append_plain c _ rfl
        · rw [if_neg hb]
    | br =>
      simp only
      by_cases hk : hiddenLineCount ui text > 0
      · rw [if_pos hk]; exact styled_append_plain c _ rfl
      · rw [if_neg hk]
        by_cases hb : (decide (i > 0) && !ui.viewOnlyDiff) = true
        · rw [if_pos hb]; exact styled_append_plain c _ rfl
        · rw [if_neg hb]
    | span _ _ =>
      simp only
      by_cases hk : hiddenLineCount ui text > 0
      · rw [if_pos hk]; exact styled_append_plain c _ rfl
      · rw [if_neg hk]
        by_cases hb : (decide (i > 0) && !ui.viewOnlyDiff) = true
        · rw [if_pos hb]; exact styled_append_plain c _ rfl
        · rw [if_neg hb]

theorem styled_processRemainingText (ui : Flags) (diffs : List DiffOp) (i : Nat)
    (text : JSString) (c : Chunk) :
    styledFragments (processRemainingText ui diffs i text c).flat = styledFragments c.flat ∧
    c.visibleItemCount ≤ (processRemainingText ui diffs i text c).visibleItemCount := by
  cases text with
  | nil => exact ⟨rfl, Nat.le_refl _⟩
  | cons x xs =>
    rw [processRemainingText_eq ui diffs i (x :: xs) c (List.cons_ne_nil _ _)]
    by_cases h : (!(tailAfterLastNewline (x :: xs)).isEmpty
        && nextStartsChangedLine diffs i) = true
    · rw [if_pos h]
      cases (headThroughLastNewline (x :: xs)).isEmpty
      · rw [if_neg (by decide)]
        constructor
        · show styledFragments ((insertSeparatorIfNeeded ui i _ c).append _).flat = _
          rw [styled_append_plain _ (Node.text _) rfl, styled_insertSeparatorIfNeeded]
        · show c.visibleItemCount ≤ (insertSeparatorIfNeeded ui i _ c).visibleItemCount + 1
          rw [(insertSeparatorIfNeeded_flags ui i _ c).2]
          exact Nat.le_succ _
      · rw [if_pos rfl]
        exact ⟨styled_append_plain c _ rfl, Nat.le_succ _⟩
    · rw [if_neg h]
      exact ⟨styled_insertSeparatorIfNeeded ui i _ c,
        Nat.le_of_eq (insertSeparatorIfNeeded_flags ui i _ c).2.symm⟩

theorem styled_processViewOnlyContext (ui : Flags) (diffs : List DiffOp) (i : Nat)
    (text : JSString) (c : Chunk) :
    styledFragments (processViewOnlyContext ui diffs i text c).flat = styledFragments c.flat ∧
    c.visibleItemCount ≤ (processViewOnlyContext ui diffs i text c).visibleItemCount := by
  unfold processViewOnlyContext
  cases c.isLineDirty
  · simp only [Bool.false_eq_true, if_false]
    exact styled_processRemainingText ui diffs i text c
  · simp only [if_true]
    cases indexOfNewline text with
    | none => exact ⟨styled_append_plain c _ rfl, Nat.le_succ _⟩
    | some k =>
      simp only
      obtain ⟨h1, h2⟩ := styled_processRemainingText ui diffs i (text.drop (k + 1))
        (Chunk.append
          { (if (text.take k).isEmpty then c
              else (c.append (Node.text (text.take k))).countVisible) with
            isLineDirty := false } Node.br)
      refine ⟨h1.trans ?_, Nat.le_trans ?_ h2⟩
      · cases (text.take k).isEmpty
        · rw [if_neg (by decide)]
          show styledFragments (Chunk.append _ Node.br).flat = _
          rw [styled_append_plain _ Node.br rfl]
          exact styled_append_plain c _ rfl
        · rw [if_pos rfl]
          show styledFragments (Chunk.append _ Node.br).flat = _
          rw [styled_append_plain _ Node.br rfl]
          rfl
      · cases (text.take k).isEmpty
        · rw [if_neg (by decide)]
          exact Nat.le_succ _
        · rw [if_pos rfl]
          exact Nat.le_refl _

theorem foldl_renderPart_visible (ui : Flags) (type : DiffType) (parts : List JSString) :
    ∀ c : Chunk,
    (parts.foldl (renderPart ui type) c).visibleItemCount = c.visibleItemCount +
      (parts.filter
        (fun part => !part.isEmpty && !shouldIgnoreChange part ui.ignoreEnter)).length := by
  induction parts with
  | nil => intro c; rfl
  | cons p ps ih =>
    intro c
    rw [List.foldl_cons, ih]
    cases hp : p.isEmpty
    · rw [renderPart_eq ui type c p hp]
      cases hs : shouldIgnoreChange p ui.ignoreEnter
      · rw [if_neg (by decide), List.filter_cons_of_pos (by rw [hp, hs]; rfl)]
        show c.visibleItemCount + 1 + _ = _
        rw [List.length_cons]
        omega
      · rw [if_pos rfl, List.filter_cons_of_neg (by rw [hp, hs]; decide)]
        rfl
    · have hr : renderPart ui type c p = c := by
        unfold renderPart
        rw [if_pos hp]
      rw [hr, List.filter_cons_of_neg (by rw [hp]; simp)]

theorem exists_shown_part (ignoreEnter : Bool) (text : JSString)
    (hnot : shouldIgnoreChange text ignoreEnter = false)
    (hbr : containsLineBreak text = true) :
    ∃ p ∈ breakParts text, shouldIgnoreChange p ignoreEnter = false := by
  have hne : text ≠ [] := by
    intro h
    rw [h] at hbr
    cases hbr
  cases ignoreEnter with
  | false =>
    cases hb : breakParts text with
    | nil =>
      have := breakParts_flatten text
      rw [hb] at this
      exact absurd this.symm hne
    | cons p ps => exact ⟨p, List.mem_cons_self _ _, shouldIgnoreChange_false p⟩
  | true =>
    by_contra hall
    have hall' : ∀ p ∈ breakParts text, shouldIgnoreChange p true = true := by
      intro p hp
      cases h : shouldIgnoreChange p true
      · exact absurd ⟨p, hp, h⟩ hall
      · rfl
    have hpure : isPureLineBreaks text := by
      refine ⟨hne, ?_⟩
      intro x hx
      rw [← breakParts_flatten text] at hx
      obtain ⟨p, hp, hxp⟩ := List.mem_flatten.1 hx
      exact ((shouldIgnoreChange_true_iff p).1 (hall' p hp)).2 x hxp
    rw [(shouldIgnoreChange_true_iff text).2 hpure] at hnot
    cases hnot

theorem isStyled_of_shown_part (ui : Flags) (type : DiffType) (p : JSString)
    (htype : type ≠ DiffType.equal) (hp : shouldIgnoreChange p ui.ignoreEnter = false) :
    (Node.span (partClass ui type p) p).isStyled = true := by
  unfold partClass
  rw [hp]
  cases type <;> first | exact absurd rfl htype | rfl

theorem changeNodes_styled (ui : Flags) (op : DiffOp) (hshown : isShownChange ui op = true) :
    styledFragments (changeNodes ui op) ≠ [] := by
  unfold isShownChange at hshown
  rw [Bool.and_eq_true] at hshown
  have htype : op.type ≠ DiffType.equal := of_decide_eq_true hshown.1
  have hnot : shouldIgnoreChange op.text ui.ignoreEnter = false := by
    cases h : shouldIgnoreChange op.text ui.ignoreEnter
    · rfl
    · rw [h] at hshown
      exact absurd hshown.2 (by decide)
  unfold changeNodes
  by_cases hbr : containsLineBreak op.text = true
  · rw [if_pos hbr]
    obtain ⟨p, hp, hps⟩ := exists_shown_part ui.ignoreEnter op.text hnot hbr
    have hmem : Node.span (partClass ui op.type p) p ∈
        styledFragments ((breakParts op.text).map
          (fun part => Node.span (partClass ui op.type part) part)) :=
      List.mem_filter.2 ⟨List.mem_map.2 ⟨p, hp, rfl⟩,
        isStyled_of_shown_part ui op.type p htype hps⟩
    exact List.ne_nil_of_mem hmem
  · rw [if_neg hbr]
    cases ht : op.type
    · exact List.cons_ne_nil _ _
    · exact absurd ht htype
    · exact List.cons_ne_nil _ _

theorem changeNodes_congr (ui ui' : Flags) (h : ui.ignoreEnter = ui'.ignoreEnter)
    (op : DiffOp) : changeNodes ui op = changeNodes ui' op := by
  unfold changeNodes partClass
  rw [h]

theorem isShownChange_congr (ui ui' : Flags) (h : ui.ignoreEnter = ui'.ignoreEnter)
    (op : DiffOp) : isShownChange ui op = isShownChange ui' op := by
  unfold isShownChange
  rw [h]

/-- A change that is not ignored adds the same nodes in either mode and is
counted as visible. -/
theorem renderOp_shown (ui : Flags) (diffs : List DiffOp) (i : Nat) (c : Chunk) (op : DiffOp)
    (hop : diffs.get? i = some op) (hshown : isShownChange ui op = true) :
    (renderOp ui diffs i c).flat = c.flat ++ changeNodes ui op ∧
    c.visibleItemCount < (renderOp ui diffs i c).visibleItemCount := by
  unfold isShownChange at hshown
  rw [Bool.and_eq_true] at hshown
  have htype : op.type ≠ DiffType.equal := of_decide_eq_true hshown.1
  have hnot : shouldIgnoreChange op.text ui.ignoreEnter = false := by
    cases h : shouldIgnoreChange op.text ui.ignoreEnter
    · rfl
    · rw [h] at hshown
      exact absurd hshown.2 (by decide)
  have h1 : ¬ (decide (op.type = DiffType.equal) && ui.viewOnlyDiff) = true := by
    simp [htype]
  have h3 : ¬ shouldIgnoreChange op.text ui.ignoreEnter = true := by
    rw [hnot]; decide
  unfold changeNodes
  by_cases hbr : containsLineBreak op.text = true
  · rw [if_pos hbr]
    obtain ⟨r1, r2, _⟩ := renderOp_split ui diffs i c op hop htype hnot hbr
    refine ⟨?_, ?_⟩
    · unfold Chunk.flat
      rw [r1, r2, List.append_assoc]
    · rw [renderOp_eq ui diffs i c op hop, if_neg h1, if_pos htype, if_neg h3, if_pos hbr]
      show c.visibleItemCount < ((splitBreaks op.text).foldl (renderPart ui op.type)
        { c with isLineDirty := !endsWithNewline op.text }).visibleItemCount
      rw [foldl_renderPart_visible]
      obtain ⟨p, hp, hps⟩ := exists_shown_part ui.ignoreEnter op.text hnot hbr
      have hp' := List.mem_filter.1 hp
      have hmem : p ∈ (splitBreaks op.text).filter
          (fun part => !part.isEmpty && !shouldIgnoreChange part ui.ignoreEnter) :=
        List.mem_filter.2 ⟨hp'.1, by rw [Bool.and_eq_true]; exact ⟨hp'.2, by rw [hps]; rfl⟩⟩
      have hpos := List.length_pos_of_mem hmem
      show c.visibleItemCount < c.visibleItemCount + _
      omega
  · rw [if_neg hbr, renderOp_eq ui diffs i c op hop, if_neg h1, if_pos htype, if_neg h3,
      if_neg hbr]
    cases ht : op.type
    · exact ⟨by simp [renderPlain, Chunk.flat, Chunk.append, Chunk.countVisible],
        Nat.lt_succ_self _⟩
    · exact absurd ht htype
    · exact ⟨by simp [renderPlain, Chunk.flat, Chunk.append, Chunk.countVisible],
        Nat.lt_succ_self _⟩

/-- An Equal op or an ignored change adds no styled fragment and alters none. -/
theorem renderOp_hidden (ui : Flags) (diffs : List DiffOp) (i : Nat) (c : Chunk) (op : DiffOp)
    (hop : diffs.get? i = some op) (hshown : isShownChange ui op = false) :
    styledFragments (renderOp ui diffs i c).flat = styledFragments c.flat ∧
    c.visibleItemCount ≤ (renderOp ui diffs i c).visibleItemCount := by
  rw [renderOp_eq ui diffs i c op hop]
  by_cases h1 : (decide (op.type = DiffType.equal) && ui.viewOnlyDiff) = true
  · rw [if_pos h1]
    exact styled_processViewOnlyContext ui diffs i op.text c
  · rw [if_neg h1]
    by_cases htype : op.type ≠ DiffType.equal
    · rw [if_pos htype]
      have hig : shouldIgnoreChange op.text ui.ignoreEnter = true := by
        unfold isShownChange at hshown
        cases h : shouldIgnoreChange op.text ui.ignoreEnter
        · rw [h, decide_eq_true htype] at hshown
          cases hshown
        · rfl
      rw [if_pos hig]
      by_cases hv : ui.viewOnlyDiff = true
      · rw [if_pos hv]
        have hs := styled_insertSeparatorIfNeeded ui i op.text
          { c with isLineDirty := !endsWithNewline op.text }
        have hf := (insertSeparatorIfNeeded_flags ui i op.text
          { c with isLineDirty := !endsWithNewline op.text }).2
        by_cases he : (!endsWithNewline op.text) = true
        · rw [if_pos he]
          exact ⟨hs, Nat.le_of_eq hf.symm⟩
        · rw [if_neg he]
          exact ⟨hs, Nat.le_of_eq hf.symm⟩
      · rw [if_neg hv]
        exact ⟨styled_append_plain { c with isLineDirty := !endsWithNewline op.text }
          (Node.text op.text) rfl, Nat.le_succ _⟩
    · rw [if_neg htype]
      exact ⟨styled_append_plain c (Node.text op.text) rfl, Nat.le_succ _⟩

theorem renderOps_styled (ui : Flags) (diffs : List DiffOp) (n : Nat) :
    ∀ (i : Nat) (c : Chunk), i + n = diffs.length →
    styledFragments (renderOps ui diffs i n c).flat = styledFragments c.flat ++
      styledFragments
        (((diffs.drop i).filter (isShownChange ui)).map (changeNodes ui)).flatten ∧
    c.visibleItemCount ≤ (renderOps ui diffs i n c).visibleItemCount ∧
    ((∃ op ∈ diffs.drop i, isShownChange ui op = true) →
      c.visibleItemCount < (renderOps ui diffs i n c).visibleItemCount) := by
  induction n with
  | zero =>
    intro i c hlen
    have hdrop : diffs.drop i = [] := List.drop_eq_nil_of_le (by omega)
    rw [hdrop]
    refine ⟨(List.append_nil _).symm, Nat.le_refl _, ?_⟩
    intro h
    obtain ⟨op, hop, _⟩ := h
    exact absurd hop (List.not_mem_nil op)
  | succ n ih =>
    intro i c hlen
    have hlt : i < diffs.length := by omega
    have hop : diffs.get? i = some (diffs.get ⟨i, hlt⟩) := List.get?_eq_get hlt
    have hdrop : diffs.drop i = diffs.get ⟨i, hlt⟩ :: diffs.drop (i + 1) :=
      List.drop_eq_getElem_cons hlt
    generalize diffs.get ⟨i, hlt⟩ = op at hop hdrop
    obtain ⟨b1, b2, b3⟩ := ih (i + 1) (renderOp ui diffs i c) (by omega)
    have hstep : renderOps ui diffs i (n + 1) c
        = renderOps ui diffs (i + 1) n (renderOp ui diffs i c) := rfl
    rw [hstep, hdrop]
    cases hs : isShownChange ui op
    · obtain ⟨a1, a2⟩ := renderOp_hidden ui diffs i c op hop hs
      rw [List.filter_cons_of_neg (by rw [hs]; decide)]
      refine ⟨by rw [b1, a1], Nat.le_trans a2 b2, ?_⟩
      intro h
      obtain ⟨op', hmem, hshown⟩ := h
      rcases List.mem_cons.1 hmem with heq | hmem'
      · rw [heq, hs] at hshown
        cases hshown
      · exact Nat.lt_of_le_of_lt a2 (b3 ⟨op', hmem', hshown⟩)
    · obtain ⟨a1, a2⟩ := renderOp_shown ui diffs i c op hop hs
      rw [List.filter_cons_of_pos hs, List.map_cons, List.flatten_cons]
      refine ⟨?_, Nat.le_trans (Nat.le_of_lt a2) b2, fun _ => Nat.lt_of_lt_of_le a2 b2⟩
      rw [b1, a1, styledFragments_append, styledFragments_append, List.append_assoc]

theorem renderInOneStep_shown (ui : Flags) (diffs : List DiffOp)
    (hchange : ∃ op ∈ diffs, isShownChange ui op = true) :
    renderInOneStep ui diffs = (renderOps ui diffs 0 diffs.length Chunk.start).flat ∧
    styledFragments (renderInOneStep ui diffs) = styledFragments
      ((diffs.filter (isShownChange ui)).map (changeNodes ui)).flatten := by
  obtain ⟨h1, _, h3⟩ := renderOps_styled ui diffs diffs.length 0 Chunk.start (Nat.zero_add _)
  have hpos := h3 hchange
  have hout : renderInOneStep ui diffs
      = (renderOps ui diffs 0 diffs.length Chunk.start).flat := by
    unfold renderInOneStep finalCheck
    have hne : ((renderOps ui diffs 0 diffs.length Chunk.start).visibleItemCount == 0)
        = false := by
      rw [beq_eq_false_iff_ne]
      exact Nat.ne_of_gt (Nat.lt_of_le_of_lt (Nat.zero_le _) hpos)
    rw [hne, Bool.and_false]
    rfl
  refine ⟨hout, ?_⟩
  rw [hout, h1]
  rfl

theorem styled_changes_ne_nil (ui : Flags) (diffs : List DiffOp)
    (hchange : ∃ op ∈ diffs, isShownChange ui op = true) :
    styledFragments ((diffs.filter (isShownChange ui)).map (changeNodes ui)).flatten ≠ [] := by
  obtain ⟨op, hmem, hshown⟩ := hchange
  cases hn : styledFragments (changeNodes ui op) with
  | nil => exact absurd hn (changeNodes_styled ui op hshown)
  | cons x xs =>
    have hx : x ∈ styledFragments (changeNodes ui op) := by
      rw [hn]
      exact List.mem_cons_self _ _
    have hx' := List.mem_filter.1 hx
    have hmem' : x ∈ ((diffs.filter (isShownChange ui)).map (changeNodes ui)).flatten :=
      List.mem_flatten.2 ⟨changeNodes ui op,
        List.mem_map.2 ⟨op, List.mem_filter.2 ⟨hmem, hshown⟩, rfl⟩, hx'.1⟩
    exact List.ne_nil_of_mem (List.mem_filter.2 ⟨hmem', hx'.2⟩)

/-- C21: view-only mode never hides or alters a change. For every sequence with
at least one Insert/Delete op that is not ignored, every ignoreEnter setting and
every pair of renderer states with the output attached and that setting in
common, whatever their view-only settings (so for one with view-only mode on
and one with it off): the styled fragments (spans marked diff-add or diff-del,
with their texts, in order) of the two completed outputs are the same list;
that list is made of the spans of the changes that are not ignored, in the
order of the ops, and every such change has at least one span in it; the
completed output is that of the walk over the ops, not the marker
`No changes found`; and a change that is not ignored adds the very same nodes
in both states. -/
theorem viewOnly_keeps_changes (diffs : List DiffOp) (rOn rOff : DiffRenderer) (fuel : Nat)
    (hwfOn : wellFormed rOn = true) (hattOn : rOn.ui.attached = true)
    (hwfOff : wellFormed rOff = true) (hattOff : rOff.ui.attached = true)
    (hfuel : diffs.length ≤ fuel)
    (hie : rOn.ui.ignoreEnter = rOff.ui.ignoreEnter)
    (hchange : ∃ op ∈ diffs, isShownChange rOn.ui.toFlags op = true) :
    styledFragments (run fuel (resume (run fuel (render diffs rOn)))).ui.diffOutput
      = styledFragments (run fuel (resume (run fuel (render diffs rOff)))).ui.diffOutput ∧
    styledFragments (run fuel (resume (run fuel (render diffs rOn)))).ui.diffOutput
      = styledFragments ((diffs.filter (isShownChange rOn.ui.toFlags)).map
          (changeNodes rOn.ui.toFlags)).flatten ∧
    (∀ op ∈ diffs, isShownChange rOn.ui.toFlags op = true →
      styledFragments (changeNodes rOn.ui.toFlags op) ≠ []) ∧
    (run fuel (resume (run fuel (render diffs rOn)))).ui.diffOutput
      ≠ [Node.separator noChangesLabel] ∧
    (run fuel (resume (run fuel (render diffs rOn)))).ui.diffOutput
      = (renderOps rOn.ui.toFlags diffs 0 diffs.length Chunk.start).flat ∧
    (∀ (i : Nat) (op : DiffOp) (c c' : Chunk), diffs.get? i = some op →
      isShownChange rOn.ui.toFlags op = true →
      (renderOp rOn.ui.toFlags diffs i c).flat = c.flat ++ changeNodes rOn.ui.toFlags op ∧
      (renderOp rOff.ui.toFlags diffs i c').flat
        = c'.flat ++ changeNodes rOn.ui.toFlags op) := by
  have hshownEq : isShownChange rOff.ui.toFlags = isShownChange rOn.ui.toFlags :=
    funext (fun op => isShownChange_congr rOff.ui.toFlags rOn.ui.toFlags hie.symm op)
  have hnodesEq : changeNodes rOff.ui.toFlags = changeNodes rOn.ui.toFlags :=
    funext (fun op => changeNodes_congr rOff.ui.toFlags rOn.ui.toFlags hie.symm op)
  have hchangeOff : ∃ op ∈ diffs, isShownChange rOff.ui.toFlags op = true := by
    rw [hshownEq]
    exact hchange
  obtain ⟨on1, on2⟩ := renderInOneStep_shown rOn.ui.toFlags diffs hchange
  obtain ⟨_, off2⟩ := renderInOneStep_shown rOff.ui.toFlags diffs hchangeOff
  rw [hshownEq, hnodesEq] at off2
  rw [(render_completed diffs rOn fuel hwfOn hattOn hfuel).1,
    (render_completed diffs rOff fuel hwfOff hattOff hfuel).1]
  refine ⟨on2.trans off2.symm, on2, fun op _ hs => changeNodes_styled _ op hs, ?_, on1, ?_⟩
  · intro hmarker
    have h := styled_changes_ne_nil rOn.ui.toFlags diffs hchange
    rw [← on2, hmarker] at h
    exact h rfl
  · intro i op c c' hop hs
    refine ⟨(renderOp_shown rOn.ui.toFlags diffs i c op hop hs).1, ?_⟩
    have hs' : isShownChange rOff.ui.toFlags op = true := by
      rw [hshownEq]
      exact hs
    rw [← hnodesEq]
    exact (renderOp_shown rOff.ui.toFlags diffs i c' op hop hs').1

/-- Witness for C21: context, an insertion over two lines, an ignored deletion
of a line break and more context, with ignoreEnter on, on a fresh renderer in
view-only mode and on one in the full view. -/
theorem viewOnly_keeps_changes_witness :
    styledFragments (run 4 (resume (run 4 (render
        [⟨DiffType.equal, utf16 "a\nb"⟩, ⟨DiffType.insert, utf16 "x\ny"⟩,
          ⟨DiffType.delete, utf16 "\n"⟩, ⟨DiffType.equal, utf16 "c\n"⟩]
        (freshRenderer true true))))).ui.diffOutput
      = styledFragments (run 4 (resume (run 4 (render
        [⟨DiffType.equal, utf16 "a\nb"⟩, ⟨DiffType.insert, utf16 "x\ny"⟩,
          ⟨DiffType.delete, utf16 "\n"⟩, ⟨DiffType.equal, utf16 "c\n"⟩]
        (freshRenderer true false))))).ui.diffOutput ∧
    styledFragments (run 4 (resume (run 4 (render
        [⟨DiffType.equal, utf16 "a\nb"⟩, ⟨DiffType.insert, utf16 "x\ny"⟩,
          ⟨DiffType.delete, utf16 "\n"⟩, ⟨DiffType.equal, utf16 "c\n"⟩]
        (freshRenderer true true))))).ui.diffOutput
      = [Node.span SpanClass.diffAdd (utf16 "x"), Node.span SpanClass.diffAdd (utf16 "y")] :=
  ⟨(viewOnly_keeps_changes
      [⟨DiffType.equal, utf16 "a\nb"⟩, ⟨DiffType.insert, utf16 "x\ny"⟩,
        ⟨DiffType.delete, utf16 "\n"⟩, ⟨DiffType.equal, utf16 "c\n"⟩]
      (freshRenderer true true) (freshRenderer true false) 4 rfl rfl rfl rfl (by decide)
      rfl
      ⟨⟨DiffType.insert, utf16 "x\ny"⟩, by decide, by decide⟩).1,
   (viewOnly_keeps_changes
      [⟨DiffType.equal, utf16 "a\nb"⟩, ⟨DiffType.insert, utf16 "x\ny"⟩,
        ⟨DiffType.delete, utf16 "\n"⟩, ⟨DiffType.equal, utf16 "c\n"⟩]
      (freshRenderer true true) (freshRenderer true false) 4 rfl rfl rfl rfl (by decide)
      rfl
      ⟨⟨DiffType.insert, utf16 "x\ny"⟩, by decide, by decide⟩).2.1⟩

/-! ## The prefix test on texts without carriage returns -/

theorem startsWithNewline_eq_of_no_cr (text : JSString) (h : 13 ∉ text) :
    startsWithNewline text = startsWithLineBreak text := by
  cases text with
  | nil => rfl
  | cons c cs =>
    have hc : c ≠ 13 := fun e => h (e ▸ List.mem_cons_self _ _)
    by_cases h10 : c = 10
    · subst h10
      rfl
    · have h1 : startsWithLineBreak (c :: cs) = false := by
        simp [startsWithLineBreak, isLineBreak, hc, h10]
      rw [h1]
      unfold startsWithNewline
      split <;> simp_all

theorem not_ignored_of_not_startsWithLineBreak (text : JSString) (ignoreEnter : Bool)
    (h : startsWithLineBreak text = false) : shouldIgnoreChange text ignoreEnter = false := by
  cases text with
  | nil => cases ignoreEnter <;> rfl
  | cons c cs =>
    have hc : isLineBreak c = false := h
    cases ignoreEnter
    · rfl
    · simp [shouldIgnoreChange, hc]

theorem nextStartsChangedLine_eq_spec (ui : Flags) (diffs : List DiffOp) (i : Nat)
    (hcr : ∀ d ∈ diffs, 13 ∉ d.text) :
    nextStartsChangedLine diffs i =
      match diffs.get? (i + 1) with
      | some next => isShownChange ui next && !startsWithLineBreak next.text
      | none => false := by
  unfold nextStartsChangedLine
  cases hn : diffs.get? (i + 1) with
  | none => rfl
  | some next =>
    have hmem : next ∈ diffs := List.get?_mem hn
    simp only
    rw [startsWithNewline_eq_of_no_cr next.text (hcr next hmem)]
    unfold isShownChange
    cases hs : startsWithLineBreak next.text
    · rw [not_ignored_of_not_startsWithLineBreak next.text ui.ignoreEnter hs]
      simp
    · simp

theorem takeWhile_congr_mem (p q : Nat → Bool) : ∀ (l : JSString),
    (∀ x ∈ l, p x = q x) → l.takeWhile p = l.takeWhile q := by
  intro l
  induction l with
  | nil => intro _; rfl
  | cons x xs ih =>
    intro h
    have hx := h x (List.mem_cons_self _ _)
    have hxs := ih (fun y hy => h y (List.mem_cons_of_mem _ hy))
    simp only [List.takeWhile, hx, hxs]

theorem tail_eq_tailAfterLastBreak (text : JSString) (h : 13 ∉ text) :
    tailAfterLastNewline text = tailAfterLastBreak text := by
  unfold tailAfterLastNewline tailAfterLastBreak
  congr 1
  apply takeWhile_congr_mem
  intro x hx
  have hx13 : x ≠ 13 := fun e => h (e ▸ List.mem_reverse.1 hx)
  by_cases h10 : x = 10
  · subst h10; rfl
  · have e13 : (x == 13) = false := by simpa using hx13
    have e10 : (x == 10) = false := by simpa using h10
    simp only [isLineBreak, bne, e13, e10]
    rfl

theorem takeWhile_append_stop (p : Nat → Bool) (y : Nat) (z : JSString) (hy : p y = false) :
    ∀ (x : JSString), (x ++ y :: z).takeWhile p = x.takeWhile p := by
  intro x
  induction x with
  | nil => simp [List.takeWhile, hy]
  | cons a x ih =>
    show (a :: (x ++ y :: z)).takeWhile p = (a :: x).takeWhile p
    cases ha : p a
    · simp only [List.takeWhile, ha]
    · simp only [List.takeWhile, ha]
      rw [ih]

theorem tail_after_newline (a b : JSString) :
    tailAfterLastNewline (a ++ 10 :: b) = tailAfterLastNewline b := by
  unfold tailAfterLastNewline
  congr 1
  rw [List.reverse_append, List.reverse_cons, List.append_assoc]
  exact takeWhile_append_stop _ 10 a.reverse (by decide) b.reverse

theorem indexOfNewline_split : ∀ (text : JSString) (k : Nat),
    indexOfNewline text = some k → text = text.take k ++ 10 :: text.drop (k + 1) := by
  intro text
  induction text with
  | nil => intro k h; cases h
  | cons c cs ih =>
    intro k h
    unfold indexOfNewline at h
    by_cases hc : c = 10
    · rw [if_pos hc] at h
      have hk : k = 0 := (Option.some.inj h).symm
      subst hk
      subst hc
      rfl
    · rw [if_neg hc] at h
      cases hi : indexOfNewline cs with
      | none => rw [hi] at h; cases h
      | some j =>
        rw [hi] at h
        have hk : k = j + 1 := (Option.some.inj h).symm
        subst hk
        have := ih j hi
        show c :: cs = c :: (cs.take j ++ 10 :: cs.drop (j + 1))
        rw [← this]

theorem tail_of_afterSuffix (text : JSString) (c : Chunk) (rest : JSString) (c' : Chunk)
    (h : afterSuffix text c = some (rest, c')) :
    tailAfterLastNewline rest = tailAfterLastNewline text := by
  unfold afterSuffix at h
  cases hd : c.isLineDirty
  · rw [hd] at h
    simp only [Bool.false_eq_true, if_false, Option.some.injEq, Prod.mk.injEq] at h
    rw [h.1]
  · rw [hd] at h
    simp only [if_true] at h
    cases hi : indexOfNewline text with
    | none => rw [hi] at h; cases h
    | some k =>
      rw [hi] at h
      simp only [Option.some.injEq, Prod.mk.injEq] at h
      rw [← h.1]
      have hsplit := indexOfNewline_split text k hi
      conv_rhs => rw [hsplit]
      rw [tail_after_newline]

theorem prefixTestOfSpec_eq (ui : Flags) (diffs : List DiffOp) (i : Nat) (tail : JSString)
    (hcr : ∀ d ∈ diffs, 13 ∉ d.text) :
    (!tail.isEmpty && nextStartsChangedLine diffs i) = prefixTestOfSpec ui diffs i tail := by
  unfold prefixTestOfSpec
  rw [nextStartsChangedLine_eq_spec ui diffs i hcr]

/-- C14: the prefix test of the collapsing transform, on the texts the page
hands to the renderer (textarea values, which hold no carriage return). In
view-only mode, for every Equal op at position i and every state: the text the
suffix handling leaves is cut after its last line break, the tail being the
text after the last line break of the op; the tail is emitted as visible text
if and only if it is non-empty and the op at position i+1 exists, is an
Insert/Delete that is not ignored under the current ignoreEnter setting, and
has a text that does not start with a line break; in every other case the tail
is folded into the hidden part, the whole rest going to
`insertSeparatorIfNeeded`. On a line that is not dirty the suffix handling
leaves the whole text; on a dirty line a text without newline is the suffix as a
whole and no test is made. -/
theorem prefix_test (ui : Flags) (diffs : List DiffOp) (i : Nat) (c : Chunk) (op : DiffOp)
    (hop : diffs.get? i = some op) (htype : op.type = DiffType.equal)
    (hv : ui.viewOnlyDiff = true) (hcr : ∀ d ∈ diffs, 13 ∉ d.text) :
    (c.isLineDirty = false → afterSuffix op.text c = some (op.text, c)) ∧
    (afterSuffix op.text c = none →
      c.isLineDirty = true ∧
      renderOp ui diffs i c = (c.append (Node.text op.text)).countVisible) ∧
    (∀ rest c', afterSuffix op.text c = some (rest, c') →
      tailAfterLastNewline rest = tailAfterLastBreak op.text ∧
      headThroughLastNewline rest ++ tailAfterLastNewline rest = rest ∧
      (prefixTestOfSpec ui diffs i (tailAfterLastNewline rest) = true →
        renderOp ui diffs i c =
          ((if (headThroughLastNewline rest).isEmpty then c'
            else insertSeparatorIfNeeded ui i (headThroughLastNewline rest) c').append
              (Node.text (tailAfterLastNewline rest))).countVisible) ∧
      (prefixTestOfSpec ui diffs i (tailAfterLastNewline rest) = false →
        renderOp ui diffs i c =
          if rest.isEmpty then c' else insertSeparatorIfNeeded ui i rest c') ∧
      ((renderOp ui diffs i c).visibleItemCount = c'.visibleItemCount + 1 ↔
        prefixTestOfSpec ui diffs i (tailAfterLastNewline rest) = true)) := by
  have h1 : (decide (op.type = DiffType.equal) && ui.viewOnlyDiff) = true := by
    simp [htype, hv]
  have hrender : renderOp ui diffs i c = processViewOnlyContext ui diffs i op.text c := by
    rw [renderOp_eq ui diffs i c op hop, if_pos h1]
  have hopcr : 13 ∉ op.text := hcr op (List.get?_mem hop)
  refine ⟨?_, ?_, ?_⟩
  · intro hd
    unfold afterSuffix
    rw [hd]
    rfl
  · intro hnone
    refine ⟨?_, ?_⟩
    · cases hd : c.isLineDirty
      · unfold afterSuffix at hnone
        rw [hd] at hnone
        cases hnone
      · rfl
    · rw [hrender, processViewOnlyContext_eq, hnone]
  · intro rest c' hs
    have htail : tailAfterLastNewline rest = tailAfterLastBreak op.text := by
      rw [tail_of_afterSuffix op.text c rest c' hs]
      exact tail_eq_tailAfterLastBreak op.text hopcr
    refine ⟨htail, head_append_tail rest, ?_⟩
    rw [hrender, processViewOnlyContext_eq, hs]
    simp only
    cases rest with
    | nil =>
      have hp : prefixTestOfSpec ui diffs i (tailAfterLastNewline []) = false := rfl
      have hr : processRemainingText ui diffs i [] c' = c' := rfl
      rw [hp, hr]
      refine ⟨fun h => (by cases h), fun _ => rfl, ?_⟩
      constructor
      · intro h; omega
      · intro h; cases h
    | cons x xs =>
      rw [processRemainingText_eq ui diffs i (x :: xs) c' (List.cons_ne_nil _ _),
        prefixTestOfSpec_eq ui diffs i _ hcr]
      cases hp : prefixTestOfSpec ui diffs i (tailAfterLastNewline (x :: xs))
      · rw [if_neg (by decide)]
        refine ⟨fun h => (by cases h), fun _ => rfl, ?_⟩
        rw [(insertSeparatorIfNeeded_flags ui i (x :: xs) c').2]
        constructor
        · intro h; omega
        · intro h; cases h
      · rw [if_pos rfl]
        refine ⟨fun _ => rfl, fun h => (by cases h), ?_⟩
        refine ⟨fun _ => rfl, fun _ => ?_⟩
        show (if (headThroughLastNewline (x :: xs)).isEmpty then c'
            else insertSeparatorIfNeeded ui i (headThroughLastNewline (x :: xs))
              c').visibleItemCount + 1 = c'.visibleItemCount + 1
        cases (headThroughLastNewline (x :: xs)).isEmpty
        · rw [if_neg (by decide), (insertSeparatorIfNeeded_flags ui i _ c').2]
        · rw [if_pos rfl]

/-- Witness for C14: the context `a\nb` before the insertion of `x`, and the
same context before the ignored insertion of a line break, in view-only mode
with ignoreEnter on. -/
theorem prefix_test_witness :
    renderOp ⟨true, true⟩
      [⟨DiffType.equal, utf16 "a\nb"⟩, ⟨DiffType.insert, utf16 "x"⟩] 0 Chunk.start
      = ((if (headThroughLastNewline (utf16 "a\nb")).isEmpty then Chunk.start
          else insertSeparatorIfNeeded ⟨true, true⟩ 0 (headThroughLastNewline (utf16 "a\nb"))
            Chunk.start).append
            (Node.text (tailAfterLastNewline (utf16 "a\nb")))).countVisible ∧
    renderOp ⟨true, true⟩
      [⟨DiffType.equal, utf16 "a\nb"⟩, ⟨DiffType.insert, utf16 "\n"⟩] 0 Chunk.start
      = (if (utf16 "a\nb").isEmpty then Chunk.start
          else insertSeparatorIfNeeded ⟨true, true⟩ 0 (utf16 "a\nb") Chunk.start) :=
  ⟨((prefix_test ⟨true, true⟩
      [⟨DiffType.equal, utf16 "a\nb"⟩, ⟨DiffType.insert, utf16 "x"⟩] 0 Chunk.start
      ⟨DiffType.equal, utf16 "a\nb"⟩ rfl rfl rfl (by decide)).2.2
      (utf16 "a\nb") Chunk.start rfl).2.2.1 (by decide),
   ((prefix_test ⟨true, true⟩
      [⟨DiffType.equal, utf16 "a\nb"⟩, ⟨DiffType.insert, utf16 "\n"⟩] 0 Chunk.start
      ⟨DiffType.equal, utf16 "a\nb"⟩ rfl rfl rfl (by decide)).2.2
      (utf16 "a\nb") Chunk.start rfl).2.2.2.1 (by decide)⟩

/-! ## Separators during a walk in view-only mode -/

theorem labelled_nil : labelled [] := fun _ h => absurd h (List.not_mem_nil _)

theorem labelled_append (l nodes : List Node) (hl : labelled l)
    (hn : ∀ t, Node.separator t ∈ nodes → ∃ n, t = hiddenLabel n) :
    labelled (l ++ nodes) := by
  intro t ht
  rcases List.mem_append.1 ht with h | h
  · exact hl t h
  · exact hn t h

theorem labelled_concat_plain (l : List Node) (n : Node) (hl : labelled l)
    (hn : ∀ t, n ≠ Node.separator t) : labelled (l ++ [n]) :=
  labelled_append l [n] hl (fun t ht => absurd (List.mem_singleton.1 ht).symm (hn t))

theorem labelled_concat_separator (l : List Node) (k : Nat) (hl : labelled l) :
    labelled (l ++ [Node.separator (hiddenLabel k)]) :=
  labelled_append l _ hl (fun t ht => by
    have h := List.mem_singleton.1 ht
    exact ⟨k, Node.separator.inj h⟩)

theorem lastElementChild_concat_element (l : List Node) (n : Node) (hn : n.isElement = true) :
    lastElementChild (l ++ [n]) = some n := by
  have h : lastElementChild [n] = some n := by
    simp [lastElementChild, List.find?, hn]
  rw [lastElementChild_append, h]

theorem lastElementChild_concat_text (l : List Node) (n : Node) (hn : n.isElement = false) :
    lastElementChild (l ++ [n]) = lastElementChild l := by
  have h : lastElementChild [n] = none := by
    simp [lastElementChild, List.find?, hn]
  rw [lastElementChild_append, h]

theorem separatorIsLast_nil : separatorIsLast [] := fun t h => by cases h

theorem separatorIsLast_concat_element (l : List Node) (n : Node) (hn : n.isElement = true) :
    separatorIsLast (l ++ [n]) := by
  intro t ht
  rw [lastElementChild_concat_element l n hn] at ht
  rw [List.getLast?_concat, ht]

theorem separatorIsLast_concat_text (l : List Node) (n : Node) (hn : n.isElement = false)
    (hl : ∀ t, lastElementChild l ≠ some (Node.separator t)) :
    separatorIsLast (l ++ [n]) := by
  intro t ht
  rw [lastElementChild_concat_text l n hn] at ht
  exact absurd ht (hl t)

theorem mem_of_lastElementChild (l : List Node) (n : Node)
    (h : lastElementChild l = some n) : n ∈ l :=
  List.mem_reverse.1 (List.mem_of_find?_eq_some h)

theorem isElement_of_lastElementChild (l : List Node) (n : Node)
    (h : lastElementChild l = some n) : n.isElement = true :=
  List.find?_some h

theorem lastElementChild_of_getLast (l : List Node) (n : Node) (hn : n.isElement = true)
    (h : l.getLast? = some n) : lastElementChild l = some n := by
  obtain ⟨pre, hpre⟩ := List.getLast?_eq_some_iff.1 h
  rw [hpre]
  exact lastElementChild_concat_element pre n hn

/-- In view-only mode `insertSeparatorIfNeeded` keeps the labels and leaves no
text node after a separator at the end. -/
theorem insertSeparatorIfNeeded_inv (ui : Flags) (i : Nat) (text : JSString) (c : Chunk)
    (hv : ui.viewOnlyDiff = true) (hl : labelled c.flat) (hs : separatorIsLast c.flat) :
    labelled (insertSeparatorIfNeeded ui i text c).flat ∧
    separatorIsLast (insertSeparatorIfNeeded ui i text c).flat := by
  by_cases hsep : ∃ t, lastElementChild c.flat = some (Node.separator t)
  · obtain ⟨t, ht⟩ := hsep
    obtain ⟨pre, hpre⟩ := List.getLast?_eq_some_iff.1 (hs t ht)
    obtain ⟨n, hn⟩ := hl t (mem_of_lastElementChild _ _ ht)
    subst hn
    have hflat := (insertSeparatorIfNeeded_merge ui i text c).1 pre n [] hpre
      (fun x hx => absurd hx (List.not_mem_nil x))
    rw [hflat]
    refine ⟨?_, separatorIsLast_concat_element pre _ rfl⟩
    apply labelled_concat_separator
    intro t' ht'
    exact hl t' (by rw [hpre]; exact List.mem_append_left _ ht')
  · have hlast : ∀ t, c.lastEl ≠ some (Node.separator t) := by
      intro t ht
      rw [lastEl_eq_flat] at ht
      exact hsep ⟨t, ht⟩
    by_cases hk : 0 < hiddenLineCount ui text
    · rw [(insertSeparatorIfNeeded_merge ui i text c).2.1 hlast hk, append_flat]
      exact ⟨labelled_concat_separator _ _ hl, separatorIsLast_concat_element _ _ rfl⟩
    · have h0 : hiddenLineCount ui text = 0 := by omega
      rw [insertSeparatorIfNeeded_zero_viewOnly ui i text c h0 hv]
      exact ⟨hl, hs⟩

theorem processRemainingText_dirty (ui : Flags) (diffs : List DiffOp) (i : Nat)
    (text : JSString) (c : Chunk) :
    (processRemainingText ui diffs i text c).isLineDirty = c.isLineDirty := by
  cases text with
  | nil => rfl
  | cons x xs =>
    rw [processRemainingText_eq ui diffs i (x :: xs) c (List.cons_ne_nil _ _)]
    by_cases h : (!(tailAfterLastNewline (x :: xs)).isEmpty
        && nextStartsChangedLine diffs i) = true
    · rw [if_pos h]
      cases (headThroughLastNewline (x :: xs)).isEmpty
      · rw [if_neg (by decide)]
        exact (insertSeparatorIfNeeded_flags ui i _ c).1
      · rw [if_pos rfl]
        rfl
    · rw [if_neg h]
      exact (insertSeparatorIfNeeded_flags ui i _ c).1

theorem shown_of_nextStartsChangedLine (ui : Flags) (diffs : List DiffOp) (i : Nat)
    (hcr : ∀ d ∈ diffs, 13 ∉ d.text) (h : nextStartsChangedLine diffs i = true) :
    ∃ op, diffs.get? (i + 1) = some op ∧ isShownChange ui op = true := by
  rw [nextStartsChangedLine_eq_spec ui diffs i hcr] at h
  cases hn : diffs.get? (i + 1) with
  | none => rw [hn] at h; cases h
  | some next =>
    rw [hn] at h
    simp only [Bool.and_eq_true] at h
    exact ⟨next, rfl, h.1⟩

theorem processRemainingText_inv (ui : Flags) (diffs : List DiffOp) (i : Nat)
    (text : JSString) (c : Chunk) (hv : ui.viewOnlyDiff = true)
    (hcr : ∀ d ∈ diffs, 13 ∉ d.text)
    (hl : labelled c.flat) (hs : separatorIsLast c.flat) :
    labelled (processRemainingText ui diffs i text c).flat ∧
    (separatorIsLast (processRemainingText ui diffs i text c).flat ∨
      ∃ op, diffs.get? (i + 1) = some op ∧ isShownChange ui op = true) := by
  cases text with
  | nil => exact ⟨hl, Or.inl hs⟩
  | cons x xs =>
    rw [processRemainingText_eq ui diffs i (x :: xs) c (List.cons_ne_nil _ _)]
    by_cases h : (!(tailAfterLastNewline (x :: xs)).isEmpty
        && nextStartsChangedLine diffs i) = true
    · rw [if_pos h]
      rw [Bool.and_eq_true] at h
      refine ⟨?_, Or.inr (shown_of_nextStartsChangedLine ui diffs i hcr h.2)⟩
      have hflat : ∀ (y : Chunk), y.countVisible.flat = y.flat := fun _ => rfl
      rw [hflat, append_flat]
      apply labelled_concat_plain
      · cases (headThroughLastNewline (x :: xs)).isEmpty
        · rw [if_neg (by decide)]
          exact (insertSeparatorIfNeeded_inv ui i _ c hv hl hs).1
        · rw [if_pos rfl]
          exact hl
      · intro t ht
        cases ht
    · rw [if_neg h]
      have := insertSeparatorIfNeeded_inv ui i (x :: xs) c hv hl hs
      exact ⟨this.1, Or.inl this.2⟩

theorem afterSuffix_inv (text : JSString) (c : Chunk) (rest : JSString) (c' : Chunk)
    (hl : labelled c.flat) (hs : separatorIsLast c.flat)
    (h : afterSuffix text c = some (rest, c')) :
    labelled c'.flat ∧ separatorIsLast c'.flat ∧ c'.isLineDirty = false := by
  unfold afterSuffix at h
  cases hd : c.isLineDirty
  · rw [hd] at h
    simp only [Bool.false_eq_true, if_false, Option.some.injEq, Prod.mk.injEq] at h
    rw [← h.2]
    exact ⟨hl, hs, hd⟩
  · rw [hd] at h
    simp only [if_true] at h
    cases hi : indexOfNewline text with
    | none => rw [hi] at h; cases h
    | some k =>
      rw [hi] at h
      simp only [Option.some.injEq, Prod.mk.injEq] at h
      rw [← h.2]
      refine ⟨?_, ?_, rfl⟩
      · rw [append_flat]
        apply labelled_concat_plain
        · cases (text.take k).isEmpty
          · rw [if_neg (by decide)]
            show labelled (c.append (Node.text (text.take k))).flat
            rw [append_flat]
            exact labelled_concat_plain _ _ hl (fun t ht => by cases ht)
          · rw [if_pos rfl]
            exact hl
        · intro t ht
          cases ht
      · rw [append_flat]
        exact separatorIsLast_concat_element _ _ rfl

theorem changeNodes_spans (ui : Flags) (op : DiffOp) :
    ∀ n ∈ changeNodes ui op, ∃ cls t, n = Node.span cls t := by
  intro n hn
  unfold changeNodes at hn
  by_cases hbr : containsLineBreak op.text = true
  · rw [if_pos hbr] at hn
    obtain ⟨p, _, hp⟩ := List.mem_map.1 hn
    exact ⟨_, _, hp.symm⟩
  · rw [if_neg hbr] at hn
    exact ⟨_, _, List.mem_singleton.1 hn⟩

theorem lastElementChild_append_spans (l nodes : List Node) (hne : nodes ≠ [])
    (hsp : ∀ n ∈ nodes, ∃ cls t, n = Node.span cls t) :
    ∃ cls t, lastElementChild (l ++ nodes) = some (Node.span cls t) := by
  cases hr : nodes.reverse with
  | nil => exact absurd (List.reverse_eq_nil_iff.1 hr) hne
  | cons x xs =>
    have hx : x ∈ nodes := List.mem_reverse.1 (by rw [hr]; exact List.mem_cons_self _ _)
    obtain ⟨cls, t, hxs⟩ := hsp x hx
    refine ⟨cls, t, ?_⟩
    have h : lastElementChild nodes = some (Node.span cls t) := by
      unfold lastElementChild
      rw [hr, hxs]
      rfl
    rw [lastElementChild_append, h]

theorem endsWithNewline_of_pure (text : JSString) (hp : isPureLineBreaks text)
    (hcr : 13 ∉ text) : endsWithNewline text = true := by
  unfold endsWithNewline
  obtain ⟨hne, hall⟩ := hp
  have hlast : text.getLast? = some (text.getLast hne) := List.getLast?_eq_getLast _ hne
  have hmem : text.getLast hne ∈ text := List.getLast_mem hne
  have h10 : text.getLast hne = 10 := by
    rcases hall _ hmem with h | h
    · exact absurd (h ▸ hmem) hcr
    · exact h
  rw [hlast, h10]
  rfl

theorem renderOp_ignored (ui : Flags) (diffs : List DiffOp) (i : Nat) (c : Chunk)
    (op : DiffOp) (hop : diffs.get? i = some op) (htype : op.type ≠ DiffType.equal)
    (hig : shouldIgnoreChange op.text ui.ignoreEnter = true) (hv : ui.viewOnlyDiff = true) :
    (renderOp ui diffs i c).flat
      = (insertSeparatorIfNeeded ui i op.text
          { c with isLineDirty := !endsWithNewline op.text }).flat ∧
    (renderOp ui diffs i c).isLineDirty = !endsWithNewline op.text := by
  have h1 : ¬ (decide (op.type = DiffType.equal) && ui.viewOnlyDiff) = true := by
    simp [htype]
  rw [renderOp_eq ui diffs i c op hop, if_neg h1, if_pos htype, if_pos hig, if_pos hv]
  by_cases he : (!endsWithNewline op.text) = true
  · rw [if_pos he]
    exact ⟨rfl, he.symm⟩
  · rw [if_neg he]
    exact ⟨rfl, (insertSeparatorIfNeeded_flags ui i op.text _).1⟩

theorem separatorIsLast_of_hidden (ui : Flags) (diffs : List DiffOp) (i : Nat) (c : Chunk)
    (op : DiffOp) (hinv : walkInv ui diffs i c) (hop : diffs.get? i = some op)
    (hs : isShownChange ui op = false) : separatorIsLast c.flat := by
  rcases hinv.2.2 with h | ⟨op', hop', hs'⟩
  · exact h
  · rw [hop] at hop'
    rw [← Option.some.inj hop', hs] at hs'
    cases hs'

/-- One op keeps what holds of the walk. -/
theorem renderOp_inv (ui : Flags) (diffs : List DiffOp) (i : Nat) (c : Chunk) (op : DiffOp)
    (hv : ui.viewOnlyDiff = true) (hcr : ∀ d ∈ diffs, 13 ∉ d.text)
    (hop : diffs.get? i = some op) (hinv : walkInv ui diffs i c) :
    walkInv ui diffs (i + 1) (renderOp ui diffs i c) := by
  cases hs : isShownChange ui op
  · have hsil := separatorIsLast_of_hidden ui diffs i c op hinv hop hs
    by_cases htype : op.type = DiffType.equal
    · have h1 : (decide (op.type = DiffType.equal) && ui.viewOnlyDiff) = true := by
        simp [htype, hv]
      rw [renderOp_eq ui diffs i c op hop, if_pos h1, processViewOnlyContext_eq]
      cases ha : afterSuffix op.text c with
      | none =>
        have hd : c.isLineDirty = true := by
          cases hd : c.isLineDirty
          · unfold afterSuffix at ha
            rw [hd] at ha
            cases ha
          · rfl
        simp only
        have hflat : ((c.append (Node.text op.text)).countVisible).flat
            = c.flat ++ [Node.text op.text] := append_flat c _
        refine ⟨?_, ?_, Or.inl ?_⟩
        · rw [hflat]
          exact labelled_concat_plain _ _ hinv.1 (fun t ht => by cases ht)
        · intro _ t
          rw [hflat, lastElementChild_concat_text _ (Node.text op.text) rfl]
          exact hinv.2.1 hd t
        · rw [hflat]
          exact separatorIsLast_concat_text _ _ rfl (hinv.2.1 hd)
      | some p =>
        obtain ⟨rest, c'⟩ := p
        simp only
        obtain ⟨a1, a2, a3⟩ := afterSuffix_inv op.text c rest c' hinv.1 hsil ha
        obtain ⟨b1, b2⟩ := processRemainingText_inv ui diffs i rest c' hv hcr a1 a2
        refine ⟨b1, ?_, b2⟩
        intro hd
        rw [processRemainingText_dirty, a3] at hd
        cases hd
    · have hig : shouldIgnoreChange op.text ui.ignoreEnter = true := by
        unfold isShownChange at hs
        cases h : shouldIgnoreChange op.text ui.ignoreEnter
        · rw [h, decide_eq_true htype] at hs
          cases hs
        · rfl
      have hie : ui.ignoreEnter = true := by
        cases h : ui.ignoreEnter
        · rw [h, shouldIgnoreChange_false] at hig
          cases hig
        · rfl
      have hpure : isPureLineBreaks op.text := by
        rw [hie] at hig
        exact (shouldIgnoreChange_true_iff op.text).1 hig
      obtain ⟨r1, r2⟩ := renderOp_ignored ui diffs i c op hop htype hig hv
      have h0 := hiddenLineCount_of_pure ui op.text hie hpure
      rw [insertSeparatorIfNeeded_zero_viewOnly ui i op.text _ h0 hv] at r1
      have hflat : (renderOp ui diffs i c).flat = c.flat := r1
      have hdirty : (renderOp ui diffs i c).isLineDirty = false := by
        rw [r2, endsWithNewline_of_pure op.text hpure (hcr op (List.get?_mem hop))]
        rfl
      refine ⟨?_, ?_, Or.inl ?_⟩
      · rw [hflat]; exact hinv.1
      · intro hd
        rw [hdirty] at hd
        cases hd
      · rw [hflat]; exact hsil
  · obtain ⟨hflat, _⟩ := renderOp_shown ui diffs i c op hop hs
    have hne : changeNodes ui op ≠ [] := by
      intro h
      have := changeNodes_styled ui op hs
      rw [h] at this
      exact this rfl
    obtain ⟨cls, t, hlast⟩ :=
      lastElementChild_append_spans c.flat (changeNodes ui op) hne (changeNodes_spans ui op)
    refine ⟨?_, ?_, Or.inl ?_⟩
    · rw [hflat]
      apply labelled_append _ _ hinv.1
      intro t' ht'
      obtain ⟨cls', t'', h⟩ := changeNodes_spans ui op _ ht'
      cases h
    · intro _ t'
      rw [hflat, hlast]
      intro h
      cases h
    · intro t' ht'
      rw [hflat, hlast] at ht'
      cases ht'

theorem walkInv_start (ui : Flags) (diffs : List DiffOp) : walkInv ui diffs 0 Chunk.start :=
  ⟨labelled_nil, fun h => (by cases h), Or.inl separatorIsLast_nil⟩

theorem renderOps_succ_right (ui : Flags) (diffs : List DiffOp) (n : Nat) (c : Chunk) :
    renderOps ui diffs 0 (n + 1) c = renderOp ui diffs n (renderOps ui diffs 0 n c) := by
  rw [renderOps_add ui diffs n 1 0 c, Nat.zero_add]
  rfl

theorem walkInv_walk (ui : Flags) (diffs : List DiffOp) (hv : ui.viewOnlyDiff = true)
    (hcr : ∀ d ∈ diffs, 13 ∉ d.text) :
    ∀ i, i ≤ diffs.length → walkInv ui diffs i (renderOps ui diffs 0 i Chunk.start) := by
  intro i
  induction i with
  | zero => intro _; exact walkInv_start ui diffs
  | succ n ih =>
    intro hle
    have hlt : n < diffs.length := hle
    rw [renderOps_succ_right]
    exact renderOp_inv ui diffs n _ (diffs.get ⟨n, hlt⟩) hv hcr (List.get?_eq_get hlt)
      (ih (Nat.le_of_lt hlt))

theorem walkInv_of_same (ui : Flags) (diffs : List DiffOp) (i : Nat) (c c0 : Chunk)
    (h : c.same c0) (hinv : walkInv ui diffs i c0) : walkInv ui diffs i c := by
  unfold walkInv
  rw [h.1, h.2.1]
  exact hinv

/-- What a call of `insertSeparatorIfNeeded` meets and how its result enters the
output of the op. -/
theorem separatorCall_inv (ui : Flags) (diffs : List DiffOp) (i : Nat) (c : Chunk)
    (hidden : JSString) (c' : Chunk) (hv : ui.viewOnlyDiff = true)
    (hinv : walkInv ui diffs i c)
    (hcall : separatorCall ui diffs i c = some (hidden, c')) :
    hidden ≠ [] ∧ labelled c'.flat ∧ separatorIsLast c'.flat ∧
    ((renderOp ui diffs i c).flat = (insertSeparatorIfNeeded ui i hidden c').flat ∨
      ∃ tail, (renderOp ui diffs i c).flat
        = (insertSeparatorIfNeeded ui i hidden c').flat ++ [Node.text tail]) := by
  unfold separatorCall at hcall
  cases hop : diffs.get? i with
  | none => rw [hop] at hcall; cases hcall
  | some op =>
    rw [hop] at hcall
    simp only at hcall
    by_cases htype : op.type = DiffType.equal
    · rw [if_pos htype, hv, if_pos rfl] at hcall
      have hs : isShownChange ui op = false := by
        unfold isShownChange
        simp [htype]
      have hsil := separatorIsLast_of_hidden ui diffs i c op hinv hop hs
      cases ha : afterSuffix op.text c with
      | none => rw [ha] at hcall; cases hcall
      | some p =>
        obtain ⟨rest, c0⟩ := p
        rw [ha] at hcall
        simp only at hcall
        have h1 : (decide (op.type = DiffType.equal) && ui.viewOnlyDiff) = true := by
          simp [htype, hv]
        have hrender : renderOp ui diffs i c = processRemainingText ui diffs i rest c0 := by
          rw [renderOp_eq ui diffs i c op hop, if_pos h1, processViewOnlyContext_eq, ha]
        obtain ⟨a1, a2, _⟩ := afterSuffix_inv op.text c rest c0 hinv.1 hsil ha
        by_cases hp : (!(tailAfterLastNewline rest).isEmpty
            && nextStartsChangedLine diffs i) = true
        · rw [if_pos hp] at hcall
          cases hh : (headThroughLastNewline rest).isEmpty
          · rw [hh] at hcall
            simp only [Bool.false_eq_true, if_false, Option.some.injEq, Prod.mk.injEq] at hcall
            obtain ⟨e1, e2⟩ := hcall
            subst e1 e2
            have hne : headThroughLastNewline rest ≠ [] := by
              intro h
              rw [h] at hh
              cases hh
            have hrest : rest ≠ [] := by
              intro h
              rw [h] at hne
              exact hne rfl
            refine ⟨hne, a1, a2, Or.inr ⟨tailAfterLastNewline rest, ?_⟩⟩
            rw [hrender, processRemainingText_eq ui diffs i rest c0 hrest, if_pos hp, hh]
            simp only [Bool.false_eq_true, if_false]
            exact append_flat (insertSeparatorIfNeeded ui i (headThroughLastNewline rest) c0)
              (Node.text (tailAfterLastNewline rest))
          · rw [hh] at hcall
            simp only [if_true] at hcall
            cases hcall
        · rw [if_neg hp] at hcall
          cases hr : rest.isEmpty
          · rw [hr] at hcall
            simp only [Bool.false_eq_true, if_false, Option.some.injEq, Prod.mk.injEq] at hcall
            obtain ⟨e1, e2⟩ := hcall
            subst e1 e2
            have hrest : rest ≠ [] := by
              intro h
              rw [h] at hr
              cases hr
            refine ⟨hrest, a1, a2, Or.inl ?_⟩
            rw [hrender, processRemainingText_eq ui diffs i rest c0 hrest, if_neg hp]
          · rw [hr] at hcall
            simp only [if_true] at hcall
            cases hcall
    · rw [if_neg htype] at hcall
      cases hig : shouldIgnoreChange op.text ui.ignoreEnter
      · rw [hig] at hcall
        simp only [Bool.false_and, Bool.false_eq_true, if_false] at hcall
        cases hcall
      · rw [hig, hv] at hcall
        simp only [Bool.and_self, if_true, Option.some.injEq, Prod.mk.injEq] at hcall
        obtain ⟨e1, e2⟩ := hcall
        subst e1 e2
        have hs : isShownChange ui op = false := by
          unfold isShownChange
          rw [hig]
          simp
        have hsil := separatorIsLast_of_hidden ui diffs i c op hinv hop hs
        have hne : op.text ≠ [] := by
          intro h
          rw [h] at hig
          cases hie : ui.ignoreEnter <;> rw [hie] at hig <;> cases hig
        exact ⟨hne, hinv.1, hsil,
          Or.inl (renderOp_ignored ui diffs i c op hop htype hig hv).1⟩

/-- C15: separator merging, on the texts the page hands to the renderer
(textarea values, which hold no carriage return). In view-only mode, at every
call of `insertSeparatorIfNeeded` with a non-empty hidden part made during the
walk over the ops, the output the call meets has no text node after a separator
at its end, so the hidden part is merged into an existing separator exactly
when that separator is the last fragment of the output: its count then becomes
the old count plus the line count of the part (the number of newlines plus one,
or 0 for a text of white space only under ignoreEnter), with the label
`... N Hidden Line ...` for N = 1 and `... N Hidden Lines ...` otherwise. When
the last fragment is not a separator, a new separator with the count of the
part is appended if that count is positive, and nothing changes if it is 0. -/
theorem separator_merging (ui : Flags) (diffs : List DiffOp) (i : Nat) (c : Chunk)
    (hidden : JSString) (c' : Chunk)
    (hv : ui.viewOnlyDiff = true) (hcr : ∀ d ∈ diffs, 13 ∉ d.text)
    (hc : c.same (renderOps ui diffs 0 i Chunk.start))
    (hcall : separatorCall ui diffs i c = some (hidden, c')) :
    hidden ≠ [] ∧
    ((renderOp ui diffs i c).flat = (insertSeparatorIfNeeded ui i hidden c').flat ∨
      ∃ tail, (renderOp ui diffs i c).flat
        = (insertSeparatorIfNeeded ui i hidden c').flat ++ [Node.text tail]) ∧
    (∀ t, lastElementChild c'.flat = some (Node.separator t) →
      c'.flat.getLast? = some (Node.separator t)) ∧
    (∀ t, Node.separator t ∈ c'.flat → ∃ n, t = hiddenLabel n) ∧
    (∀ pre n, c'.flat = pre ++ [Node.separator (hiddenLabel n)] →
      (insertSeparatorIfNeeded ui i hidden c').flat
        = pre ++ [Node.separator (hiddenLabel (n + hiddenLineCount ui hidden))]) ∧
    ((∀ t, c'.flat.getLast? ≠ some (Node.separator t)) →
      (0 < hiddenLineCount ui hidden →
        insertSeparatorIfNeeded ui i hidden c'
          = c'.append (Node.separator (hiddenLabel (hiddenLineCount ui hidden)))) ∧
      (hiddenLineCount ui hidden = 0 → insertSeparatorIfNeeded ui i hidden c' = c')) ∧
    hiddenLineCount ui hidden
      = (if (ui.ignoreEnter && hidden.all isWhiteSpace) = true then 0
         else countNewlines hidden + 1) ∧
    hiddenLabel 1 = utf16 "... 1 Hidden Line ..." ∧
    (∀ n, n ≠ 1 →
      hiddenLabel n = utf16 "... " ++ numberToString n ++ utf16 " Hidden Lines ...") := by
  have hlen : i < diffs.length := by
    rcases Nat.lt_or_ge i diffs.length with h | h
    · exact h
    · unfold separatorCall at hcall
      rw [List.get?_eq_none.2 h] at hcall
      cases hcall
  have hinv : walkInv ui diffs i c :=
    walkInv_of_same ui diffs i c _ hc (walkInv_walk ui diffs hv hcr i (Nat.le_of_lt hlen))
  obtain ⟨h1, h2, h3, h4⟩ := separatorCall_inv ui diffs i c hidden c' hv hinv hcall
  refine ⟨h1, h4, h3, h2, ?_, ?_, rfl, hiddenLabel_one, hiddenLabel_many⟩
  · intro pre n hflat
    exact (insertSeparatorIfNeeded_merge ui i hidden c').1 pre n [] hflat
      (fun x hx => absurd hx (List.not_mem_nil x))
  · intro hlast
    have hlastEl : ∀ t, c'.lastEl ≠ some (Node.separator t) := by
      intro t ht
      rw [lastEl_eq_flat] at ht
      exact hlast t (h3 t ht)
    refine ⟨(insertSeparatorIfNeeded_merge ui i hidden c').2.1 hlastEl, ?_⟩
    intro h0
    exact insertSeparatorIfNeeded_zero_viewOnly ui i hidden c' h0 hv

/-- Witness for C15: the hidden context `c\nd\n` at position 2, met when the
walk has left a separator of two lines as the last fragment. -/
theorem separator_merging_witness :
    (insertSeparatorIfNeeded ⟨true, true⟩ 2 (utf16 "c\nd\n")
      (renderOps ⟨true, true⟩
        [⟨DiffType.equal, utf16 "a\n"⟩, ⟨DiffType.insert, utf16 "\n"⟩,
          ⟨DiffType.equal, utf16 "c\nd\n"⟩, ⟨DiffType.insert, utf16 "x"⟩]
        0 2 Chunk.start)).flat
      = [Node.separator (utf16 "... 5 Hidden Lines ...")] :=
  (separator_merging ⟨true, true⟩
    [⟨DiffType.equal, utf16 "a\n"⟩, ⟨DiffType.insert, utf16 "\n"⟩,
      ⟨DiffType.equal, utf16 "c\nd\n"⟩, ⟨DiffType.insert, utf16 "x"⟩] 2
    (renderOps ⟨true, true⟩
      [⟨DiffType.equal, utf16 "a\n"⟩, ⟨DiffType.insert, utf16 "\n"⟩,
        ⟨DiffType.equal, utf16 "c\nd\n"⟩, ⟨DiffType.insert, utf16 "x"⟩]
      0 2 Chunk.start)
    (utf16 "c\nd\n")
    (renderOps ⟨true, true⟩
      [⟨DiffType.equal, utf16 "a\n"⟩, ⟨DiffType.insert, utf16 "\n"⟩,
        ⟨DiffType.equal, utf16 "c\nd\n"⟩, ⟨DiffType.insert, utf16 "x"⟩]
      0 2 Chunk.start)
    rfl (by decide) ⟨rfl, rfl, rfl⟩ (by decide)).2.2.2.2.1 [] 2 (by decide)

end TextDiff
